import Mathlib

/-!
# `BigInteger` of `shamir_secret_sharing.cpp`

A shallow embedding of the arbitrary-precision signed integer class of
`src/shamir_secret_sharing.cpp`, and theorems about its operations.

Modelling conventions.

* `vector<long long> digits` is a `List Int`, least significant limb first;
  `digits.back()` is the head of the reversed list.
* `long long` arithmetic is exact integer arithmetic followed by `wrap64`
  (two's complement wrap-around); `int` arithmetic is followed by `wrap32`.
  `/` and `%` on `long long` truncate toward zero (`Int.tdiv`, `Int.tmod`).
* The index `int i = s.length()` of the loop of the constructor from text is the
  length wrapped to 32 bits. The `int` indices that run over `digits` in
  `operator<` and `toString` are exact: they wrap around only from `2^31 + 1`
  limbs on.
* `std::string` is a `List Char`, one `Char` per C++ `char`.
* A C++ exception, and an access outside a vector, is an `Error` returned
  through `Except`.
* `operator+`, binary `operator-` and `operator<` call each other; the model
  threads a `fuel` counter through these calls (one unit per call) and through
  the `while` loop of `operator/`, and returns `Error.outOfFuel` when it is
  used up.
-/

namespace Shamir

deriving instance DecidableEq for Except

/-- The constant `static const long long BASE = 1000000000LL`. -/
def BASE : Int := 1000000000

/-- Two's complement wrap-around of an exact integer to `long long`. -/
def wrap64 (x : Int) : Int := (x + 2 ^ 63) % 2 ^ 64 - 2 ^ 63

/-- Two's complement wrap-around of an exact integer to `int`. -/
def wrap32 (x : Int) : Int := (x + 2 ^ 31) % 2 ^ 32 - 2 ^ 31

/-- The ways a call can fail to return a value. -/
inductive Error where
  /-- The exception `runtime_error("Division by zero")` thrown by `operator/`. -/
  | divisionByZero
  /-- The exception `std::invalid_argument`, thrown by `stoll` when no digit can be read. -/
  | invalidArgument
  /-- The exception `std::out_of_range`, thrown by `stoll`. -/
  | outOfRange
  /-- The exception `std::length_error`, thrown by `string(n, c)` for a wrapped-around `n`. -/
  | lengthError
  /-- An access outside a vector (`digits[k]` past the end, `back()` of an empty vector). -/
  | undefinedBehaviour
  /-- The fuel of the model ran out: the modelled call did not return within the budget. -/
  | outOfFuel
deriving DecidableEq, Repr

/-- The class `BigInteger`: `vector<long long> digits; bool negative;`. -/
structure BigInteger where
  digits : List Int
  negative : Bool
deriving DecidableEq, Repr

namespace BigInteger

/-- The default constructor `BigInteger() : negative(false) { digits.push_back(0); }`. -/
def default : BigInteger := ⟨[0], false⟩

/-- The loop `while (num > 0) { digits.push_back(num % BASE); num /= BASE; }`;
`fuel` bounds the number of iterations. -/
def pushLimbs : Nat → Int → List Int
  | 0, _ => []
  | fuel + 1, num =>
    if num > 0 then num.tmod BASE :: pushLimbs fuel (num.tdiv BASE) else []

/-- The constructor `BigInteger(long long num)`. The loop runs at most `num` times,
since `num / BASE < num` for a positive `num`. -/
def ofLongLong (num : Int) : BigInteger :=
  let negative := decide (num < 0)
  let num := if num < 0 then wrap64 (-num) else num
  if num = 0 then ⟨[0], negative⟩ else ⟨pushLimbs num.toNat num, negative⟩

/-- The loop `while (digits.size() > 1 && digits.back() == 0) digits.pop_back();`
on the reversed vector. -/
def popZeros : List Int → List Int
  | 0 :: y :: ys => popZeros (y :: ys)
  | l => l

/-- The method `isZero`: `digits.size() == 1 && digits[0] == 0`. -/
def isZero (x : BigInteger) : Bool :=
  match x.digits with
  | [d] => d == 0
  | _ => false

/-- The method `removeLeadingZeros`. -/
def removeLeadingZeros (x : BigInteger) : BigInteger :=
  let y : BigInteger := ⟨(popZeros x.digits.reverse).reverse, x.negative⟩
  if y.isZero then ⟨y.digits, false⟩ else y

/-- Unary `operator-`. -/
def neg (x : BigInteger) : BigInteger :=
  if !x.isZero then ⟨x.digits, !x.negative⟩ else x

/-- The tail of the loop of `operator+` once `i >= maxSize`: it goes on while
`carry` is not zero. `fuel` bounds the number of iterations. -/
def carryTail : Nat → Int → List Int
  | 0, _ => []
  | fuel + 1, carry =>
    if carry ≠ 0 then carry.tmod BASE :: carryTail fuel (carry.tdiv BASE) else []

/-- The loop `for (i = 0; i < maxSize || carry; i++)` of `operator+` once
`i >= digits.size()`, on the limbs of `other` from index `i` on. After the last limb
the loop runs at most `|carry|` more times, since `|carry / BASE| < |carry|` for a
nonzero `carry`. -/
def addRest : List Int → Int → List Int
  | [], carry => carryTail carry.natAbs carry
  | y :: ys, carry =>
    let sum := wrap64 (carry + y)
    sum.tmod BASE :: addRest ys (sum.tdiv BASE)

/-- The loop `for (i = 0; i < maxSize || carry; i++)` of `operator+`, on the limbs of
both operands from index `i` on. -/
def addLoop : List Int → List Int → Int → List Int
  | [], ys, carry => addRest ys carry
  | x :: xs, [], carry =>
    let sum := wrap64 (carry + x)
    sum.tmod BASE :: addLoop xs [] (sum.tdiv BASE)
  | x :: xs, y :: ys, carry =>
    let sum := wrap64 (wrap64 (carry + x) + y)
    sum.tmod BASE :: addLoop xs ys (sum.tdiv BASE)

/-- The borrow loop `for (i = 0; i < digits.size(); i++)` of binary `operator-`, on the
limbs of both operands from index `i` on: the limbs pushed and the borrow at loop exit. -/
def subLoop : List Int → List Int → Int → List Int × Int
  | [], _, borrow => ([], borrow)
  | x :: xs, ys, borrow =>
    let diff0 := wrap64 (x - borrow)
    let diff1 := match ys with
      | [] => diff0
      | y :: _ => wrap64 (diff0 - y)
    let diff := if diff1 < 0 then wrap64 (diff1 + BASE) else diff1
    let borrow := if diff1 < 0 then 1 else 0
    let r := subLoop xs ys.tail borrow
    (diff :: r.1, r.2)

/-- The loop `for (int i = digits.size() - 1; i >= 0; i--)` of `operator<`, on both
vectors reversed (they have the same size there). -/
def ltLoop : List Int → List Int → Bool
  | x :: xs, y :: ys => if x ≠ y then decide (x < y) else ltLoop xs ys
  | _, _ => false

mutual

/-- Binary `operator+`. -/
def add : Nat → BigInteger → BigInteger → Except Error BigInteger
  | 0, _, _ => .error .outOfFuel
  | fuel + 1, a, other =>
    if a.negative != other.negative then
      if a.negative then sub fuel other (neg a) else sub fuel a (neg other)
    else
      .ok (removeLeadingZeros ⟨addLoop a.digits other.digits 0, a.negative⟩)

/-- Binary `operator-`. -/
def sub : Nat → BigInteger → BigInteger → Except Error BigInteger
  | 0, _, _ => .error .outOfFuel
  | fuel + 1, a, other =>
    if a.negative != other.negative then add fuel a (neg other)
    else if a.negative then sub fuel (neg other) (neg a)
    else do
      let less ← lt fuel a other
      if less then do
        let result ← sub fuel other a
        pure ⟨result.digits, true⟩
      else
        pure (removeLeadingZeros ⟨(subLoop a.digits other.digits 0).1, false⟩)

/-- The comparison `operator<`. -/
def lt : Nat → BigInteger → BigInteger → Except Error Bool
  | 0, _, _ => .error .outOfFuel
  | fuel + 1, a, other =>
    if a.negative != other.negative then .ok a.negative
    else if a.negative then lt fuel (neg other) (neg a)
    else if a.digits.length ≠ other.digits.length then
      .ok (decide (a.digits.length < other.digits.length))
    else .ok (ltLoop a.digits.reverse other.digits.reverse)

end

/-- The comparison `operator>=`: `!(*this < other)`. -/
def ge (fuel : Nat) (a other : BigInteger) : Except Error Bool := do
  let less ← lt fuel a other
  pure (!less)

/-- The comparison `operator==`. -/
def eq (a other : BigInteger) : Bool :=
  a.negative == other.negative && a.digits == other.digits

/-- The inner loop `for (j = 0; j < other.digits.size() || carry; j++)` of `operator*`
for one limb `di = digits[i]`: `acc` is `result.digits` from index `i + j` on, `o` is
`other.digits` from index `j` on. Returns the updated `result.digits` from `i + j` on. -/
def mulRow (di : Int) : List Int → List Int → Int → Except Error (List Int)
  | [], o, carry =>
    if o = [] ∧ carry = 0 then .ok [] else .error .undefinedBehaviour
  | r :: acc, o, carry =>
    if o = [] ∧ carry = 0 then .ok (r :: acc)
    else
      let prod0 := wrap64 (r + carry)
      let prod := match o with
        | [] => prod0
        | oj :: _ => wrap64 (prod0 + wrap64 (di * oj))
      do
        let rest ← mulRow di acc o.tail (prod.tdiv BASE)
        pure (prod.tmod BASE :: rest)

/-- The outer loop `for (i = 0; i < digits.size(); i++)` of `operator*`: `ds` is
`digits` from index `i` on, `acc` is `result.digits` from index `i` on (row `i` and the
later rows leave the limbs below `i` alone). -/
def mulOuter : List Int → List Int → List Int → Except Error (List Int)
  | [], _, acc => .ok acc
  | d :: ds, o, acc => do
    let row ← mulRow d acc o 0
    match row with
    | [] => mulOuter ds o []
    | r :: rest => do
      let t ← mulOuter ds o rest
      pure (r :: t)

/-- Binary `operator*`. -/
def mul (a other : BigInteger) : Except Error BigInteger := do
  let r ← mulOuter a.digits other.digits
    (List.replicate (a.digits.length + other.digits.length) 0)
  pure (removeLeadingZeros ⟨r, a.negative != other.negative⟩)

/-- The decimal digit `d` as a character. -/
def digitChar : Nat → Char
  | 0 => '0' | 1 => '1' | 2 => '2' | 3 => '3' | 4 => '4'
  | 5 => '5' | 6 => '6' | 7 => '7' | 8 => '8' | _ => '9'

/-- The decimal digits of a natural number, most significant first, without leading
zeros (`"0"` for zero); `fuel` bounds the number of digits. -/
def decDigits : Nat → Nat → List Char
  | 0, _ => []
  | fuel + 1, n =>
    if n < 10 then [digitChar n] else decDigits fuel (n / 10) ++ [digitChar (n % 10)]

/-- The library function `std::to_string(long long)`. -/
def to_string (x : Int) : List Char :=
  if x < 0 then '-' :: decDigits (x.natAbs + 1) x.natAbs
  else decDigits (x.natAbs + 1) x.natAbs

/-- The expression `string(9 - chunk.length(), '0') + chunk`: the count is a `size_t`,
so a chunk longer than 9 characters asks for a string of almost `2^64` characters. -/
def pad9 (chunk : List Char) : Except Error (List Char) :=
  if chunk.length ≤ 9 then .ok (List.replicate (9 - chunk.length) '0' ++ chunk)
  else .error .lengthError

/-- The loop `for (int i = digits.size() - 2; i >= 0; i--)` of `toString`, on the
limbs below the most significant one, most significant first. -/
def padLimbs : List Int → Except Error (List Char)
  | [] => .ok []
  | d :: ds => do
    let chunk ← pad9 (to_string d)
    let rest ← padLimbs ds
    pure (chunk ++ rest)

/-- The method `toString`. -/
def toString (x : BigInteger) : Except Error (List Char) :=
  if x.isZero then .ok ['0']
  else
    match x.digits.reverse with
    | [] => .error .undefinedBehaviour
    | top :: lower => do
      let rest ← padLimbs lower
      pure ((if x.negative then ['-'] else []) ++ to_string top ++ rest)

/-- The library predicate `isspace` of the C locale. -/
def isspace (c : Char) : Bool :=
  c == ' ' || c == '\t' || c == '\n' || c == '\x0b' || c == '\x0c' || c == '\r'

/-- The value `digit - '0'` of a character. -/
def digitVal (c : Char) : Int := (c.toNat : Int) - 48

/-- The number that a string of decimal digits denotes. -/
def decValue (s : List Char) : Int :=
  s.foldl (fun acc c => acc * 10 + digitVal c) 0

/-- The optional sign that `std::stoll` reads before the digits: whether it is `-`,
and the rest of the string. -/
def readSign (s : List Char) : Bool × List Char :=
  match s with
  | '-' :: t => (true, t)
  | '+' :: t => (false, t)
  | _ => (false, s)

/-- The library function `std::stoll(str)`: skips leading white space, reads an
optional sign and then the longest run of decimal digits; throws
`std::invalid_argument` when there is no digit and `std::out_of_range` when the
number does not fit a `long long`. -/
def stoll (str : List Char) : Except Error Int :=
  let signed := readSign (str.dropWhile isspace)
  let ds := signed.2.takeWhile Char.isDigit
  if ds = [] then .error .invalidArgument
  else
    let v := if signed.1 then -decValue ds else decValue ds
    if v < -2 ^ 63 ∨ 2 ^ 63 - 1 < v then .error .outOfRange else .ok v

/-- The loop `for (int i = s.length(); i > 0; i -= 9)` of the constructor from text,
from the value `i` of its `int` index on: `start = max(0, i - 9)` and the chunk is
`s.substr(start, i - start)`. `fuel` bounds the number of iterations. -/
def chunkLoop : Nat → List Char → Int → Except Error (List Int)
  | 0, _, i => if i > 0 then .error .outOfFuel else .ok []
  | fuel + 1, s, i =>
    if i > 0 then do
      let start := max 0 (wrap32 (i - 9))
      let chunk := (s.drop start.toNat).take (wrap32 (i - start)).toNat
      let limb ← stoll chunk
      let rest ← chunkLoop fuel s (wrap32 (i - 9))
      pure (limb :: rest)
    else .ok []

/-- The constructor `BigInteger(const string& str)`. The index of its loop is an `int`
initialised with `s.length()`: the conversion wraps around from `2^31` characters on. The
loop runs at most `s.length()` times. -/
def ofString (str : List Char) : Except Error BigInteger :=
  let signed : Bool × List Char :=
    match str with
    | '-' :: t => (true, t)
    | _ => (false, str)
  let s := signed.2
  if s = [] ∨ s = ['0'] then .ok ⟨[0], false⟩
  else do
    let ds ← chunkLoop s.length s (wrap32 s.length)
    pure (removeLeadingZeros ⟨ds, signed.1⟩)

/-- The loop `while (current >= div) { current = current - div; quotient++; }` of
`operator/`; `iters` bounds the number of iterations, `fuel` is passed to the
comparison and the subtraction. -/
def divWhile (fuel : Nat) (dv : BigInteger) :
    Nat → BigInteger → Int → Except Error (BigInteger × Int)
  | 0, _, _ => .error .outOfFuel
  | iters + 1, current, quotient => do
    let goOn ← ge fuel current dv
    if goOn then do
      let current ← sub fuel current dv
      divWhile fuel dv iters current (wrap32 (quotient + 1))
    else pure (current, quotient)

/-- The loop `for (char digit : dividendStr)` of `operator/`: the final `result`. -/
def divDigits (fuel : Nat) (dv : BigInteger) :
    List Char → BigInteger → BigInteger → Except Error BigInteger
  | [], result, _ => .ok result
  | digit :: rest, result, current => do
    let shifted ← mul current (ofLongLong 10)
    let current ← add fuel shifted (ofLongLong (digitVal digit))
    let step ← divWhile fuel dv fuel current 0
    let shifted ← mul result (ofLongLong 10)
    let result ← add fuel shifted (ofLongLong step.2)
    divDigits fuel dv rest result step.1

/-- Binary `operator/`. -/
def div (fuel : Nat) (a divisor : BigInteger) : Except Error BigInteger :=
  if divisor.isZero then .error .divisionByZero
  else
    let dividend : BigInteger := ⟨a.digits, false⟩
    let dv : BigInteger := ⟨divisor.digits, false⟩
    do
      let less ← lt fuel dividend dv
      if less then pure (ofLongLong 0)
      else if dv.digits.length = 1 ∧ dividend.digits.length ≤ 2 then
        match dv.digits, dividend.digits with
        | divVal :: _, d0 :: high =>
          let divdVal := match high with
            | d1 :: _ => wrap64 (d0 + wrap64 (d1 * BASE))
            | [] => d0
          let result := ofLongLong (wrap64 (divdVal.tdiv divVal))
          pure ⟨result.digits, (a.negative != divisor.negative) && !result.isZero⟩
        | _, _ => .error .undefinedBehaviour
      else do
        let dividendStr ← toString dividend
        let result ← divDigits fuel dv dividendStr (ofLongLong 0) (ofLongLong 0)
        pure ⟨result.digits, (a.negative != divisor.negative) && !result.isZero⟩

/-! ## What a `BigInteger` denotes -/

/-- The magnitude that a limb sequence denotes: the sum of `limb_i * BASE^i`. -/
def magVal : List Int → Int
  | [] => 0
  | d :: ds => d + BASE * magVal ds

/-- The integer that a `BigInteger` denotes. -/
def value (x : BigInteger) : Int :=
  if x.negative then -magVal x.digits else magVal x.digits

/-- Canonical form: the magnitude is not empty, every limb lies in `[0, BASE)`, the
most significant limb of a magnitude of several limbs is not zero, and zero is not
negative. -/
def canonical (x : BigInteger) : Prop :=
  x.digits ≠ [] ∧ (∀ d ∈ x.digits, 0 ≤ d ∧ d < BASE) ∧
    (1 < x.digits.length → x.digits.getLast? ≠ some 0) ∧
    (x.digits = [0] → x.negative = false)

instance (x : BigInteger) : Decidable (canonical x) := by
  unfold canonical; infer_instance

/-- Every limb lies in `[0, BASE)`. -/
def limbsOk (ds : List Int) : Prop := ∀ d ∈ ds, 0 ≤ d ∧ d < BASE

/-- Canonical form of a magnitude: not empty, every limb in `[0, BASE)`, and the most
significant limb of a magnitude of several limbs is not zero. -/
def canonMag (ds : List Int) : Prop :=
  ds ≠ [] ∧ limbsOk ds ∧ (1 < ds.length → ds.getLast? ≠ some 0)

instance (ds : List Int) : Decidable (limbsOk ds) := by
  unfold limbsOk; infer_instance

instance (ds : List Int) : Decidable (canonMag ds) := by
  unfold canonMag; infer_instance

/-- The pattern `[0-9]+`: a non-empty string of decimal digits. -/
def allDigits (s : List Char) : Bool := !s.isEmpty && s.all Char.isDigit

/-- The pattern `-?[0-9]+`. -/
def matchesInt (s : List Char) : Bool :=
  match s with
  | '-' :: t => allDigits t
  | _ => allDigits s

/-- The integer that a string matching `-?[0-9]+` denotes in base 10. -/
def intOfText (s : List Char) : Int :=
  match s with
  | '-' :: t => -decValue t
  | _ => decValue s

/-- A string matching `-?[0-9]+` with no superfluous leading zeros: exactly `"0"`, or
an optional `-` followed by digits of which the first is not `0`. -/
def noLeadingZeros (s : List Char) : Bool :=
  s == ['0'] ||
    match s with
    | '-' :: d :: t => d != '0' && allDigits (d :: t)
    | d :: t => d != '0' && allDigits (d :: t)
    | [] => false

/-- A limb written with exactly nine decimal digits, zero-padded on the left. -/
def zeroPad9 (d : Int) : List Char :=
  List.replicate (9 - (to_string d).length) '0' ++ to_string d

/-- The limbs of a list, each zero-padded to nine digits, one after the other. -/
def zeroPadAll : List Int → List Char
  | [] => []
  | d :: ds => zeroPad9 d ++ zeroPadAll ds

/-- The part of a text after its optional leading `-`: the string `s` of the constructor
from text at its loop. -/
def digitPart (str : List Char) : List Char :=
  match str with
  | '-' :: t => t
  | _ => str

/-- Whether a chunk begins with a number as `std::stoll` reads it: after leading white
space and an optional sign comes a decimal digit. -/
def startsWithNumber (chunk : List Char) : Bool :=
  match (readSign (chunk.dropWhile isspace)).2 with
  | c :: _ => c.isDigit
  | [] => false

/-- The chunks of nine characters into which a text is cut from its right end; the last
chunk, the leftmost, may be shorter. `fuel` bounds the number of chunks. -/
def chunksFromRight : Nat → List Char → List (List Char)
  | 0, _ => []
  | fuel + 1, s =>
    if s = [] then []
    else s.drop (s.length - 9) :: chunksFromRight fuel (s.take (s.length - 9))

/-- The texts with a chunk that does not begin with a number: after the optional leading
`-` the text is neither empty nor `"0"`, and one of its chunks of nine characters, cut
from the right end, does not begin with a number. -/
def rejectedText (str : List Char) : Bool :=
  digitPart str != [] && digitPart str != ['0'] &&
    (chunksFromRight (digitPart str).length (digitPart str)).any
      (fun chunk => !startsWithNumber chunk)

/-! ## Instrumented and exact evaluation of the loops -/

/-- The indices `i + j` at which the inner loop of `operator*` reads and writes
`result.digits` for one limb `di = digits[i]`: `k` is the index of the head of `acc`, so
an access to an empty `acc` is an access at `k = result.digits.size()`. -/
def mulRowAccesses (di : Int) : Nat → List Int → List Int → Int → List Nat
  | k, [], o, carry => if o = [] ∧ carry = 0 then [] else [k]
  | k, r :: acc, o, carry =>
    if o = [] ∧ carry = 0 then []
    else
      let prod0 := wrap64 (r + carry)
      let prod := match o with
        | [] => prod0
        | oj :: _ => wrap64 (prod0 + wrap64 (di * oj))
      k :: mulRowAccesses di (k + 1) acc o.tail (prod.tdiv BASE)

/-- The indices at which `operator*` reads and writes `result.digits`, row by row:
`i` is the index of the head of `ds` in `digits` and of the head of `acc` in
`result.digits`; the rows stop after an access outside the vector. -/
def mulAccesses : Nat → List Int → List Int → List Int → List Nat
  | _, [], _, _ => []
  | i, d :: ds, o, acc =>
    mulRowAccesses d i acc o 0 ++
      match mulRow d acc o 0 with
      | .ok (_ :: rest) => mulAccesses (i + 1) ds o rest
      | .ok [] => mulAccesses (i + 1) ds o []
      | .error _ => []

/-- A value of the signed 64-bit range of `long long`. -/
def inInt64 (v : Int) : Prop := -2 ^ 63 ≤ v ∧ v < 2 ^ 63

instance (v : Int) : Decidable (inInt64 v) := by
  unfold inInt64; infer_instance

/-- The values of `sum` in the loop of `operator+` once both operands are used up,
over exact integers. -/
def carrySums : Nat → Int → List Int
  | 0, _ => []
  | fuel + 1, carry =>
    if carry ≠ 0 then carry :: carrySums fuel (carry.tdiv BASE) else []

/-- The values of `sum` in the loop of `operator+` once `i >= digits.size()`, over exact
integers. -/
def addRestSums : List Int → Int → List Int
  | [], carry => carrySums carry.natAbs carry
  | y :: ys, carry =>
    let sum := carry + y
    sum :: addRestSums ys (sum.tdiv BASE)

/-- The values of `sum` in the loop of `operator+`, one for each iteration, over exact
integers: no wrap-around. -/
def addSums : List Int → List Int → Int → List Int
  | [], ys, carry => addRestSums ys carry
  | x :: xs, [], carry =>
    let sum := carry + x
    sum :: addSums xs [] (sum.tdiv BASE)
  | x :: xs, y :: ys, carry =>
    let sum := carry + x + y
    sum :: addSums xs ys (sum.tdiv BASE)

/-- The inner loop of `operator*` over exact integers: `mulRow` without wrap-around. -/
def mulRowExact (di : Int) : List Int → List Int → Int → Except Error (List Int)
  | [], o, carry =>
    if o = [] ∧ carry = 0 then .ok [] else .error .undefinedBehaviour
  | r :: acc, o, carry =>
    if o = [] ∧ carry = 0 then .ok (r :: acc)
    else
      let prod := match o with
        | [] => r + carry
        | oj :: _ => r + carry + di * oj
      do
        let rest ← mulRowExact di acc o.tail (prod.tdiv BASE)
        pure (prod.tmod BASE :: rest)

/-- The outer loop of `operator*` over exact integers: `mulOuter` without wrap-around. -/
def mulOuterExact : List Int → List Int → List Int → Except Error (List Int)
  | [], _, acc => .ok acc
  | d :: ds, o, acc => do
    let row ← mulRowExact d acc o 0
    match row with
    | [] => mulOuterExact ds o []
    | r :: rest => do
      let t ← mulOuterExact ds o rest
      pure (r :: t)

/-- The native values that one run of the inner loop of `operator*` computes, over exact
integers: in each iteration `result.digits[i + j] + carry`, the product
`digits[i] * other.digits[j]` (while `j < other.digits.size()`), `prod` and the new
`carry`. -/
def mulRowVals (di : Int) : List Int → List Int → Int → List Int
  | [], _, _ => []
  | r :: acc, o, carry =>
    if o = [] ∧ carry = 0 then []
    else
      match o with
      | [] =>
        [r + carry, (r + carry).tdiv BASE] ++
          mulRowVals di acc [] ((r + carry).tdiv BASE)
      | oj :: o =>
        [r + carry, di * oj, r + carry + di * oj, (r + carry + di * oj).tdiv BASE] ++
          mulRowVals di acc o ((r + carry + di * oj).tdiv BASE)

/-- The native values that `operator*` computes, row by row, over exact integers. -/
def mulVals : List Int → List Int → List Int → List Int
  | [], _, _ => []
  | d :: ds, o, acc =>
    mulRowVals d acc o 0 ++
      match mulRowExact d acc o 0 with
      | .ok (_ :: rest) => mulVals ds o rest
      | _ => []

/-! ## Machine arithmetic -/

theorem wrap64_of_range {x : Int} (h1 : -9223372036854775808 ≤ x) (h2 : x < 9223372036854775808) :
    wrap64 x = x := by
  unfold wrap64; omega

theorem wrap32_of_range {x : Int} (h1 : -2147483648 ≤ x) (h2 : x < 2147483648) :
    wrap32 x = x := by
  unfold wrap32; omega

theorem BASE_eq : BASE = 1000000000 := rfl

theorem BASE_pos : 0 < BASE := by decide

theorem tmod_BASE {x : Int} (h : 0 ≤ x) : x.tmod BASE = x % 1000000000 := by
  rw [Int.tmod_eq_emod h (by decide)]; rfl

theorem tdiv_BASE {x : Int} (h : 0 ≤ x) : x.tdiv BASE = x / 1000000000 := by
  rw [Int.tdiv_eq_ediv h (by decide)]; rfl

/-! ## Limb sequences -/

theorem limbsOk_nil : limbsOk [] := by intro d hd; cases hd

theorem limbsOk_cons {d : Int} {ds : List Int} :
    limbsOk (d :: ds) ↔ (0 ≤ d ∧ d < BASE) ∧ limbsOk ds := by
  unfold limbsOk; simp

theorem limbsOk_append {xs ys : List Int} :
    limbsOk (xs ++ ys) ↔ limbsOk xs ∧ limbsOk ys := by
  unfold limbsOk; simp only [List.mem_append]
  constructor
  · intro h; exact ⟨fun d hd => h d (Or.inl hd), fun d hd => h d (Or.inr hd)⟩
  · rintro ⟨h1, h2⟩ d (hd | hd)
    · exact h1 d hd
    · exact h2 d hd

theorem limbsOk_reverse {xs : List Int} : limbsOk xs.reverse ↔ limbsOk xs := by
  unfold limbsOk; simp

theorem magVal_nil : magVal [] = 0 := rfl

theorem magVal_cons (d : Int) (ds : List Int) : magVal (d :: ds) = d + BASE * magVal ds := rfl

theorem magVal_append (xs ys : List Int) :
    magVal (xs ++ ys) = magVal xs + BASE ^ xs.length * magVal ys := by
  induction xs with
  | nil => simp [magVal]
  | cons x xs ih =>
    rw [List.cons_append, magVal_cons, magVal_cons, ih, List.length_cons, pow_succ]; ring

theorem magVal_nonneg {ds : List Int} (h : limbsOk ds) : 0 ≤ magVal ds := by
  induction ds with
  | nil => simp [magVal]
  | cons d ds ih =>
    rw [limbsOk_cons] at h
    have := ih h.2
    have hb := BASE_pos
    simp only [magVal]
    have : 0 ≤ BASE * magVal ds := mul_nonneg hb.le this
    omega

theorem magVal_lt_pow {ds : List Int} (h : limbsOk ds) : magVal ds < BASE ^ ds.length := by
  induction ds with
  | nil => simp [magVal]
  | cons d ds ih =>
    rw [limbsOk_cons] at h
    have h1 := ih h.2
    simp only [magVal, List.length_cons, pow_succ]
    have hb := BASE_pos
    have : BASE * (magVal ds + 1) ≤ BASE * BASE ^ ds.length :=
      mul_le_mul_of_nonneg_left (by omega) hb.le
    nlinarith [h.1.1, h.1.2]

/-! ## Normalisation -/

theorem isZero_iff (x : BigInteger) : x.isZero = true ↔ x.digits = [0] := by
  unfold isZero
  rcases hx : x.digits with _ | ⟨d, _ | ⟨e, t⟩⟩ <;> simp

theorem isZero_eq_false_iff (x : BigInteger) : x.isZero = false ↔ x.digits ≠ [0] := by
  rw [Ne, ← isZero_iff]; simp

theorem canonical_iff (x : BigInteger) :
    canonical x ↔ canonMag x.digits ∧ (x.digits = [0] → x.negative = false) := by
  unfold canonical canonMag limbsOk
  tauto

theorem popZeros_ne_nil {r : List Int} (h : r ≠ []) : popZeros r ≠ [] := by
  induction r with
  | nil => exact absurd rfl h
  | cons x r ih =>
    cases r with
    | nil => unfold popZeros; split <;> simp_all
    | cons y ys =>
      by_cases hx : x = 0
      · subst hx; rw [popZeros]; exact ih (by simp)
      · unfold popZeros; split
        · simp_all
        · simp

theorem popZeros_zero_cons (y : Int) (ys : List Int) :
    popZeros (0 :: y :: ys) = popZeros (y :: ys) := by
  rw [popZeros]

theorem popZeros_of_ne {x : Int} (hx : x ≠ 0) (r : List Int) : popZeros (x :: r) = x :: r := by
  unfold popZeros; split
  · simp_all
  · rfl

theorem popZeros_single (x : Int) : popZeros [x] = [x] := by
  unfold popZeros; split
  · simp_all
  · rfl

theorem popZeros_mem {r : List Int} {d : Int} (h : d ∈ popZeros r) : d ∈ r := by
  induction r with
  | nil => simp [popZeros] at h
  | cons x r ih =>
    cases r with
    | nil => rwa [popZeros_single] at h
    | cons y ys =>
      by_cases hx : x = 0
      · subst hx; rw [popZeros_zero_cons] at h; exact List.mem_cons_of_mem _ (ih h)
      · rwa [popZeros_of_ne hx] at h

theorem popZeros_magVal (r : List Int) : magVal (popZeros r).reverse = magVal r.reverse := by
  induction r with
  | nil => simp [popZeros]
  | cons x r ih =>
    cases r with
    | nil => rw [popZeros_single]
    | cons y ys =>
      by_cases hx : x = 0
      · subst hx
        rw [popZeros_zero_cons, ih, List.reverse_cons (a := 0), magVal_append]
        simp [magVal]
      · rw [popZeros_of_ne hx]

theorem popZeros_head {r : List Int} {h : Int} {t : List Int}
    (hp : popZeros r = h :: t) (ht : t ≠ []) : h ≠ 0 := by
  induction r with
  | nil => simp [popZeros] at hp
  | cons x r ih =>
    cases r with
    | nil =>
      rw [popZeros_single] at hp
      simp only [List.cons.injEq] at hp
      exact absurd hp.2.symm ht
    | cons y ys =>
      by_cases hx : x = 0
      · subst hx; rw [popZeros_zero_cons] at hp; exact ih hp
      · rw [popZeros_of_ne hx] at hp
        simp only [List.cons.injEq] at hp
        exact hp.1 ▸ hx

theorem popZeros_canonMag {ds : List Int} (hne : ds ≠ []) (hl : limbsOk ds) :
    canonMag (popZeros ds.reverse).reverse := by
  have hr : ds.reverse ≠ [] := by simpa using hne
  refine ⟨?_, ?_, ?_⟩
  · simpa using popZeros_ne_nil hr
  · intro d hd
    rw [List.mem_reverse] at hd
    exact hl d (by simpa using popZeros_mem hd)
  · intro hlen
    rw [List.getLast?_reverse]
    rcases hp : popZeros ds.reverse with _ | ⟨h, t⟩
    · exact absurd hp (popZeros_ne_nil hr)
    · rw [hp] at hlen
      have ht : t ≠ [] := by
        intro h0; subst h0; simp at hlen
      simp only [List.head?_cons, ne_eq, Option.some.injEq]
      exact popZeros_head hp ht

theorem removeLeadingZeros_digits (x : BigInteger) :
    (removeLeadingZeros x).digits = (popZeros x.digits.reverse).reverse := by
  unfold removeLeadingZeros
  dsimp only
  split <;> rfl

theorem removeLeadingZeros_negative (x : BigInteger) :
    (removeLeadingZeros x).negative =
      (if (popZeros x.digits.reverse).reverse = [0] then false else x.negative) := by
  unfold removeLeadingZeros
  dsimp only
  split
  · rename_i h; rw [isZero_iff] at h; dsimp only at h; rw [if_pos h]
  · rename_i h
    rw [Bool.not_eq_true, isZero_eq_false_iff] at h; dsimp only at h; rw [if_neg h]

theorem removeLeadingZeros_magVal (x : BigInteger) :
    magVal (removeLeadingZeros x).digits = magVal x.digits := by
  rw [removeLeadingZeros_digits, popZeros_magVal, List.reverse_reverse]

theorem magVal_single_zero : magVal [0] = 0 := by simp [magVal]

theorem removeLeadingZeros_canonical {x : BigInteger} (hne : x.digits ≠ [])
    (hl : limbsOk x.digits) : canonical (removeLeadingZeros x) := by
  rw [canonical_iff, removeLeadingZeros_digits, removeLeadingZeros_negative]
  refine ⟨popZeros_canonMag hne hl, ?_⟩
  intro h; rw [if_pos h]

theorem removeLeadingZeros_value (x : BigInteger) :
    value (removeLeadingZeros x) = value x := by
  unfold value
  rw [removeLeadingZeros_magVal, removeLeadingZeros_negative]
  split
  · rename_i h
    have h0 : magVal x.digits = 0 := by
      rw [← removeLeadingZeros_magVal, removeLeadingZeros_digits, h, magVal_single_zero]
    simp [h0]
  · rfl

/-! ## Comparison -/

theorem BASE_pow_pos (n : Nat) : 0 < BASE ^ n := pow_pos BASE_pos n

theorem canonMag_lower_bound {ds : List Int} (h : canonMag ds) (hlen : 1 < ds.length) :
    BASE ^ (ds.length - 1) ≤ magVal ds := by
  obtain ⟨_, hl, htop⟩ := h
  have htop := htop hlen
  rcases hr : ds.reverse with _ | ⟨t, r⟩
  · simp at hr; subst hr; simp at hlen
  · have hds : ds = r.reverse ++ [t] := by
      have := congrArg List.reverse hr
      simpa using this
    subst hds
    rw [limbsOk_append] at hl
    have ht0 : t ≠ 0 := by
      intro h0; apply htop; simp [h0]
    have ht1 : 0 ≤ t := (hl.2 t (by simp)).1
    have hm := magVal_nonneg hl.1
    rw [magVal_append]
    simp only [List.length_append, List.length_singleton, Nat.add_sub_cancel, magVal_cons,
      magVal_nil, mul_zero, add_zero]
    have hp := BASE_pow_pos r.reverse.length
    have : BASE ^ r.reverse.length * 1 ≤ BASE ^ r.reverse.length * t :=
      mul_le_mul_of_nonneg_left (by omega) hp.le
    linarith

theorem canonMag_magVal_pos {ds : List Int} (h : canonMag ds) (h0 : ds ≠ [0]) :
    0 < magVal ds := by
  by_cases hlen : 1 < ds.length
  · exact lt_of_lt_of_le (BASE_pow_pos _) (canonMag_lower_bound h hlen)
  · obtain ⟨hne, hl, _⟩ := h
    rcases ds with _ | ⟨d, _ | ⟨e, t⟩⟩
    · exact absurd rfl hne
    · have hd := (hl d (by simp)).1
      have : d ≠ 0 := by intro h; apply h0; rw [h]
      simp only [magVal_cons, magVal_nil, mul_zero, add_zero]
      omega
    · simp at hlen

theorem magVal_eq_zero_iff {ds : List Int} (h : canonMag ds) : magVal ds = 0 ↔ ds = [0] := by
  constructor
  · intro h0
    by_contra hne
    have := canonMag_magVal_pos h hne
    omega
  · intro h0; rw [h0, magVal_single_zero]

theorem magVal_lt_of_length_lt {a b : List Int} (ha : canonMag a) (hb : canonMag b)
    (hlen : a.length < b.length) : magVal a < magVal b := by
  have h1 := magVal_lt_pow ha.2.1
  have hapos : 0 < a.length := List.length_pos.mpr ha.1
  have h2 := canonMag_lower_bound hb (by omega)
  have h3 : BASE ^ a.length ≤ BASE ^ (b.length - 1) :=
    pow_le_pow_right₀ (by decide) (by omega)
  linarith

theorem ltLoop_spec (xs : List Int) : ∀ ys : List Int, xs.length = ys.length →
    limbsOk xs → limbsOk ys →
    ltLoop xs ys = decide (magVal xs.reverse < magVal ys.reverse) := by
  induction xs with
  | nil =>
    intro ys hlen _ _
    cases ys with
    | nil => simp [ltLoop]
    | cons y ys => simp at hlen
  | cons x xs ih =>
    intro ys hlen hx hy
    cases ys with
    | nil => simp at hlen
    | cons y ys =>
      simp only [List.length_cons, Nat.add_right_cancel_iff] at hlen
      rw [limbsOk_cons] at hx hy
      have hA := magVal_nonneg (limbsOk_reverse.mpr hx.2)
      have hA2 := magVal_lt_pow (limbsOk_reverse.mpr hx.2)
      have hB := magVal_nonneg (limbsOk_reverse.mpr hy.2)
      have hB2 := magVal_lt_pow (limbsOk_reverse.mpr hy.2)
      rw [List.length_reverse] at hA2 hB2
      rw [← hlen] at hB2
      have hp := BASE_pow_pos xs.length
      simp only [List.reverse_cons, magVal_append, List.length_reverse, magVal_cons, magVal_nil,
        mul_zero, add_zero]
      rw [← hlen]
      rw [ltLoop]
      by_cases hxy : x = y
      · subst hxy
        simp only [ne_eq, not_true_eq_false, ↓reduceIte]
        rw [ih ys hlen hx.2 hy.2]
        simp
      · simp only [ne_eq, hxy, not_false_eq_true, ↓reduceIte]
        rw [decide_eq_decide]
        constructor
        · intro hlt
          have : BASE ^ xs.length * (x + 1) ≤ BASE ^ xs.length * y :=
            mul_le_mul_of_nonneg_left (by omega) hp.le
          nlinarith
        · intro hlt
          by_contra hge
          have hyx : y + 1 ≤ x := by omega
          have : BASE ^ xs.length * (y + 1) ≤ BASE ^ xs.length * x :=
            mul_le_mul_of_nonneg_left hyx hp.le
          nlinarith

theorem magVal_lt_of_length_eq_top {a b : List Int} (ha : limbsOk a) (hb : limbsOk b)
    (hlen : a.length = b.length) :
    ltLoop a.reverse b.reverse = decide (magVal a < magVal b) := by
  have := ltLoop_spec a.reverse b.reverse (by simpa using hlen) (limbsOk_reverse.mpr ha)
    (limbsOk_reverse.mpr hb)
  simpa using this

theorem lt_nonneg (fuel : Nat) {a b : BigInteger} (ha : canonMag a.digits)
    (hb : canonMag b.digits) (hna : a.negative = false) (hnb : b.negative = false) :
    lt (fuel + 1) a b = .ok (decide (magVal a.digits < magVal b.digits)) := by
  rw [lt]
  simp only [hna, hnb, bne_self_eq_false, Bool.false_eq_true, ↓reduceIte]
  by_cases hlen : a.digits.length = b.digits.length
  · simp only [hlen, ne_eq, not_true_eq_false, ↓reduceIte]
    rw [magVal_lt_of_length_eq_top ha.2.1 hb.2.1 hlen]
  · simp only [ne_eq, hlen, not_false_eq_true, ↓reduceIte]
    congr 1
    rw [decide_eq_decide]
    constructor
    · intro h; exact magVal_lt_of_length_lt ha hb h
    · intro h
      by_contra hge
      have := magVal_lt_of_length_lt hb ha (by omega)
      omega

theorem neg_of_negative {x : BigInteger} (h : canonical x) (hn : x.negative = true) :
    neg x = ⟨x.digits, false⟩ := by
  have h0 : x.digits ≠ [0] := by
    intro h0; have := h.2.2.2 h0; rw [hn] at this; cases this
  unfold neg
  rw [(isZero_eq_false_iff x).mpr h0]
  simp [hn]

theorem value_neg_of_negative {x : BigInteger} (h : canonical x) (hn : x.negative = true) :
    value x < 0 := by
  have h0 : x.digits ≠ [0] := by
    intro h0; have := h.2.2.2 h0; rw [hn] at this; cases this
  have := canonMag_magVal_pos ((canonical_iff x).mp h).1 h0
  unfold value; rw [if_pos hn]; omega

theorem value_nonneg_of_nonneg {x : BigInteger} (h : canonical x) (hn : x.negative = false) :
    0 ≤ value x := by
  unfold value; simp only [hn, Bool.false_eq_true, ↓reduceIte]
  exact magVal_nonneg h.2.1

theorem lt_spec {a b : BigInteger} (ha : canonical a) (hb : canonical b) (fuel : Nat) :
    lt (fuel + 2) a b = .ok (decide (value a < value b)) := by
  have hma := ((canonical_iff a).mp ha).1
  have hmb := ((canonical_iff b).mp hb).1
  rcases hna : a.negative with _ | _ <;> rcases hnb : b.negative with _ | _
  · rw [lt_nonneg (fuel + 1) hma hmb hna hnb]
    unfold value; simp [hna, hnb]
  · rw [lt]; simp only [hna, hnb, bne_iff_ne, ne_eq, Bool.false_eq_true, not_false_eq_true,
      ↓reduceIte]
    have h1 := value_neg_of_negative hb hnb
    have h2 := value_nonneg_of_nonneg ha hna
    congr 1; symm; rw [decide_eq_false_iff_not]; omega
  · rw [lt]; simp only [hna, hnb, bne_iff_ne, ne_eq, Bool.true_eq_false, not_false_eq_true,
      ↓reduceIte]
    have h1 := value_neg_of_negative ha hna
    have h2 := value_nonneg_of_nonneg hb hnb
    congr 1; symm; rw [decide_eq_true_iff]; omega
  · rw [lt]; simp only [hna, hnb, bne_self_eq_false, Bool.false_eq_true, ↓reduceIte]
    rw [neg_of_negative ha hna, neg_of_negative hb hnb]
    rw [lt_nonneg fuel (a := ⟨b.digits, false⟩) (b := ⟨a.digits, false⟩) hmb hma rfl rfl]
    congr 1
    unfold value; simp [hna, hnb]

/-! ## Addition and subtraction of magnitudes -/

theorem carryTail_spec {c : Int} (h0 : 0 ≤ c) (h1 : c ≤ 1) :
    limbsOk (carryTail c.natAbs c) ∧ magVal (carryTail c.natAbs c) = c := by
  have hc : c = 0 ∨ c = 1 := by omega
  rcases hc with rfl | rfl
  · exact ⟨by decide, by decide⟩
  · refine ⟨?_, by decide⟩
    intro d hd
    have : carryTail (1 : Int).natAbs 1 = [1] := by decide
    rw [this] at hd
    simp only [List.mem_singleton] at hd
    subst hd; decide

theorem addRest_spec (ys : List Int) : ∀ c : Int, limbsOk ys → 0 ≤ c → c ≤ 1 →
    limbsOk (addRest ys c) ∧ magVal (addRest ys c) = magVal ys + c := by
  induction ys with
  | nil =>
    intro c _ h0 h1
    have := carryTail_spec h0 h1
    simpa [addRest, magVal] using this
  | cons y ys ih =>
    intro c hl h0 h1
    rw [limbsOk_cons] at hl
    obtain ⟨⟨hy0, hy1⟩, hl⟩ := hl
    simp only [BASE_eq] at hy1
    have hw : wrap64 (c + y) = c + y := wrap64_of_range (by omega) (by omega)
    simp only [addRest, hw]
    rw [tmod_BASE (by omega), tdiv_BASE (by omega)]
    obtain ⟨ih1, ih2⟩ := ih ((c + y) / 1000000000) hl (by omega) (by omega)
    refine ⟨?_, ?_⟩
    · rw [limbsOk_cons]
      refine ⟨⟨by omega, ?_⟩, ih1⟩
      simp only [BASE_eq]; omega
    · simp only [magVal_cons, ih2, BASE_eq]
      omega

theorem addLoop_spec (xs : List Int) : ∀ (ys : List Int) (c : Int), limbsOk xs → limbsOk ys →
    0 ≤ c → c ≤ 1 →
    limbsOk (addLoop xs ys c) ∧ magVal (addLoop xs ys c) = magVal xs + magVal ys + c := by
  induction xs with
  | nil =>
    intro ys c _ hl h0 h1
    have := addRest_spec ys c hl h0 h1
    simpa [addLoop, magVal] using this
  | cons x xs ih =>
    intro ys c hlx hly h0 h1
    rw [limbsOk_cons] at hlx
    obtain ⟨⟨hx0, hx1⟩, hlx⟩ := hlx
    simp only [BASE_eq] at hx1
    cases ys with
    | nil =>
      have hw : wrap64 (c + x) = c + x := wrap64_of_range (by omega) (by omega)
      simp only [addLoop, hw]
      rw [tmod_BASE (by omega), tdiv_BASE (by omega)]
      obtain ⟨ih1, ih2⟩ := ih [] ((c + x) / 1000000000) hlx limbsOk_nil (by omega) (by omega)
      refine ⟨?_, ?_⟩
      · rw [limbsOk_cons]
        refine ⟨⟨by omega, ?_⟩, ih1⟩
        simp only [BASE_eq]; omega
      · simp only [magVal_cons, magVal_nil, ih2, BASE_eq]
        omega
    | cons y ys =>
      rw [limbsOk_cons] at hly
      obtain ⟨⟨hy0, hy1⟩, hly⟩ := hly
      simp only [BASE_eq] at hy1
      have hw : wrap64 (c + x) = c + x := wrap64_of_range (by omega) (by omega)
      have hw2 : wrap64 (c + x + y) = c + x + y := wrap64_of_range (by omega) (by omega)
      simp only [addLoop, hw, hw2]
      rw [tmod_BASE (by omega), tdiv_BASE (by omega)]
      obtain ⟨ih1, ih2⟩ := ih ys ((c + x + y) / 1000000000) hlx hly (by omega) (by omega)
      refine ⟨?_, ?_⟩
      · rw [limbsOk_cons]
        refine ⟨⟨by omega, ?_⟩, ih1⟩
        simp only [BASE_eq]; omega
      · simp only [magVal_cons, ih2, BASE_eq]
        omega

theorem addLoop_ne_nil {xs ys : List Int} (c : Int) (h : xs ≠ []) : addLoop xs ys c ≠ [] := by
  cases xs with
  | nil => exact absurd rfl h
  | cons x xs => cases ys <;> simp [addLoop]

theorem subLoop_spec (xs : List Int) : ∀ (ys : List Int) (br : Int), limbsOk xs → limbsOk ys →
    ys.length ≤ xs.length → 0 ≤ br → br ≤ 1 →
    limbsOk (subLoop xs ys br).1 ∧ (subLoop xs ys br).1.length = xs.length ∧
    0 ≤ (subLoop xs ys br).2 ∧ (subLoop xs ys br).2 ≤ 1 ∧
    magVal (subLoop xs ys br).1 =
      magVal xs - magVal ys - br + BASE ^ xs.length * (subLoop xs ys br).2 := by
  induction xs with
  | nil =>
    intro ys br _ _ hlen h0 h1
    have : ys = [] := by
      cases ys with
      | nil => rfl
      | cons y ys => simp at hlen
    subst this
    simp [subLoop, magVal, limbsOk_nil, h0, h1]
  | cons x xs ih =>
    intro ys br hlx hly hlen h0 h1
    rw [limbsOk_cons] at hlx
    obtain ⟨⟨hx0, hx1⟩, hlx⟩ := hlx
    simp only [BASE_eq] at hx1
    have hw : wrap64 (x - br) = x - br := wrap64_of_range (by omega) (by omega)
    cases ys with
    | nil =>
      simp only [subLoop, hw, List.tail_nil]
      by_cases hneg : x - br < 0
      · simp only [hneg, ↓reduceIte]
        have hw2 : wrap64 (x - br + BASE) = x - br + BASE := by
          simp only [BASE_eq]; exact wrap64_of_range (by omega) (by omega)
        rw [hw2]
        obtain ⟨i1, i2, i3, i4, i5⟩ := ih [] 1 hlx limbsOk_nil (by simp) (by omega) (by omega)
        refine ⟨?_, by simp [i2], i3, i4, ?_⟩
        · rw [limbsOk_cons]; refine ⟨⟨?_, ?_⟩, i1⟩ <;> (try simp only [BASE_eq]) <;> omega
        · simp only [magVal_cons, magVal_nil, i5, List.length_cons, pow_succ]
          ring
      · simp only [hneg, ↓reduceIte]
        obtain ⟨i1, i2, i3, i4, i5⟩ := ih [] 0 hlx limbsOk_nil (by simp) (by omega) (by omega)
        refine ⟨?_, by simp [i2], i3, i4, ?_⟩
        · rw [limbsOk_cons]; refine ⟨⟨?_, ?_⟩, i1⟩ <;> (try simp only [BASE_eq]) <;> omega
        · simp only [magVal_cons, magVal_nil, i5, List.length_cons, pow_succ]
          ring
    | cons y ys =>
      rw [limbsOk_cons] at hly
      obtain ⟨⟨hy0, hy1⟩, hly⟩ := hly
      simp only [BASE_eq] at hy1
      simp only [List.length_cons, Nat.add_le_add_iff_right] at hlen
      have hw1 : wrap64 (x - br - y) = x - br - y := wrap64_of_range (by omega) (by omega)
      simp only [subLoop, hw, hw1, List.tail_cons]
      by_cases hneg : x - br - y < 0
      · simp only [hneg, ↓reduceIte]
        have hw2 : wrap64 (x - br - y + BASE) = x - br - y + BASE := by
          simp only [BASE_eq]; exact wrap64_of_range (by omega) (by omega)
        rw [hw2]
        obtain ⟨i1, i2, i3, i4, i5⟩ := ih ys 1 hlx hly hlen (by omega) (by omega)
        refine ⟨?_, by simp [i2], i3, i4, ?_⟩
        · rw [limbsOk_cons]; refine ⟨⟨?_, ?_⟩, i1⟩ <;> (try simp only [BASE_eq]) <;> omega
        · simp only [magVal_cons, i5, List.length_cons, pow_succ]
          ring
      · simp only [hneg, ↓reduceIte]
        obtain ⟨i1, i2, i3, i4, i5⟩ := ih ys 0 hlx hly hlen (by omega) (by omega)
        refine ⟨?_, by simp [i2], i3, i4, ?_⟩
        · rw [limbsOk_cons]; refine ⟨⟨?_, ?_⟩, i1⟩ <;> (try simp only [BASE_eq]) <;> omega
        · simp only [magVal_cons, i5, List.length_cons, pow_succ]
          ring

/-- When the minuend is not smaller, the borrow loop ends without a borrow and its limbs
denote the difference. -/
theorem subLoop_ge {xs ys : List Int} (hlx : limbsOk xs) (hly : limbsOk ys)
    (hlen : ys.length ≤ xs.length) (hge : magVal ys ≤ magVal xs) :
    (subLoop xs ys 0).2 = 0 ∧ limbsOk (subLoop xs ys 0).1 ∧
    (subLoop xs ys 0).1.length = xs.length ∧
    magVal (subLoop xs ys 0).1 = magVal xs - magVal ys := by
  obtain ⟨i1, i2, i3, i4, i5⟩ := subLoop_spec xs ys 0 hlx hly hlen (by omega) (by omega)
  have hb : (subLoop xs ys 0).2 = 0 := by
    by_contra hne
    have h1 : (subLoop xs ys 0).2 = 1 := by omega
    rw [h1] at i5
    have := magVal_lt_pow i1
    rw [i2] at this
    have := magVal_nonneg hly
    have := magVal_lt_pow hlx
    linarith
  refine ⟨hb, i1, i2, ?_⟩
  rw [i5, hb]; ring

/-! ## `operator+`, binary `operator-` and unary `operator-` -/

theorem value_mk_false (ds : List Int) : value ⟨ds, false⟩ = magVal ds := by
  simp [value]

theorem value_mk_true (ds : List Int) : value ⟨ds, true⟩ = -magVal ds := by
  simp [value]

theorem canonical_mk_false {ds : List Int} (h : canonMag ds) : canonical ⟨ds, false⟩ := by
  rw [canonical_iff]; exact ⟨h, fun _ => rfl⟩

theorem canonical_mk_true {ds : List Int} (h : canonMag ds) (h0 : ds ≠ [0]) :
    canonical ⟨ds, true⟩ := by
  rw [canonical_iff]; exact ⟨h, fun h1 => absurd h1 h0⟩

theorem canonical_digits {x : BigInteger} (h : canonical x) : canonMag x.digits :=
  ((canonical_iff x).mp h).1

theorem neg_canonical {x : BigInteger} (h : canonical x) : canonical (neg x) := by
  unfold neg
  by_cases hz : x.isZero = true
  · simp [hz, h]
  · simp only [hz, Bool.not_false, ↓reduceIte, Bool.not_eq_true] 
    rw [canonical_iff]
    refine ⟨canonical_digits (x := x) h, ?_⟩
    intro h0
    rw [Bool.not_eq_true, isZero_eq_false_iff] at hz
    exact absurd h0 hz

theorem neg_value (x : BigInteger) : value (neg x) = -value x := by
  unfold neg
  by_cases hz : x.isZero = true
  · have h0 := (isZero_iff x).mp hz
    simp only [hz, Bool.not_true, Bool.false_eq_true, ↓reduceIte]
    unfold value; rw [h0, magVal_single_zero]; simp
  · simp only [hz, Bool.not_false, ↓reduceIte]
    unfold value
    rcases x.negative with _ | _ <;> simp

theorem neg_of_nonneg_nonzero {x : BigInteger} (hn : x.negative = false)
    (h0 : x.digits ≠ [0]) : neg x = ⟨x.digits, true⟩ := by
  unfold neg
  rw [(isZero_eq_false_iff x).mpr h0]
  simp [hn]

theorem neg_zero_digits {x : BigInteger} (h0 : x.digits = [0]) : neg x = x := by
  unfold neg
  rw [(isZero_iff x).mpr h0]; simp

theorem add_same_sign (fuel : Nat) {a b : BigInteger} (ha : canonical a) (hb : canonical b)
    (hs : a.negative = b.negative) :
    add (fuel + 1) a b = .ok (removeLeadingZeros ⟨addLoop a.digits b.digits 0, a.negative⟩) ∧
    canonical (removeLeadingZeros ⟨addLoop a.digits b.digits 0, a.negative⟩) ∧
    value (removeLeadingZeros ⟨addLoop a.digits b.digits 0, a.negative⟩) = value a + value b := by
  obtain ⟨l1, l2⟩ := addLoop_spec a.digits b.digits 0 ha.2.1 hb.2.1 (by omega) (by omega)
  refine ⟨?_, ?_, ?_⟩
  · rw [add]; simp [hs]
  · exact removeLeadingZeros_canonical (addLoop_ne_nil 0 ha.1) l1
  · rw [removeLeadingZeros_value]
    unfold value
    simp only [l2, ← hs]
    split <;> ring

theorem canonMag_length_le {a b : List Int} (ha : canonMag a) (hb : canonMag b)
    (hle : magVal b ≤ magVal a) : b.length ≤ a.length := by
  by_contra h
  have := magVal_lt_of_length_lt ha hb (by omega)
  omega

theorem sub_nonneg_ge (fuel : Nat) {a b : BigInteger} (ha : canonical a) (hb : canonical b)
    (hna : a.negative = false) (hnb : b.negative = false)
    (hge : magVal b.digits ≤ magVal a.digits) :
    sub (fuel + 2) a b = .ok (removeLeadingZeros ⟨(subLoop a.digits b.digits 0).1, false⟩) ∧
    canonical (removeLeadingZeros ⟨(subLoop a.digits b.digits 0).1, false⟩) ∧
    value (removeLeadingZeros ⟨(subLoop a.digits b.digits 0).1, false⟩) = value a - value b ∧
    (subLoop a.digits b.digits 0).2 = 0 := by
  have hma := canonical_digits ha
  have hmb := canonical_digits hb
  obtain ⟨s1, s2, s3, s4⟩ := subLoop_ge ha.2.1 hb.2.1 (canonMag_length_le hma hmb hge) hge
  refine ⟨?_, ?_, ?_, s1⟩
  · rw [sub]
    simp only [hna, hnb, bne_self_eq_false, Bool.false_eq_true, ↓reduceIte]
    rw [lt_nonneg fuel hma hmb hna hnb]
    have : decide (magVal a.digits < magVal b.digits) = false := by
      rw [decide_eq_false_iff_not]; omega
    rw [this]
    rfl
  · apply removeLeadingZeros_canonical
    · intro h0
      have := congrArg List.length h0
      rw [s3] at this
      exact ha.1 (List.length_eq_zero.mp this)
    · exact s2
  · rw [removeLeadingZeros_value, value_mk_false, s4]
    unfold value; simp [hna, hnb]

theorem sub_nonneg (fuel : Nat) {a b : BigInteger} (ha : canonical a) (hb : canonical b)
    (hna : a.negative = false) (hnb : b.negative = false) :
    ∃ r, sub (fuel + 3) a b = .ok r ∧ canonical r ∧ value r = value a - value b := by
  have hma := canonical_digits ha
  have hmb := canonical_digits hb
  by_cases hlt : magVal a.digits < magVal b.digits
  · obtain ⟨e1, e2, e3, _⟩ := sub_nonneg_ge fuel hb ha hnb hna (by omega)
    refine ⟨⟨(removeLeadingZeros ⟨(subLoop b.digits a.digits 0).1, false⟩).digits, true⟩,
      ?_, ?_, ?_⟩
    · rw [sub]
      simp only [hna, hnb, bne_self_eq_false, Bool.false_eq_true, ↓reduceIte]
      rw [lt_nonneg (fuel + 1) hma hmb hna hnb]
      have : decide (magVal a.digits < magVal b.digits) = true := by
        rw [decide_eq_true_iff]; exact hlt
      rw [this, e1]
      rfl
    · apply canonical_mk_true (canonical_digits e2)
      intro h0
      have hv : magVal (removeLeadingZeros ⟨(subLoop b.digits a.digits 0).1, false⟩).digits
          = 0 := by rw [h0, magVal_single_zero]
      have e3' := e3
      unfold value at e3'
      simp only [removeLeadingZeros_negative, hna, hnb, Bool.false_eq_true, ↓reduceIte,
        ite_self] at e3'
      omega
    · rw [value_mk_true]
      have e3' := e3
      unfold value at e3'
      simp only [removeLeadingZeros_negative, hna, hnb, Bool.false_eq_true, ↓reduceIte,
        ite_self] at e3'
      unfold value
      simp only [hna, hnb, Bool.false_eq_true, ↓reduceIte]
      omega
  · obtain ⟨e1, e2, e3, _⟩ := sub_nonneg_ge (fuel + 1) ha hb hna hnb (by omega)
    exact ⟨_, e1, e2, e3⟩

theorem canonical_abs {x : BigInteger} (h : canonical x) : canonical ⟨x.digits, false⟩ :=
  canonical_mk_false (canonical_digits h)

theorem value_of_negative {x : BigInteger} (hn : x.negative = true) :
    value x = -magVal x.digits := by
  unfold value; simp [hn]

theorem value_of_nonneg {x : BigInteger} (hn : x.negative = false) :
    value x = magVal x.digits := by
  unfold value; simp [hn]

theorem add_spec (fuel : Nat) {a b : BigInteger} (ha : canonical a) (hb : canonical b) :
    ∃ r, add (fuel + 4) a b = .ok r ∧ canonical r ∧ value r = value a + value b := by
  by_cases hs : a.negative = b.negative
  · exact ⟨_, add_same_sign (fuel + 3) ha hb hs⟩
  · rcases hna : a.negative with _ | _
    · have hnb : b.negative = true := by
        rcases h : b.negative with _ | _
        · rw [hna, h] at hs; exact absurd rfl hs
        · rfl
      obtain ⟨r, r1, r2, r3⟩ := sub_nonneg fuel ha (canonical_abs hb) hna rfl
      refine ⟨r, ?_, r2, ?_⟩
      · rw [add]
        simp only [hna, hnb, bne_iff_ne, ne_eq, Bool.false_eq_true, not_false_eq_true,
          ↓reduceIte]
        rw [neg_of_negative hb hnb]; exact r1
      · rw [r3, value_mk_false, value_of_negative hnb]; ring
    · have hnb : b.negative = false := by
        rcases h : b.negative with _ | _
        · rfl
        · rw [hna, h] at hs; exact absurd rfl hs
      obtain ⟨r, r1, r2, r3⟩ := sub_nonneg fuel hb (canonical_abs ha) hnb rfl
      refine ⟨r, ?_, r2, ?_⟩
      · rw [add]
        simp only [hna, hnb, bne_iff_ne, ne_eq, Bool.true_eq_false, not_false_eq_true,
          ↓reduceIte]
        rw [neg_of_negative ha hna]; exact r1
      · rw [r3, value_mk_false, value_of_negative hna]; ring

theorem sub_spec (fuel : Nat) {a b : BigInteger} (ha : canonical a) (hb : canonical b) :
    ∃ r, sub (fuel + 5) a b = .ok r ∧ canonical r ∧ value r = value a - value b := by
  by_cases hs : a.negative = b.negative
  · rcases hna : a.negative with _ | _
    · have hnb : b.negative = false := by rw [← hs, hna]
      exact sub_nonneg (fuel + 2) ha hb hna hnb
    · have hnb : b.negative = true := by rw [← hs, hna]
      obtain ⟨r, r1, r2, r3⟩ :=
        sub_nonneg (fuel + 1) (canonical_abs hb) (canonical_abs ha) rfl rfl
      refine ⟨r, ?_, r2, ?_⟩
      · rw [sub]
        simp only [hna, hnb, bne_self_eq_false, Bool.false_eq_true, ↓reduceIte]
        rw [neg_of_negative ha hna, neg_of_negative hb hnb]; exact r1
      · rw [r3, value_mk_false, value_mk_false, value_of_negative hna,
          value_of_negative hnb]; ring
  · obtain ⟨r, r1, r2, r3⟩ := add_spec fuel ha (neg_canonical hb)
    refine ⟨r, ?_, r2, ?_⟩
    · rw [sub]
      have : (a.negative != b.negative) = true := by
        rw [bne_iff_ne]; exact hs
      simp only [this, ↓reduceIte]
      exact r1
    · rw [r3, neg_value b]; ring

/-! ## Multiplication -/

theorem limb_mul_bound {a b : Int} (ha0 : 0 ≤ a) (ha1 : a < 1000000000) (hb0 : 0 ≤ b)
    (hb1 : b < 1000000000) : 0 ≤ a * b ∧ a * b ≤ 999999998000000001 := by
  constructor
  · exact mul_nonneg ha0 hb0
  · nlinarith

theorem mulRow_spec (di : Int) (hd0 : 0 ≤ di) (hd1 : di < BASE) (acc : List Int) :
    ∀ (o : List Int) (carry : Int), limbsOk acc → limbsOk o → 0 ≤ carry → carry < BASE →
    o.length ≤ acc.length → magVal acc + di * magVal o + carry < BASE ^ acc.length →
    ∃ r, mulRow di acc o carry = .ok r ∧ limbsOk r ∧ r.length = acc.length ∧
      magVal r = magVal acc + di * magVal o + carry := by
  simp only [BASE_eq] at hd1
  induction acc with
  | nil =>
    intro o carry _ _ hc0 _ hlen hbound
    have ho : o = [] := by
      cases o with
      | nil => rfl
      | cons y ys => simp at hlen
    subst ho
    simp only [magVal_nil, mul_zero, add_zero, zero_add, List.length_nil, pow_zero] at hbound
    have hc : carry = 0 := by omega
    subst hc
    exact ⟨[], by simp [mulRow], limbsOk_nil, rfl, by simp [magVal]⟩
  | cons r acc ih =>
    intro o carry hla hlo hc0 hc1 hlen hbound
    rw [limbsOk_cons] at hla
    obtain ⟨⟨hr0, hr1⟩, hla⟩ := hla
    simp only [BASE_eq] at hr1 hc1
    by_cases hstop : o = [] ∧ carry = 0
    · obtain ⟨rfl, rfl⟩ := hstop
      refine ⟨r :: acc, by simp [mulRow], ?_, rfl, by simp [magVal]⟩
      rw [limbsOk_cons]; simp only [BASE_eq]; exact ⟨⟨hr0, hr1⟩, hla⟩
    · have hw0 : wrap64 (r + carry) = r + carry := wrap64_of_range (by omega) (by omega)
      have hmacc := magVal_nonneg hla
      rw [List.length_cons, pow_succ, magVal_cons] at hbound
      simp only [BASE_eq] at hbound
      cases o with
      | nil =>
        have hc : ¬carry = 0 := by simpa using hstop
        simp only [mulRow, true_and, hc, ↓reduceIte, hw0, List.tail_nil]
        rw [tmod_BASE (by omega), tdiv_BASE (by omega)]
        simp only [magVal_nil, mul_zero, add_zero] at hbound
        obtain ⟨t, t1, t2, t3, t4⟩ := ih [] ((r + carry) / 1000000000) hla limbsOk_nil
          (by omega) (by simp only [BASE_eq]; omega) (by simp)
          (by simp only [magVal_nil, mul_zero, add_zero, BASE_eq]; omega)
        refine ⟨(r + carry) % 1000000000 :: t, ?_, ?_, by simp [t3], ?_⟩
        · rw [t1]; rfl
        · rw [limbsOk_cons]; simp only [BASE_eq]; exact ⟨⟨by omega, by omega⟩, t2⟩
        · simp only [magVal_cons, magVal_nil, t4, mul_zero, add_zero, BASE_eq]; omega
      | cons oj o =>
        rw [limbsOk_cons] at hlo
        obtain ⟨⟨ho0, ho1⟩, hlo⟩ := hlo
        simp only [BASE_eq] at ho1
        simp only [List.length_cons, Nat.add_le_add_iff_right] at hlen
        obtain ⟨hp0, hp1⟩ := limb_mul_bound hd0 hd1 ho0 ho1
        have hmo := magVal_nonneg hlo
        have hq0 : 0 ≤ di * magVal o := mul_nonneg hd0 hmo
        have hexp : di * magVal (oj :: o) = di * oj + 1000000000 * (di * magVal o) := by
          rw [magVal_cons, BASE_eq]; ring
        rw [hexp] at hbound
        have hw1 : wrap64 (di * oj) = di * oj := wrap64_of_range (by omega) (by omega)
        have hw2 : wrap64 (r + carry + di * oj) = r + carry + di * oj :=
          wrap64_of_range (by omega) (by omega)
        have hstop' : ¬(oj :: o = [] ∧ carry = 0) := by simp
        simp only [mulRow, hstop', ↓reduceIte, hw0, hw1, hw2, List.tail_cons]
        rw [tmod_BASE (by omega), tdiv_BASE (by omega)]
        obtain ⟨t, t1, t2, t3, t4⟩ := ih o ((r + carry + di * oj) / 1000000000) hla hlo
          (by omega) (by simp only [BASE_eq]; omega) hlen
          (by simp only [BASE_eq]; omega)
        refine ⟨(r + carry + di * oj) % 1000000000 :: t, ?_, ?_, by simp [t3], ?_⟩
        · rw [t1]; rfl
        · rw [limbsOk_cons]; simp only [BASE_eq]; exact ⟨⟨by omega, by omega⟩, t2⟩
        · rw [hexp]
          simp only [magVal_cons, t4, BASE_eq]; omega

theorem mulOuter_spec (o : List Int) (hlo : limbsOk o) (ds : List Int) :
    ∀ acc : List Int, limbsOk ds → limbsOk acc → acc.length = ds.length + o.length →
    magVal acc < BASE ^ o.length →
    ∃ r, mulOuter ds o acc = .ok r ∧ limbsOk r ∧ r.length = acc.length ∧
      magVal r = magVal acc + magVal ds * magVal o := by
  induction ds with
  | nil =>
    intro acc _ hla _ _
    exact ⟨acc, by simp [mulOuter], hla, rfl, by simp [magVal]⟩
  | cons d ds ih =>
    intro acc hld hla hlen hbound
    rw [limbsOk_cons] at hld
    obtain ⟨⟨hd0, hd1⟩, hld⟩ := hld
    have hmo := magVal_nonneg hlo
    have hmo2 := magVal_lt_pow hlo
    have hmacc := magVal_nonneg hla
    have hB := BASE_pos
    have hpm := BASE_pow_pos o.length
    have hrowbound : magVal acc + d * magVal o + 0 < BASE ^ acc.length := by
      have h1 : d * magVal o ≤ (BASE - 1) * magVal o :=
        mul_le_mul_of_nonneg_right (by omega) hmo
      have h2 : (BASE - 1) * magVal o ≤ (BASE - 1) * (BASE ^ o.length - 1) :=
        mul_le_mul_of_nonneg_left (by omega) (by omega)
      have h3 : BASE ^ (o.length + 1) ≤ BASE ^ acc.length :=
        pow_le_pow_right₀ (by decide) (by rw [hlen, List.length_cons]; omega)
      rw [pow_succ] at h3
      nlinarith
    obtain ⟨row, r1, r2, r3, r4⟩ := mulRow_spec d hd0 hd1 acc o 0 hla hlo (le_refl 0) hB
      (by rw [hlen]; omega) hrowbound
    cases row with
    | nil =>
      rw [hlen, List.length_cons] at r3
      simp only [List.length_nil] at r3
      omega
    | cons r0 rest =>
      rw [limbsOk_cons] at r2
      obtain ⟨⟨hr0, hr1⟩, r2⟩ := r2
      have hlenrest : rest.length = ds.length + o.length := by
        rw [hlen] at r3
        simp only [List.length_cons] at r3
        omega
      have hrestbound : magVal rest < BASE ^ o.length := by
        rw [magVal_cons, add_zero] at r4
        have h1 : d * magVal o ≤ (BASE - 1) * magVal o :=
          mul_le_mul_of_nonneg_right (by omega) hmo
        have h2 : (BASE - 1) * magVal o ≤ (BASE - 1) * (BASE ^ o.length - 1) :=
          mul_le_mul_of_nonneg_left (by omega) (by omega)
        by_contra hge
        have h3 : BASE * BASE ^ o.length ≤ BASE * magVal rest :=
          mul_le_mul_of_nonneg_left (by omega) hB.le
        nlinarith
      obtain ⟨t, t1, t2, t3, t4⟩ := ih rest hld r2 hlenrest hrestbound
      refine ⟨r0 :: t, ?_, ?_, ?_, ?_⟩
      · simp only [mulOuter, r1, bind, Except.bind, t1]; rfl
      · rw [limbsOk_cons]; exact ⟨⟨hr0, hr1⟩, t2⟩
      · rw [← r3]; simp [t3]
      · rw [magVal_cons, add_zero] at r4
        rw [magVal_cons, t4, magVal_cons]
        linarith [r4]

theorem limbsOk_replicate_zero (n : Nat) : limbsOk (List.replicate n 0) := by
  intro d hd
  rw [List.mem_replicate] at hd
  rw [hd.2]; decide

theorem magVal_replicate_zero (n : Nat) : magVal (List.replicate n 0) = 0 := by
  induction n with
  | zero => rfl
  | succ n ih => rw [List.replicate_succ, magVal_cons, ih]; simp

theorem mul_full {a b : BigInteger} (ha : canonical a) (hb : canonical b) :
    ∃ r, mul a b = .ok r ∧ canonical r ∧ value r = value a * value b ∧
      r.negative = ((a.negative != b.negative) && !r.isZero) := by
  obtain ⟨t, t1, t2, t3, t4⟩ := mulOuter_spec b.digits hb.2.1 a.digits
    (List.replicate (a.digits.length + b.digits.length) 0) ha.2.1
    (limbsOk_replicate_zero _) (by simp)
    (by rw [magVal_replicate_zero]; exact BASE_pow_pos _)
  refine ⟨removeLeadingZeros ⟨t, a.negative != b.negative⟩, ?_, ?_, ?_, ?_⟩
  · unfold mul; rw [t1]; rfl
  · apply removeLeadingZeros_canonical
    · intro h0
      have := congrArg List.length h0
      rw [t3] at this
      simp only [List.length_replicate, List.length_nil, Nat.add_eq_zero] at this
      exact ha.1 (List.length_eq_zero.mp this.1)
    · exact t2
  · rw [removeLeadingZeros_value]
    rw [magVal_replicate_zero, zero_add] at t4
    unfold value
    simp only [t4]
    rcases a.negative with _ | _ <;> rcases b.negative with _ | _ <;> simp
  · rw [removeLeadingZeros_negative]
    by_cases hz : (removeLeadingZeros ⟨t, a.negative != b.negative⟩).isZero = true
    · have h0 := (isZero_iff _).mp hz
      rw [removeLeadingZeros_digits] at h0
      rw [hz, if_pos h0]; simp
    · rw [Bool.not_eq_true] at hz
      have h0 := (isZero_eq_false_iff _).mp hz
      rw [removeLeadingZeros_digits] at h0
      rw [hz, if_neg h0]; simp

theorem mul_spec {a b : BigInteger} (ha : canonical a) (hb : canonical b) :
    ∃ r, mul a b = .ok r ∧ canonical r ∧ value r = value a * value b := by
  obtain ⟨r, r1, r2, r3, _⟩ := mul_full ha hb
  exact ⟨r, r1, r2, r3⟩

/-! ## Decimal digits -/

theorem isDigit_toNat {c : Char} (h : c.isDigit = true) : 48 ≤ c.toNat ∧ c.toNat ≤ 57 := by
  unfold Char.isDigit at h
  simp only [ge_iff_le, Bool.and_eq_true, decide_eq_true_eq] at h
  obtain ⟨h1, h2⟩ := h
  rw [UInt32.le_def, BitVec.le_def] at h1 h2
  exact ⟨h1, h2⟩

theorem isDigit_cases {c : Char} (h : c.isDigit = true) :
    c = '0' ∨ c = '1' ∨ c = '2' ∨ c = '3' ∨ c = '4' ∨ c = '5' ∨ c = '6' ∨ c = '7' ∨
      c = '8' ∨ c = '9' := by
  obtain ⟨h1, h2⟩ := isDigit_toNat h
  have hc := Char.ofNat_toNat c
  generalize c.toNat = n at h1 h2 hc
  subst hc
  interval_cases n <;> decide

theorem digitVal_range {c : Char} (h : c.isDigit = true) : 0 ≤ digitVal c ∧ digitVal c ≤ 9 := by
  obtain ⟨h1, h2⟩ := isDigit_toNat h
  unfold digitVal; omega

theorem digitChar_digitVal {c : Char} (h : c.isDigit = true) :
    digitChar (digitVal c).toNat = c := by
  rcases isDigit_cases h with h | h | h | h | h | h | h | h | h | h <;> subst h <;> decide

theorem digitVal_eq_zero {c : Char} (h : c.isDigit = true) : digitVal c = 0 ↔ c = '0' := by
  rcases isDigit_cases h with h | h | h | h | h | h | h | h | h | h <;> subst h <;> decide

theorem isDigit_not_special {c : Char} (h : c.isDigit = true) :
    isspace c = false ∧ c ≠ '-' ∧ c ≠ '+' := by
  rcases isDigit_cases h with h | h | h | h | h | h | h | h | h | h <;> subst h <;> decide

theorem digitChar_spec {d : Nat} (h : d < 10) :
    (digitChar d).isDigit = true ∧ digitVal (digitChar d) = d ∧
      (digitChar d = '0' ↔ d = 0) := by
  interval_cases d <;> decide

theorem allDigits_iff (s : List Char) :
    allDigits s = true ↔ s ≠ [] ∧ ∀ c ∈ s, c.isDigit = true := by
  unfold allDigits
  cases s <;> simp

theorem allDigits_cons {c : Char} {s : List Char} :
    allDigits (c :: s) = true ↔ c.isDigit = true ∧ ∀ d ∈ s, d.isDigit = true := by
  rw [allDigits_iff]; simp

theorem decValue_nil : decValue [] = 0 := rfl

theorem foldl_decValue (s : List Char) : ∀ init : Int,
    s.foldl (fun acc c => acc * 10 + digitVal c) init = init * 10 ^ s.length + decValue s := by
  induction s with
  | nil => intro init; simp [decValue]
  | cons c s ih =>
    intro init
    unfold decValue
    rw [List.foldl_cons, List.foldl_cons, ih, ih (0 * 10 + digitVal c), List.length_cons,
      pow_succ]
    ring

theorem decValue_cons (c : Char) (s : List Char) :
    decValue (c :: s) = digitVal c * 10 ^ s.length + decValue s := by
  have := foldl_decValue s (0 * 10 + digitVal c)
  unfold decValue at this ⊢
  rw [List.foldl_cons, this]; ring

theorem decValue_append (s t : List Char) :
    decValue (s ++ t) = decValue s * 10 ^ t.length + decValue t := by
  induction s with
  | nil => simp [decValue_nil]
  | cons c s ih =>
    rw [List.cons_append, decValue_cons, decValue_cons, ih, List.length_append, pow_add]
    ring

theorem decValue_single (c : Char) : decValue [c] = digitVal c := by
  rw [decValue_cons]; simp [decValue_nil]

theorem decValue_bounds {s : List Char} (h : ∀ c ∈ s, c.isDigit = true) :
    0 ≤ decValue s ∧ decValue s < 10 ^ s.length := by
  induction s with
  | nil => simp [decValue_nil]
  | cons c s ih =>
    have hc := digitVal_range (h c (by simp))
    obtain ⟨i1, i2⟩ := ih (fun d hd => h d (List.mem_cons_of_mem _ hd))
    rw [decValue_cons, List.length_cons, pow_succ]
    have hp : (0 : Int) < 10 ^ s.length := pow_pos (by decide) _
    constructor
    · have := mul_nonneg hc.1 hp.le
      omega
    · nlinarith

theorem decValue_pos_of_head {c : Char} {s : List Char} (h : allDigits (c :: s) = true)
    (hc : c ≠ '0') : 10 ^ s.length ≤ decValue (c :: s) := by
  rw [allDigits_cons] at h
  have h1 := digitVal_range h.1
  have h2 : digitVal c ≠ 0 := fun h0 => hc ((digitVal_eq_zero h.1).mp h0)
  have h3 := (decValue_bounds h.2).1
  rw [decValue_cons]
  have hp : (0 : Int) < 10 ^ s.length := pow_pos (by decide) _
  have : 1 * 10 ^ s.length ≤ digitVal c * 10 ^ s.length :=
    mul_le_mul_of_nonneg_right (by omega) hp.le
  linarith

/-- The decimal digits of `n`: digits only, not empty, denoting `n`, without a leading
zero unless `n = 0`. -/
theorem decDigits_spec (fuel : Nat) : ∀ n : Nat, n < fuel →
    allDigits (decDigits fuel n) = true ∧ decValue (decDigits fuel n) = n ∧
    (0 < n → (decDigits fuel n).head? ≠ some '0') := by
  induction fuel with
  | zero => intro n h; omega
  | succ fuel ih =>
    intro n hn
    rw [decDigits]
    by_cases h10 : n < 10
    · obtain ⟨d1, d2, d3⟩ := digitChar_spec h10
      simp only [h10, ↓reduceIte]
      refine ⟨?_, ?_, ?_⟩
      · rw [allDigits_cons]; exact ⟨d1, by simp⟩
      · rw [decValue_single, d2]
      · intro hpos
        simp only [List.head?_cons, ne_eq, Option.some.injEq]
        rw [d3]; omega
    · simp only [h10, ↓reduceIte]
      obtain ⟨i1, i2, i3⟩ := ih (n / 10) (by omega)
      obtain ⟨d1, d2, _⟩ := digitChar_spec (Nat.mod_lt n (by decide : 0 < 10))
      rw [allDigits_iff] at i1
      refine ⟨?_, ?_, ?_⟩
      · rw [allDigits_iff]
        refine ⟨by simp, ?_⟩
        intro c hc
        rw [List.mem_append] at hc
        rcases hc with hc | hc
        · exact i1.2 c hc
        · simp only [List.mem_singleton] at hc; rw [hc]; exact d1
      · rw [decValue_append, i2, decValue_single, d2]
        simp only [List.length_singleton, pow_one]
        omega
      · intro _
        have := i3 (by omega)
        rcases hd : decDigits fuel (n / 10) with _ | ⟨c, t⟩
        · exact absurd hd i1.1
        · rw [hd] at this
          simpa using this

theorem decDigits_length (fuel : Nat) : ∀ (n k : Nat), n < fuel → n < 10 ^ (k + 1) →
    (decDigits fuel n).length ≤ k + 1 := by
  induction fuel with
  | zero => intro n k h; omega
  | succ fuel ih =>
    intro n k hn hk
    rw [decDigits]
    by_cases h10 : n < 10
    · simp [h10]
    · simp only [h10, ↓reduceIte, List.length_append, List.length_singleton]
      cases k with
      | zero => simp at hk; omega
      | succ k =>
        have := ih (n / 10) k (by omega) (by rw [pow_succ] at hk; omega)
        omega

/-- A string of digits without a leading zero is the decimal representation of the
number it denotes. -/
theorem decDigits_decValue (s : List Char) : ∀ (c : Char) (fuel : Nat),
    allDigits (c :: s) = true → (c :: s ≠ ['0'] → c ≠ '0') →
    (decValue (c :: s)).toNat < fuel →
    decDigits fuel (decValue (c :: s)).toNat = c :: s := by
  induction s using List.reverseRecOn with
  | nil =>
    intro c fuel h _ hf
    rw [allDigits_cons] at h
    have h1 := digitVal_range h.1
    rw [decValue_single] at hf ⊢
    cases fuel with
    | zero => omega
    | succ fuel =>
      rw [decDigits]
      have : (digitVal c).toNat < 10 := by omega
      simp only [this, ↓reduceIte, digitChar_digitVal h.1]
  | append_singleton s e ih =>
    intro c fuel h hz hf
    have hc0 : c ≠ '0' := hz (by simp)
    have hall := (allDigits_iff _).mp h
    have hinit : allDigits (c :: s) = true := by
      rw [allDigits_iff]
      exact ⟨by simp, fun d hd => hall.2 d (by
        rw [← List.cons_append]; exact List.mem_append_left _ hd)⟩
    have he : e.isDigit = true := hall.2 e (by simp)
    have he1 := digitVal_range he
    have hlow := decValue_pos_of_head hinit hc0
    have hp : (1 : Int) ≤ 10 ^ s.length := one_le_pow₀ (by decide)
    have hv : decValue (c :: (s ++ [e])) = decValue (c :: s) * 10 + digitVal e := by
      rw [← List.cons_append, decValue_append, decValue_single]; simp
    rw [hv] at hf ⊢
    cases fuel with
    | zero => omega
    | succ fuel =>
      rw [decDigits]
      have h10 : ¬(decValue (c :: s) * 10 + digitVal e).toNat < 10 := by omega
      simp only [h10, ↓reduceIte]
      have hq : (decValue (c :: s) * 10 + digitVal e).toNat / 10 = (decValue (c :: s)).toNat := by
        omega
      have hr : (decValue (c :: s) * 10 + digitVal e).toNat % 10 = (digitVal e).toNat := by
        omega
      rw [hq, hr, ih c fuel hinit (fun _ => hc0) (by omega), digitChar_digitVal he]
      rfl

/-! ## Serialisation -/

theorem to_string_nonneg {d : Int} (h : 0 ≤ d) :
    allDigits (to_string d) = true ∧ decValue (to_string d) = d ∧
    (0 < d → (to_string d).head? ≠ some '0') ∧ (d < BASE → (to_string d).length ≤ 9) := by
  have hn : ¬d < 0 := by omega
  unfold to_string
  simp only [hn, ↓reduceIte]
  obtain ⟨s1, s2, s3⟩ := decDigits_spec (d.natAbs + 1) d.natAbs (by omega)
  refine ⟨s1, ?_, ?_, ?_⟩
  · rw [s2]; omega
  · intro hpos; exact s3 (by omega)
  · intro hlt
    simp only [BASE_eq] at hlt
    exact decDigits_length (d.natAbs + 1) d.natAbs 8 (by omega) (by norm_num; omega)

theorem decValue_replicate_zero (k : Nat) : decValue (List.replicate k '0') = 0 := by
  induction k with
  | zero => rfl
  | succ k ih =>
    rw [List.replicate_succ, decValue_cons, ih]
    have : digitVal '0' = 0 := by decide
    rw [this]; simp

theorem pad9_spec {chunk : List Char} (h : allDigits chunk = true) (hlen : chunk.length ≤ 9) :
    ∃ str, pad9 chunk = .ok str ∧ (∀ c ∈ str, c.isDigit = true) ∧ str.length = 9 ∧
      decValue str = decValue chunk := by
  refine ⟨List.replicate (9 - chunk.length) '0' ++ chunk, ?_, ?_, ?_, ?_⟩
  · unfold pad9; simp [hlen]
  · intro c hc
    rw [List.mem_append] at hc
    rcases hc with hc | hc
    · rw [List.mem_replicate] at hc; rw [hc.2]; decide
    · exact ((allDigits_iff _).mp h).2 c hc
  · simp only [List.length_append, List.length_replicate]; omega
  · rw [decValue_append, decValue_replicate_zero]; simp

theorem BASE_pow_eq (n : Nat) : BASE ^ n = 10 ^ (9 * n) := by
  rw [pow_mul]; rfl

theorem padLimbs_spec (lower : List Int) : limbsOk lower →
    ∃ str, padLimbs lower = .ok str ∧ (∀ c ∈ str, c.isDigit = true) ∧
      str.length = 9 * lower.length ∧ decValue str = magVal lower.reverse := by
  induction lower with
  | nil => intro _; exact ⟨[], rfl, by simp, rfl, rfl⟩
  | cons d ds ih =>
    intro hl
    rw [limbsOk_cons] at hl
    obtain ⟨⟨hd0, hd1⟩, hl⟩ := hl
    obtain ⟨rest, r1, r2, r3, r4⟩ := ih hl
    obtain ⟨t1, t2, _, t4⟩ := to_string_nonneg hd0
    obtain ⟨chunk, c1, c2, c3, c4⟩ := pad9_spec t1 (t4 hd1)
    refine ⟨chunk ++ rest, ?_, ?_, ?_, ?_⟩
    · simp only [padLimbs, c1, r1, bind, Except.bind]; rfl
    · intro c hc
      rw [List.mem_append] at hc
      rcases hc with hc | hc
      · exact c2 c hc
      · exact r2 c hc
    · simp only [List.length_append, c3, r3, List.length_cons]; omega
    · rw [decValue_append, c4, t2, r4, r3, List.reverse_cons, magVal_append,
        List.length_reverse, BASE_pow_eq]
      simp only [magVal_cons, magVal_nil, mul_zero, add_zero]
      ring

theorem toString_zero {x : BigInteger} (h : x.digits = [0]) : toString x = .ok ['0'] := by
  unfold toString
  rw [(isZero_iff x).mpr h]; rfl

/-- The text of a nonzero canonical value: an optional `-`, then the decimal digits of
the magnitude without a leading zero. -/
theorem toString_spec {x : BigInteger} (h : canonMag x.digits) (h0 : x.digits ≠ [0]) :
    ∃ str, toString x = .ok ((if x.negative then ['-'] else []) ++ str) ∧
      allDigits str = true ∧ str.head? ≠ some '0' ∧ decValue str = magVal x.digits := by
  obtain ⟨hne, hl, htop⟩ := h
  rcases hr : x.digits.reverse with _ | ⟨top, lower⟩
  · simp at hr; exact absurd hr hne
  · have hds : x.digits = lower.reverse ++ [top] := by
      have := congrArg List.reverse hr
      simpa using this
    have hl' := hl
    rw [hds, limbsOk_append, limbsOk_reverse] at hl'
    have ht0 : 0 ≤ top := (hl'.2 top (by simp)).1
    have htne : top ≠ 0 := by
      intro hz
      subst hz
      cases lower with
      | nil => exact h0 (by rw [hds]; rfl)
      | cons e t =>
        apply htop
        · rw [hds]; simp
        · rw [hds]; simp
    obtain ⟨rest, r1, r2, r3, r4⟩ := padLimbs_spec lower hl'.1
    obtain ⟨t1, t2, t3, _⟩ := to_string_nonneg ht0
    have t1' := (allDigits_iff _).mp t1
    refine ⟨to_string top ++ rest, ?_, ?_, ?_, ?_⟩
    · unfold toString
      rw [(isZero_eq_false_iff x).mpr h0]
      simp only [Bool.false_eq_true, ↓reduceIte, hr, r1, bind, Except.bind]
      simp only [pure, Except.pure, List.append_assoc]
    · rw [allDigits_iff]
      refine ⟨by simp [t1'.1], ?_⟩
      intro c hc
      rw [List.mem_append] at hc
      rcases hc with hc | hc
      · exact t1'.2 c hc
      · exact r2 c hc
    · have := t3 (by omega)
      rcases hs : to_string top with _ | ⟨c, t⟩
      · exact absurd hs t1'.1
      · rw [hs] at this; simpa using this
    · rw [decValue_append, t2, r4, r3, hds, magVal_append, List.length_reverse, BASE_pow_eq]
      simp only [magVal_cons, magVal_nil, mul_zero, add_zero]
      ring

/-! ## Construction from text -/

theorem stoll_digits {chunk : List Char} (h : allDigits chunk = true)
    (hlen : chunk.length ≤ 9) : stoll chunk = .ok (decValue chunk) := by
  obtain ⟨hne, hall⟩ := (allDigits_iff _).mp h
  obtain ⟨b1, b2⟩ := decValue_bounds hall
  have hpow : (10 : Int) ^ chunk.length ≤ 10 ^ 9 := pow_le_pow_right₀ (by decide) hlen
  cases chunk with
  | nil => exact absurd rfl hne
  | cons c t =>
    obtain ⟨s1, s2, s3⟩ := isDigit_not_special (hall c (by simp))
    have hdrop : List.dropWhile isspace (c :: t) = c :: t := by
      rw [List.dropWhile_cons_of_neg (by simp [s1])]
    have htake : List.takeWhile Char.isDigit (c :: t) = c :: t :=
      List.takeWhile_eq_self_iff.mpr hall
    have hsign : readSign (c :: t) = (false, c :: t) := by
      unfold readSign
      split
      · rename_i heq; simp only [List.cons.injEq] at heq; exact absurd heq.1 s2
      · rename_i heq; simp only [List.cons.injEq] at heq; exact absurd heq.1 s3
      · rfl
    have h9 : (10 : Int) ^ 9 = 1000000000 := by norm_num
    rw [h9] at hpow
    unfold stoll
    simp only [hdrop, hsign, htake]
    rw [if_neg (by simp)]
    simp only [Bool.false_eq_true, ↓reduceIte]
    rw [if_neg]
    norm_num
    omega

theorem mem_of_mem_chunk {s : List Char} {a b : Nat} {c : Char}
    (h : c ∈ (s.drop a).take b) : c ∈ s :=
  List.mem_of_mem_drop (List.mem_of_mem_take h)

theorem intOfText_minus (t : List Char) : intOfText ('-' :: t) = -decValue t := rfl

theorem intOfText_plain {c : Char} (hc : c ≠ '-') (t : List Char) :
    intOfText (c :: t) = decValue (c :: t) := by
  unfold intOfText
  split
  · rename_i h; simp only [List.cons.injEq] at h; exact absurd h.1 hc
  · rfl

theorem matchesInt_minus (t : List Char) : matchesInt ('-' :: t) = allDigits t := rfl

theorem matchesInt_plain {c : Char} (hc : c ≠ '-') (t : List Char) :
    matchesInt (c :: t) = allDigits (c :: t) := by
  unfold matchesInt
  split
  · rename_i h; simp only [List.cons.injEq] at h; exact absurd h.1 hc
  · rfl

/-! ## Uniqueness of the canonical form -/

theorem limbs_unique (a : List Int) : ∀ b : List Int, limbsOk a → limbsOk b →
    a.length = b.length → magVal a = magVal b → a = b := by
  induction a with
  | nil =>
    intro b _ _ hlen _
    cases b with
    | nil => rfl
    | cons y ys => simp at hlen
  | cons x xs ih =>
    intro b ha hb hlen hv
    cases b with
    | nil => simp at hlen
    | cons y ys =>
      rw [limbsOk_cons] at ha hb
      simp only [List.length_cons, Nat.add_right_cancel_iff] at hlen
      simp only [magVal_cons, BASE_eq] at hv
      have h1 := ha.1
      have h2 := hb.1
      simp only [BASE_eq] at h1 h2
      have hxy : x = y := by omega
      have hm : magVal xs = magVal ys := by omega
      rw [hxy, ih ys ha.2 hb.2 hlen hm]

theorem canonMag_unique {a b : List Int} (ha : canonMag a) (hb : canonMag b)
    (hv : magVal a = magVal b) : a = b := by
  apply limbs_unique a b ha.2.1 hb.2.1 _ hv
  have h1 := canonMag_length_le ha hb (by omega)
  have h2 := canonMag_length_le hb ha (by omega)
  omega

theorem canonical_unique {a b : BigInteger} (ha : canonical a) (hb : canonical b)
    (hv : value a = value b) : a = b := by
  have hma := canonical_digits ha
  have hmb := canonical_digits hb
  have key : a.negative = b.negative := by
    rcases hna : a.negative with _ | _ <;> rcases hnb : b.negative with _ | _
    · rfl
    · have := value_nonneg_of_nonneg ha hna
      have := value_neg_of_negative hb hnb
      omega
    · have := value_nonneg_of_nonneg hb hnb
      have := value_neg_of_negative ha hna
      omega
    · rfl
  have hm : magVal a.digits = magVal b.digits := by
    unfold value at hv
    rw [key] at hv
    split at hv <;> omega
  have hd := canonMag_unique hma hmb hm
  cases a; cases b
  simp only at key hd
  rw [key, hd]

/-! ## Construction from a native integer -/

theorem pushLimbs_zero (fuel : Nat) : pushLimbs fuel 0 = [] := by
  cases fuel <;> simp [pushLimbs]

theorem pushLimbs_spec (fuel : Nat) : ∀ num : Int, 0 < num → num.toNat ≤ fuel →
    pushLimbs fuel num ≠ [] ∧ limbsOk (pushLimbs fuel num) ∧
    magVal (pushLimbs fuel num) = num ∧ (pushLimbs fuel num).getLast? ≠ some 0 := by
  induction fuel with
  | zero => intro num h1 h2; omega
  | succ fuel ih =>
    intro num hpos hf
    rw [pushLimbs]
    simp only [gt_iff_lt, hpos, ↓reduceIte]
    rw [tmod_BASE hpos.le, tdiv_BASE hpos.le]
    by_cases hq : num / 1000000000 = 0
    · rw [hq, pushLimbs_zero]
      refine ⟨by simp, ?_, ?_, ?_⟩
      · rw [limbsOk_cons]; simp only [BASE_eq]; exact ⟨⟨by omega, by omega⟩, limbsOk_nil⟩
      · simp only [magVal_cons, magVal_nil]; omega
      · simp only [List.getLast?_singleton, ne_eq, Option.some.injEq]; omega
    · obtain ⟨i1, i2, i3, i4⟩ := ih (num / 1000000000) (by omega) (by omega)
      refine ⟨by simp, ?_, ?_, ?_⟩
      · rw [limbsOk_cons]; simp only [BASE_eq]; exact ⟨⟨by omega, by omega⟩, i2⟩
      · simp only [magVal_cons, i3, BASE_eq]; omega
      · rcases hp : pushLimbs fuel (num / 1000000000) with _ | ⟨e, t⟩
        · exact absurd hp i1
        · rw [hp] at i4
          rw [List.getLast?_cons_cons]; exact i4

theorem ofLongLong_nonneg {n : Int} (h0 : 0 ≤ n) :
    canonical (ofLongLong n) ∧ (ofLongLong n).negative = false ∧ value (ofLongLong n) = n := by
  have hn : ¬n < 0 := by omega
  unfold ofLongLong
  simp only [hn, ↓reduceIte, decide_False]
  by_cases hz : n = 0
  · subst hz
    exact ⟨by decide, rfl, by decide⟩
  · simp only [hz, ↓reduceIte]
    obtain ⟨p1, p2, p3, p4⟩ := pushLimbs_spec n.toNat n (by omega) (le_refl _)
    refine ⟨?_, trivial, ?_⟩
    · apply canonical_mk_false
      exact ⟨p1, p2, fun _ => p4⟩
    · rw [value_mk_false, p3]

theorem ofLongLong_zero : ofLongLong 0 = ⟨[0], false⟩ := by decide

/-! ## Enough fuel -/

theorem lt_ok {a b : BigInteger} (ha : canonical a) (hb : canonical b) {fuel : Nat}
    (hf : 2 ≤ fuel) : lt fuel a b = .ok (decide (value a < value b)) := by
  obtain ⟨k, rfl⟩ := Nat.exists_eq_add_of_le hf
  rw [Nat.add_comm]; exact lt_spec ha hb k

theorem ge_ok {a b : BigInteger} (ha : canonical a) (hb : canonical b) {fuel : Nat}
    (hf : 2 ≤ fuel) : ge fuel a b = .ok (decide (value b ≤ value a)) := by
  unfold ge
  rw [lt_ok ha hb hf]
  simp only [bind, Except.bind, pure, Except.pure]
  congr 1
  by_cases h : value a < value b
  · simp [h]
  · simp [h, not_lt.mp h]

theorem add_ok {a b : BigInteger} (ha : canonical a) (hb : canonical b) {fuel : Nat}
    (hf : 4 ≤ fuel) :
    ∃ r, add fuel a b = .ok r ∧ canonical r ∧ value r = value a + value b := by
  obtain ⟨k, rfl⟩ := Nat.exists_eq_add_of_le hf
  rw [Nat.add_comm]; exact add_spec k ha hb

theorem sub_ok {a b : BigInteger} (ha : canonical a) (hb : canonical b) {fuel : Nat}
    (hf : 5 ≤ fuel) :
    ∃ r, sub fuel a b = .ok r ∧ canonical r ∧ value r = value a - value b := by
  obtain ⟨k, rfl⟩ := Nat.exists_eq_add_of_le hf
  rw [Nat.add_comm]; exact sub_spec k ha hb

theorem nonneg_of_value_nonneg {x : BigInteger} (h : canonical x) (hv : 0 ≤ value x) :
    x.negative = false := by
  rcases hn : x.negative with _ | _
  · rfl
  · have := value_neg_of_negative h hn
    omega

/-! ## Division -/

theorem divWhile_spec {fuel : Nat} (hf : 5 ≤ fuel) {dv : BigInteger} (hdv : canonical dv)
    (hD : 0 < value dv) (iters : Nat) :
    ∀ (current : BigInteger) (q0 : Int), canonical current → 0 ≤ value current → 0 ≤ q0 →
    value current / value dv < iters → q0 + value current / value dv < 2147483648 →
    ∃ c, divWhile fuel dv iters current q0 = .ok (c, q0 + value current / value dv) ∧
      canonical c ∧ value c = value current % value dv := by
  induction iters with
  | zero =>
    intro current q0 _ hc _ hit _
    have := Int.ediv_nonneg hc hD.le
    omega
  | succ iters ih =>
    intro current q0 hcan hc hq0 hit hq
    have hquot := Int.ediv_nonneg hc hD.le
    rw [divWhile, ge_ok hcan hdv (by omega)]
    by_cases hge : value dv ≤ value current
    · obtain ⟨c1, s1, s2, s3⟩ := sub_ok hcan hdv hf
      have hsplit : value current = (value current - value dv) + 1 * value dv := by ring
      have hdiv : value current / value dv = (value current - value dv) / value dv + 1 := by
        conv_lhs => rw [hsplit]
        rw [Int.add_mul_ediv_right _ _ (by omega)]
      have hmod : value current % value dv = (value current - value dv) % value dv := by
        conv_lhs => rw [hsplit]
        rw [Int.add_mul_emod_self]
      have hw : wrap32 (q0 + 1) = q0 + 1 := by
        have := Int.ediv_nonneg (show 0 ≤ value current - value dv by omega) hD.le
        exact wrap32_of_range (by omega) (by omega)
      obtain ⟨c, i1, i2, i3⟩ := ih c1 (q0 + 1) s2 (by rw [s3]; omega) (by omega)
        (by rw [s3]; omega) (by rw [s3]; omega)
      refine ⟨c, ?_, i2, ?_⟩
      · simp only [hge, decide_True, bind, Except.bind, ↓reduceIte, s1, hw, i1, s3]
        congr 2; rw [hdiv]; ring
      · rw [i3, s3, hmod]
    · have hlt : value current < value dv := by omega
      refine ⟨current, ?_, hcan, ?_⟩
      · simp only [hge, decide_False, bind, Except.bind, Bool.false_eq_true, ↓reduceIte]
        rw [Int.ediv_eq_zero_of_lt hc hlt, add_zero]
        rfl
      · rw [Int.emod_eq_of_lt hc hlt]

theorem ofLongLong_ten :
    canonical (ofLongLong 10) ∧ value (ofLongLong 10) = 10 := by
  constructor <;> decide

theorem divDigits_spec {fuel : Nat} (hf : 10 ≤ fuel) {dv : BigInteger} (hdv : canonical dv)
    (hD : 0 < value dv) (t : List Char) :
    ∀ (result current : BigInteger), (∀ c ∈ t, c.isDigit = true) →
    canonical result → canonical current → 0 ≤ value result → 0 ≤ value current →
    value current < value dv →
    ∃ res, divDigits fuel dv t result current = .ok res ∧ canonical res ∧
      value res =
        ((value result * value dv + value current) * 10 ^ t.length + decValue t) / value dv := by
  induction t with
  | nil =>
    intro result current _ hres _ _ hc0 hc1
    refine ⟨result, rfl, hres, ?_⟩
    simp only [List.length_nil, pow_zero, mul_one, decValue_nil, add_zero]
    rw [add_comm, Int.add_mul_ediv_right _ _ (by omega), Int.ediv_eq_zero_of_lt hc0 hc1]
    ring
  | cons c t ih =>
    intro result current hall hres hcur hr0 hc0 hc1
    have hcd := digitVal_range (hall c (by simp))
    obtain ⟨d1, d2, d3⟩ := ofLongLong_nonneg hcd.1
    obtain ⟨m1, m2, m3, m4⟩ := mul_spec hcur ofLongLong_ten.1
    obtain ⟨a1, a2, a3, a4⟩ := add_ok m3 d1 (show 4 ≤ fuel by omega)
    rw [m4, ofLongLong_ten.2, d3] at a4
    have hq0 := Int.ediv_nonneg (show 0 ≤ value a1 by omega) hD.le
    have hq9 : value a1 / value dv < 10 :=
      Int.ediv_lt_of_lt_mul hD (by rw [a4]; nlinarith)
    obtain ⟨c1, w1, w2, w3⟩ := divWhile_spec (show 5 ≤ fuel by omega) hdv hD fuel a1 0 a3
      (by omega) (le_refl 0) (by omega) (by omega)
    rw [zero_add] at w1
    obtain ⟨q1, q2, q3⟩ := ofLongLong_nonneg hq0
    obtain ⟨n1, n2, n3, n4⟩ := mul_spec hres ofLongLong_ten.1
    obtain ⟨b1, b2, b3, b4⟩ := add_ok n3 q1 (show 4 ≤ fuel by omega)
    rw [n4, ofLongLong_ten.2, q3] at b4
    have hmod0 := Int.emod_nonneg (value a1) (show value dv ≠ 0 by omega)
    have hmod1 := Int.emod_lt_of_pos (value a1) hD
    obtain ⟨res, i1, i2, i3⟩ := ih b1 c1 (fun e he => hall e (List.mem_cons_of_mem _ he)) b3 w2
      (by rw [b4]; nlinarith) (by rw [w3]; exact hmod0) (by rw [w3]; exact hmod1)
    refine ⟨res, ?_, i2, ?_⟩
    · rw [divDigits]
      simp only [m2, a2, w1, n2, b2, bind, Except.bind]
      exact i1
    · rw [i3, b4, w3, decValue_cons, List.length_cons, pow_succ]
      congr 1
      have hdm := Int.ediv_add_emod (value a1) (value dv)
      have : (value result * 10 + value a1 / value dv) * value dv + value a1 % value dv
          = value result * value dv * 10 + value a1 := by
        rw [add_mul]
        linarith
      rw [this, a4]
      ring

theorem div_finish {a b result : BigInteger} (hres : canonical result)
    (hn : result.negative = false)
    (hv : value result = magVal a.digits / magVal b.digits)
    (hA : 0 ≤ magVal a.digits) (hB : 0 ≤ magVal b.digits) :
    canonical ⟨result.digits, (a.negative != b.negative) && !result.isZero⟩ ∧
    value ⟨result.digits, (a.negative != b.negative) && !result.isZero⟩
      = (value a).tdiv (value b) ∧
    (⟨result.digits, (a.negative != b.negative) && !result.isZero⟩ : BigInteger).negative
      = ((a.negative != b.negative) &&
        !(⟨result.digits, (a.negative != b.negative) && !result.isZero⟩ : BigInteger).isZero) := by
  have hmr : magVal result.digits = magVal a.digits / magVal b.digits := by
    rw [← hv, value_of_nonneg hn]
  refine ⟨?_, ?_, rfl⟩
  · rw [canonical_iff]
    refine ⟨canonical_digits (x := result) hres, ?_⟩
    intro h0
    dsimp only at h0 ⊢
    rw [(isZero_iff result).mpr h0]; simp
  · have htd : (magVal a.digits).tdiv (magVal b.digits) = magVal a.digits / magVal b.digits :=
      Int.tdiv_eq_ediv hA hB
    by_cases hz : result.isZero = true
    · have h0 := (isZero_iff result).mp hz
      rw [h0, magVal_single_zero] at hmr
      simp only [hz, Bool.not_true, Bool.and_false]
      rw [value_mk_false, h0, magVal_single_zero]
      unfold value
      rcases a.negative with _ | _ <;> rcases b.negative with _ | _ <;>
        simp [htd, ← hmr]
    · simp only [hz, Bool.not_false, Bool.and_true]
      unfold value
      rcases a.negative with _ | _ <;> rcases b.negative with _ | _ <;>
        simp [htd, ← hmr]

/-- Truncating division of canonical values by a nonzero canonical divisor, with fuel
for ten iterations of the subtraction loop. -/
theorem div_spec {a b : BigInteger} (ha : canonical a) (hb : canonical b)
    (hb0 : b.digits ≠ [0]) {fuel : Nat} (hf : 10 ≤ fuel) :
    ∃ q, div fuel a b = .ok q ∧ canonical q ∧ value q = (value a).tdiv (value b) ∧
      q.negative = ((a.negative != b.negative) && !q.isZero) := by
  have hma := canonical_digits ha
  have hmb := canonical_digits hb
  have hA := magVal_nonneg ha.2.1
  have hD := canonMag_magVal_pos hmb hb0
  have hcd := canonical_abs ha
  have hcv := canonical_abs hb
  unfold div
  rw [(isZero_eq_false_iff b).mpr hb0]
  simp only [Bool.false_eq_true, ↓reduceIte]
  rw [lt_ok hcd hcv (show 2 ≤ fuel by omega), value_mk_false, value_mk_false]
  simp only [bind, Except.bind]
  by_cases hlt : magVal a.digits < magVal b.digits
  · simp only [hlt, decide_True, ↓reduceIte]
    refine ⟨ofLongLong 0, rfl, by decide, ?_, by rw [ofLongLong_zero]; simp [isZero]⟩
    have h0 : (magVal a.digits).tdiv (magVal b.digits) = 0 := Int.tdiv_eq_zero_of_lt hA hlt
    have : value (ofLongLong 0) = 0 := by decide
    rw [this]
    unfold value
    rcases a.negative with _ | _ <;> rcases b.negative with _ | _ <;> simp [h0]
  · simp only [hlt, decide_False, Bool.false_eq_true, ↓reduceIte]
    by_cases hfast : b.digits.length = 1 ∧ a.digits.length ≤ 2
    · simp only [hfast, and_self, ↓reduceIte]
      obtain ⟨hb1, ha2⟩ := hfast
      rcases hbd : b.digits with _ | ⟨divVal, _ | ⟨e, t⟩⟩
      · rw [hbd] at hb1; simp at hb1
      · rcases had : a.digits with _ | ⟨d0, _ | ⟨d1, _ | ⟨e, t⟩⟩⟩
        · exact absurd had ha.1
        · have hl : limbsOk a.digits := ha.2.1
          rw [had, limbsOk_cons] at hl
          have hd0 := hl.1
          simp only [BASE_eq] at hd0
          rw [had] at hA hlt
          rw [hbd] at hD hlt
          simp only [magVal_cons, magVal_nil, mul_zero, add_zero] at hA hD hlt
          have hq0 : 0 ≤ d0 / divVal := Int.ediv_nonneg hd0.1 hD.le
          have hq1 : d0 / divVal ≤ d0 := Int.ediv_le_self _ hd0.1
          have htd : d0.tdiv divVal = d0 / divVal := Int.tdiv_eq_ediv hd0.1 hD.le
          have hw : wrap64 (d0 / divVal) = d0 / divVal := wrap64_of_range (by omega) (by omega)
          obtain ⟨o1, o2, o3⟩ := ofLongLong_nonneg hq0
          have := div_finish (a := a) (b := b) o1 o2 (by
            rw [o3, had, hbd]; simp [magVal]) (by rw [had]; simpa [magVal] using hA)
            (by rw [hbd]; simpa [magVal] using hD.le)
          simp only [htd, hw]
          exact ⟨_, rfl, this⟩
        · have hl : limbsOk a.digits := ha.2.1
          rw [had, limbsOk_cons, limbsOk_cons] at hl
          have hd0 := hl.1
          have hd1 := hl.2.1
          simp only [BASE_eq] at hd0 hd1
          rw [had] at hA hlt
          rw [hbd] at hD hlt
          simp only [magVal_cons, magVal_nil, mul_zero, add_zero, BASE_eq] at hA hD hlt
          have hw1 : wrap64 (d1 * BASE) = d1 * 1000000000 := by
            rw [BASE_eq]; exact wrap64_of_range (by omega) (by omega)
          have hw2 : wrap64 (d0 + d1 * 1000000000) = d0 + d1 * 1000000000 :=
            wrap64_of_range (by omega) (by omega)
          have hq0 : 0 ≤ (d0 + d1 * 1000000000) / divVal := Int.ediv_nonneg (by omega) hD.le
          have hq1 : (d0 + d1 * 1000000000) / divVal ≤ d0 + d1 * 1000000000 :=
            Int.ediv_le_self _ (by omega)
          have htd : (d0 + d1 * 1000000000).tdiv divVal = (d0 + d1 * 1000000000) / divVal :=
            Int.tdiv_eq_ediv (by omega) hD.le
          have hw : wrap64 ((d0 + d1 * 1000000000) / divVal) = (d0 + d1 * 1000000000) / divVal :=
            wrap64_of_range (by omega) (by omega)
          obtain ⟨o1, o2, o3⟩ := ofLongLong_nonneg hq0
          have := div_finish (a := a) (b := b) o1 o2 (by
            rw [o3, had, hbd]; simp only [magVal, BASE_eq]; ring_nf)
            (by rw [had]; simp only [magVal, BASE_eq]; omega)
            (by rw [hbd]; simpa [magVal] using hD.le)
          simp only [hw1, hw2, htd, hw]
          exact ⟨_, rfl, this⟩
        · rw [had] at ha2; simp at ha2
      · rw [hbd] at hb1; simp at hb1
    · simp only [hfast, ↓reduceIte]
      have hne0 : a.digits ≠ [0] := by
        intro h0
        rw [h0, magVal_single_zero] at hlt
        omega
      obtain ⟨str, t1, t2, _, t4⟩ :=
        toString_spec (x := ⟨a.digits, false⟩) hma hne0
      simp only [Bool.false_eq_true, ↓reduceIte, List.nil_append] at t1
      have hz : canonical (ofLongLong 0) ∧ value (ofLongLong 0) = 0 := by
        constructor <;> decide
      obtain ⟨res, r1, r2, r3⟩ := divDigits_spec hf hcv (by rw [value_mk_false]; exact hD)
        str (ofLongLong 0) (ofLongLong 0) ((allDigits_iff _).mp t2).2 hz.1 hz.1
        (by rw [hz.2]) (by rw [hz.2]) (by rw [hz.2, value_mk_false]; exact hD)
      rw [hz.2, value_mk_false, t4] at r3
      simp only [zero_mul, add_zero, zero_add] at r3
      have hrn : res.negative = false :=
        nonneg_of_value_nonneg r2 (by rw [r3]; exact Int.ediv_nonneg hA hD.le)
      have := div_finish (a := a) (b := b) r2 hrn r3 hA hD.le
      simp only [t1, r1]
      exact ⟨_, rfl, this⟩

theorem digits_ne_zero_of_value {b : BigInteger} (h : value b ≠ 0) : b.digits ≠ [0] := by
  intro h0
  apply h
  unfold value
  rw [h0, magVal_single_zero]; simp

/-! ## Failure of the construction from text -/

theorem readSign_length (s : List Char) : (readSign s).2.length ≤ s.length := by
  unfold readSign
  split <;> simp

theorem stoll_error {chunk : List Char} {e : Error} (hlen : chunk.length ≤ 9)
    (h : stoll chunk = .error e) : e = .invalidArgument := by
  unfold stoll at h
  simp only at h
  split at h
  · cases h; rfl
  · exfalso
    set ds := List.takeWhile Char.isDigit (readSign (List.dropWhile isspace chunk)).2 with hds
    have hall : ∀ c ∈ ds, c.isDigit = true := fun c hc => List.mem_takeWhile_imp hc
    have hl1 : ds.length ≤ (readSign (List.dropWhile isspace chunk)).2.length :=
      (List.takeWhile_sublist _).length_le
    have hl2 := readSign_length (List.dropWhile isspace chunk)
    have hl3 : (List.dropWhile isspace chunk).length ≤ chunk.length :=
      (List.dropWhile_sublist _).length_le
    obtain ⟨b1, b2⟩ := decValue_bounds hall
    have hpow : (10 : Int) ^ ds.length ≤ 10 ^ 9 :=
      pow_le_pow_right₀ (by decide) (by omega)
    have h9 : (10 : Int) ^ 9 = 1000000000 := by norm_num
    rw [h9] at hpow
    have h63 : (2 : Int) ^ 63 = 9223372036854775808 := by norm_num
    rw [h63] at h
    have hv : ¬((if (readSign (List.dropWhile isspace chunk)).1 = true then -decValue ds
        else decValue ds) < -9223372036854775808 ∨
        9223372036854775808 - 1 < (if (readSign (List.dropWhile isspace chunk)).1 = true
          then -decValue ds else decValue ds)) := by
      split <;> omega
    rw [if_neg hv] at h
    cases h

/-! ## Round trips between text and value -/

theorem zeroPad9_length {d : Int} (h0 : 0 ≤ d) (h1 : d < BASE) : (zeroPad9 d).length = 9 := by
  have := (to_string_nonneg h0).2.2.2 h1
  unfold zeroPad9
  simp only [List.length_append, List.length_replicate]
  omega

theorem padLimbs_eq (lower : List Int) (h : limbsOk lower) :
    padLimbs lower = .ok (zeroPadAll lower) := by
  induction lower with
  | nil => rfl
  | cons d ds ih =>
    rw [limbsOk_cons] at h
    have hlen := (to_string_nonneg h.1.1).2.2.2 h.1.2
    simp only [padLimbs, pad9, hlen, ↓reduceIte, ih h.2, bind, Except.bind]
    rfl

/-- The text of a nonzero canonical value: an optional `-`, the most significant limb
as it is, and every lower limb zero-padded to nine digits. -/
theorem toString_format {x : BigInteger} (h : canonMag x.digits) (h0 : x.digits ≠ [0])
    {top : Int} {lower : List Int} (hr : x.digits.reverse = top :: lower) :
    toString x = .ok ((if x.negative then ['-'] else []) ++ to_string top ++ zeroPadAll lower) ∧
    ∀ d ∈ lower, (zeroPad9 d).length = 9 := by
  have hl : limbsOk (top :: lower) := by
    rw [← hr, limbsOk_reverse]; exact h.2.1
  rw [limbsOk_cons] at hl
  constructor
  · unfold toString
    rw [(isZero_eq_false_iff x).mpr h0]
    simp only [Bool.false_eq_true, ↓reduceIte, hr, padLimbs_eq lower hl.2, bind, Except.bind]
    rfl
  · intro d hd
    exact zeroPad9_length (hl.2 d hd).1 (hl.2 d hd).2

theorem digits_unique {s1 s2 : List Char} (h1 : allDigits s1 = true) (h2 : allDigits s2 = true)
    (z1 : s1.head? ≠ some '0') (z2 : s2.head? ≠ some '0')
    (hv : decValue s1 = decValue s2) : s1 = s2 := by
  rcases s1 with _ | ⟨c1, t1⟩
  · simp [allDigits] at h1
  · rcases s2 with _ | ⟨c2, t2⟩
    · simp [allDigits] at h2
    · have e1 := decDigits_decValue t1 c1 ((decValue (c1 :: t1)).toNat + 1) h1
        (fun _ => by simpa using z1) (by omega)
      have e2 := decDigits_decValue t2 c2 ((decValue (c1 :: t1)).toNat + 1) h2
        (fun _ => by simpa using z2) (by rw [hv]; omega)
      rw [← e1, ← e2, hv]

theorem ofString_toString_digits (sign : Bool) {c : Char} {t : List Char}
    (hc : c ≠ '0') (hall : allDigits (c :: t) = true) {x : BigInteger} (hx : canonical x)
    (hv : value x = if sign then -decValue (c :: t) else decValue (c :: t)) :
    toString x = .ok ((if sign then ['-'] else []) ++ c :: t) := by
  have hlow := decValue_pos_of_head hall hc
  have hp : (1 : Int) ≤ 10 ^ t.length := one_le_pow₀ (by decide)
  have hx0 : x.digits ≠ [0] := by
    apply digits_ne_zero_of_value
    rw [hv]; split <;> omega
  have hneg : x.negative = sign := by
    rcases hs : sign with _ | _
    · rw [hs] at hv
      simp only [Bool.false_eq_true, ↓reduceIte] at hv
      exact nonneg_of_value_nonneg hx (by omega)
    · rw [hs] at hv
      simp only [↓reduceIte] at hv
      rcases hn : x.negative with _ | _
      · have := value_nonneg_of_nonneg hx hn
        omega
      · rfl
  obtain ⟨str, t1, t2, t3, t4⟩ := toString_spec (canonical_digits hx) hx0
  have hm : magVal x.digits = decValue (c :: t) := by
    unfold value at hv
    rw [hneg] at hv
    rcases sign with _ | _
    · simpa using hv
    · simp only [↓reduceIte] at hv
      omega
  have := digits_unique t2 hall t3 (by simpa using hc) (by rw [t4, hm])
  rw [t1, hneg, this]

/-! ## Equality, negation and the native constructor on negative numbers -/

theorem eq_iff (a b : BigInteger) : eq a b = true ↔ a = b := by
  unfold eq
  cases a; cases b
  simp only [beq_iff_eq, Bool.and_eq_true, mk.injEq]
  exact and_comm

theorem eq_self (a : BigInteger) : eq a a = true := (eq_iff a a).mpr rfl

theorem eq_of_value {a b : BigInteger} (ha : canonical a) (hb : canonical b)
    (hv : value a = value b) : eq a b = true :=
  (eq_iff a b).mpr (canonical_unique ha hb hv)

theorem digits_zero_of_value {x : BigInteger} (h : canonical x) (hv : value x = 0) :
    x.digits = [0] := by
  apply (magVal_eq_zero_iff (canonical_digits h)).mp
  unfold value at hv
  split at hv <;> omega

theorem neg_flip {x : BigInteger} (h : canonical x) :
    (value x ≠ 0 → neg x = ⟨x.digits, !x.negative⟩) ∧ (value x = 0 → neg x = x) := by
  constructor
  · intro hv
    unfold neg
    rw [(isZero_eq_false_iff x).mpr (digits_ne_zero_of_value hv)]
    rfl
  · intro hv
    exact neg_zero_digits (digits_zero_of_value h hv)

theorem ofLongLong_neg {n : Int} (h0 : n < 0) (h1 : -9223372036854775808 < n) :
    canonical (ofLongLong n) ∧ (ofLongLong n).negative = true ∧ value (ofLongLong n) = n := by
  have hw : wrap64 (-n) = -n := wrap64_of_range (by omega) (by omega)
  unfold ofLongLong
  simp only [h0, ↓reduceIte, decide_True, hw]
  have hz : ¬(-n = 0) := by omega
  simp only [hz, ↓reduceIte]
  obtain ⟨p1, p2, p3, p4⟩ := pushLimbs_spec (-n).toNat (-n) (by omega) (le_refl _)
  refine ⟨?_, trivial, ?_⟩
  · apply canonical_mk_true ⟨p1, p2, fun _ => p4⟩
    intro h
    rw [h, magVal_single_zero] at p3
    omega
  · rw [value_mk_true, p3]; ring

/-- The constructor from a native integer, on every value of the type but the most
negative one. -/
theorem ofLongLong_spec {n : Int} (h1 : -9223372036854775808 < n)
    (_h2 : n < 9223372036854775808) :
    canonical (ofLongLong n) ∧ (ofLongLong n).negative = decide (n < 0) ∧
      value (ofLongLong n) = n := by
  by_cases h0 : n < 0
  · obtain ⟨c1, c2, c3⟩ := ofLongLong_neg h0 h1
    exact ⟨c1, by rw [c2]; simp [h0], c3⟩
  · obtain ⟨c1, c2, c3⟩ := ofLongLong_nonneg (not_lt.mp h0)
    exact ⟨c1, by rw [c2]; simp [h0], c3⟩

theorem ofLongLong_one : canonical (ofLongLong 1) ∧ value (ofLongLong 1) = 1 := by
  constructor <;> decide

theorem ofLongLong_zero_spec : canonical (ofLongLong 0) ∧ value (ofLongLong 0) = 0 := by
  constructor <;> decide

/-! ## The accesses of the multiplication -/

theorem mulRow_length (di : Int) (acc : List Int) : ∀ (o : List Int) (carry : Int)
    (row : List Int), mulRow di acc o carry = .ok row → row.length = acc.length := by
  induction acc with
  | nil =>
    intro o carry row h
    rw [mulRow] at h
    split at h
    · cases h; rfl
    · cases h
  | cons r acc ih =>
    intro o carry row h
    rw [mulRow] at h
    split at h
    · cases h; rfl
    · simp only [bind, Except.bind] at h
      split at h
      · cases h
      · rename_i rest hrest
        simp only [pure, Except.pure] at h
        cases h
        simp only [List.length_cons, Nat.add_right_cancel_iff]
        exact ih _ _ _ hrest

/-- When the inner loop returns, each of its accesses is inside the vector. -/
theorem mulRowAccesses_lt (di : Int) (acc : List Int) : ∀ (k : Nat) (o : List Int)
    (carry : Int) (row : List Int), mulRow di acc o carry = .ok row →
    ∀ x ∈ mulRowAccesses di k acc o carry, x < k + acc.length := by
  induction acc with
  | nil =>
    intro k o carry row h x hx
    rw [mulRow] at h
    rw [mulRowAccesses] at hx
    split at h
    · rename_i hstop
      rw [if_pos hstop] at hx
      cases hx
    · cases h
  | cons r acc ih =>
    intro k o carry row h x hx
    rw [mulRow] at h
    rw [mulRowAccesses] at hx
    split at h
    · rename_i hstop
      rw [if_pos hstop] at hx
      cases hx
    · rename_i hstop
      rw [if_neg hstop] at hx
      simp only [bind, Except.bind] at h
      split at h
      · cases h
      · rename_i rest hrest
        simp only [List.mem_cons] at hx
        rcases hx with hx | hx
        · rw [hx, List.length_cons]; omega
        · have := ih (k + 1) _ _ _ hrest x hx
          rw [List.length_cons]; omega

theorem mulAccesses_nil (o : List Int) (ds : List Int) : ∀ (i : Nat) (r : List Int),
    mulOuter ds o [] = .ok r → mulAccesses i ds o [] = [] := by
  induction ds with
  | nil => intro i r _; rw [mulAccesses]
  | cons d ds ih =>
    intro i r h
    rw [mulOuter] at h
    rw [mulAccesses]
    rcases hrow : mulRow d [] o 0 with e | row
    · rw [hrow] at h
      simp only [bind, Except.bind] at h
      cases h
    · have hlen := mulRow_length d [] o 0 row hrow
      have hnil : row = [] := List.length_eq_zero.mp hlen
      subst hnil
      rw [hrow] at h
      simp only [bind, Except.bind] at h
      have hacc : mulRowAccesses d i [] o 0 = [] := by
        rw [mulRow] at hrow
        rw [mulRowAccesses]
        split at hrow
        · rename_i hstop; rw [if_pos hstop]
        · cases hrow
      rw [hacc, List.nil_append]
      simp only
      exact ih (i + 1) r h

/-- When the multiplication loops return, each of their accesses is inside the vector. -/
theorem mulAccesses_lt (o : List Int) (ds : List Int) : ∀ (i : Nat) (acc r : List Int),
    mulOuter ds o acc = .ok r → ∀ x ∈ mulAccesses i ds o acc, x < i + acc.length := by
  induction ds with
  | nil =>
    intro i acc r _ x hx
    rw [mulAccesses] at hx
    cases hx
  | cons d ds ih =>
    intro i acc r h x hx
    rw [mulOuter] at h
    rw [mulAccesses] at hx
    rcases hrow : mulRow d acc o 0 with e | row
    · rw [hrow] at h
      simp only [bind, Except.bind] at h
      cases h
    · rw [hrow] at h hx
      have hlen := mulRow_length d acc o 0 row hrow
      rw [List.mem_append] at hx
      rcases hx with hx | hx
      · have := mulRowAccesses_lt d acc i o 0 row hrow x hx
        omega
      · simp only [bind, Except.bind] at h
        cases row with
        | nil =>
          simp only at h hx
          rw [mulAccesses_nil o ds (i + 1) r h] at hx
          cases hx
        | cons r0 rest =>
          simp only at h hx
          split at h
          · cases h
          · rename_i t ht
            have := ih (i + 1) rest t ht x hx
            simp only [List.length_cons] at hlen
            omega

theorem mulOuter_ok {a b : List Int} (ha : limbsOk a) (hb : limbsOk b) :
    ∃ r, mulOuter a b (List.replicate (a.length + b.length) 0) = .ok r ∧
      r.length = a.length + b.length ∧ limbsOk r ∧ magVal r = magVal a * magVal b := by
  obtain ⟨t, t1, t2, t3, t4⟩ := mulOuter_spec b hb a
    (List.replicate (a.length + b.length) 0) ha
    (limbsOk_replicate_zero _) (by simp)
    (by rw [magVal_replicate_zero]; exact BASE_pow_pos _)
  refine ⟨t, t1, by simpa using t3, t2, ?_⟩
  rw [t4, magVal_replicate_zero, zero_add]

/-! ## Wrap-around against exact integers -/

theorem inInt64_of_bounds {v : Int} (h0 : 0 ≤ v) (h1 : v < 9223372036854775808) :
    inInt64 v := by
  unfold inInt64; omega

theorem carrySums_spec {c : Int} (h0 : 0 ≤ c) (h1 : c ≤ 1) :
    (∀ s ∈ carrySums c.natAbs c, inInt64 s) ∧
    carryTail c.natAbs c = (carrySums c.natAbs c).map (fun s => s.tmod BASE) := by
  have hc : c = 0 ∨ c = 1 := by omega
  rcases hc with rfl | rfl
  · exact ⟨by decide, by decide⟩
  · exact ⟨by decide, by decide⟩

theorem addRestSums_spec (ys : List Int) : ∀ c : Int, limbsOk ys → 0 ≤ c → c ≤ 1 →
    (∀ s ∈ addRestSums ys c, inInt64 s) ∧
    addRest ys c = (addRestSums ys c).map (fun s => s.tmod BASE) := by
  induction ys with
  | nil =>
    intro c _ h0 h1
    have := carrySums_spec h0 h1
    simpa [addRest, addRestSums] using this
  | cons y ys ih =>
    intro c hl h0 h1
    rw [limbsOk_cons] at hl
    obtain ⟨⟨hy0, hy1⟩, hl⟩ := hl
    simp only [BASE_eq] at hy1
    have hw : wrap64 (c + y) = c + y := wrap64_of_range (by omega) (by omega)
    have hq : (c + y).tdiv BASE = (c + y) / 1000000000 := tdiv_BASE (by omega)
    obtain ⟨i1, i2⟩ := ih ((c + y).tdiv BASE) hl (by rw [hq]; omega) (by rw [hq]; omega)
    constructor
    · intro s hs
      simp only [addRestSums, List.mem_cons] at hs
      rcases hs with hs | hs
      · rw [hs]; exact inInt64_of_bounds (by omega) (by omega)
      · exact i1 s hs
    · simp only [addRest, addRestSums, hw, List.map_cons, i2]

/-- The sums of `operator+` stay in the 64-bit range, and the loop with wrap-around
pushes the limbs of the exact sums. -/
theorem addSums_spec (xs : List Int) : ∀ (ys : List Int) (c : Int), limbsOk xs → limbsOk ys →
    0 ≤ c → c ≤ 1 →
    (∀ s ∈ addSums xs ys c, inInt64 s) ∧
    addLoop xs ys c = (addSums xs ys c).map (fun s => s.tmod BASE) := by
  induction xs with
  | nil =>
    intro ys c _ hl h0 h1
    have := addRestSums_spec ys c hl h0 h1
    simpa [addLoop, addSums] using this
  | cons x xs ih =>
    intro ys c hlx hly h0 h1
    rw [limbsOk_cons] at hlx
    obtain ⟨⟨hx0, hx1⟩, hlx⟩ := hlx
    simp only [BASE_eq] at hx1
    have hw : wrap64 (c + x) = c + x := wrap64_of_range (by omega) (by omega)
    cases ys with
    | nil =>
      have hq : (c + x).tdiv BASE = (c + x) / 1000000000 := tdiv_BASE (by omega)
      obtain ⟨i1, i2⟩ := ih [] ((c + x).tdiv BASE) hlx limbsOk_nil (by rw [hq]; omega)
        (by rw [hq]; omega)
      constructor
      · intro s hs
        simp only [addSums, List.mem_cons] at hs
        rcases hs with hs | hs
        · rw [hs]; exact inInt64_of_bounds (by omega) (by omega)
        · exact i1 s hs
      · simp only [addLoop, addSums, hw, List.map_cons, i2]
    | cons y ys =>
      rw [limbsOk_cons] at hly
      obtain ⟨⟨hy0, hy1⟩, hly⟩ := hly
      simp only [BASE_eq] at hy1
      have hw2 : wrap64 (c + x + y) = c + x + y := wrap64_of_range (by omega) (by omega)
      have hq : (c + x + y).tdiv BASE = (c + x + y) / 1000000000 := tdiv_BASE (by omega)
      obtain ⟨i1, i2⟩ := ih ys ((c + x + y).tdiv BASE) hlx hly (by rw [hq]; omega)
        (by rw [hq]; omega)
      constructor
      · intro s hs
        simp only [addSums, List.mem_cons] at hs
        rcases hs with hs | hs
        · rw [hs]; exact inInt64_of_bounds (by omega) (by omega)
        · exact i1 s hs
      · simp only [addLoop, addSums, hw, hw2, List.map_cons, i2]

/-- One run of the inner loop of `operator*` on limbs and a carry below `BASE`: the run
over exact integers is the run with wrap-around, its values stay in the 64-bit range,
and it leaves limbs below `BASE`. -/
theorem mulRow_exact (di : Int) (hd0 : 0 ≤ di) (hd1 : di < BASE) (acc : List Int) :
    ∀ (o : List Int) (carry : Int), limbsOk acc → limbsOk o → 0 ≤ carry → carry < BASE →
    mulRowExact di acc o carry = mulRow di acc o carry ∧
    (∀ v ∈ mulRowVals di acc o carry, inInt64 v) ∧
    (∀ row, mulRow di acc o carry = .ok row → limbsOk row) := by
  simp only [BASE_eq] at hd1
  induction acc with
  | nil =>
    intro o carry _ _ _ _
    refine ⟨by rw [mulRowExact, mulRow], (by intro v hv; rw [mulRowVals] at hv; cases hv), ?_⟩
    intro row h
    rw [mulRow] at h
    split at h
    · cases h; exact limbsOk_nil
    · cases h
  | cons r acc ih =>
    intro o carry hla hlo hc0 hc1
    have hla' := hla
    rw [limbsOk_cons] at hla'
    obtain ⟨⟨hr0, hr1⟩, hlacc⟩ := hla'
    simp only [BASE_eq] at hr1 hc1
    by_cases hstop : o = [] ∧ carry = 0
    · obtain ⟨rfl, rfl⟩ := hstop
      refine ⟨by simp [mulRowExact, mulRow],
        (by intro v hv; simp [mulRowVals] at hv), ?_⟩
      intro row h
      simp only [mulRow, and_self, ↓reduceIte, Except.ok.injEq] at h
      rw [← h]; exact hla
    · have hw0 : wrap64 (r + carry) = r + carry := wrap64_of_range (by omega) (by omega)
      cases o with
      | nil =>
        have hq : (r + carry).tdiv BASE = (r + carry) / 1000000000 := tdiv_BASE (by omega)
        have hm : (r + carry).tmod BASE = (r + carry) % 1000000000 := tmod_BASE (by omega)
        obtain ⟨i1, i2, i3⟩ := ih [] ((r + carry).tdiv BASE) hlacc limbsOk_nil
          (by rw [hq]; omega) (by rw [hq, BASE_eq]; omega)
        refine ⟨?_, ?_, ?_⟩
        · rw [mulRowExact, mulRow, if_neg hstop, if_neg hstop]
          simp only [hw0, List.tail_nil, i1]
        · intro v hv
          rw [mulRowVals, if_neg hstop] at hv
          simp only [List.cons_append, List.nil_append, List.mem_cons] at hv
          rcases hv with hv | hv | hv
          · rw [hv]; exact inInt64_of_bounds (by omega) (by omega)
          · rw [hv, hq]; exact inInt64_of_bounds (by omega) (by omega)
          · exact i2 v hv
        · intro row h
          rw [mulRow, if_neg hstop] at h
          simp only [hw0, List.tail_nil, bind, Except.bind] at h
          split at h
          · cases h
          · rename_i rest hrest
            simp only [pure, Except.pure] at h
            cases h
            rw [limbsOk_cons, hm, BASE_eq]
            exact ⟨⟨by omega, by omega⟩, i3 rest hrest⟩
      | cons oj o =>
        rw [limbsOk_cons] at hlo
        obtain ⟨⟨ho0, ho1⟩, hlo⟩ := hlo
        simp only [BASE_eq] at ho1
        obtain ⟨hp0, hp1⟩ := limb_mul_bound hd0 hd1 ho0 ho1
        have hw1 : wrap64 (di * oj) = di * oj := wrap64_of_range (by omega) (by omega)
        have hw2 : wrap64 (r + carry + di * oj) = r + carry + di * oj :=
          wrap64_of_range (by omega) (by omega)
        have hq : (r + carry + di * oj).tdiv BASE = (r + carry + di * oj) / 1000000000 :=
          tdiv_BASE (by omega)
        have hm : (r + carry + di * oj).tmod BASE = (r + carry + di * oj) % 1000000000 :=
          tmod_BASE (by omega)
        obtain ⟨i1, i2, i3⟩ := ih o ((r + carry + di * oj).tdiv BASE) hlacc hlo
          (by rw [hq]; omega) (by rw [hq, BASE_eq]; omega)
        refine ⟨?_, ?_, ?_⟩
        · rw [mulRowExact, mulRow, if_neg hstop, if_neg hstop]
          simp only [hw0, hw1, hw2, List.tail_cons, i1]
        · intro v hv
          rw [mulRowVals, if_neg hstop] at hv
          simp only [List.cons_append, List.nil_append, List.mem_cons] at hv
          rcases hv with hv | hv | hv | hv | hv
          · rw [hv]; exact inInt64_of_bounds (by omega) (by omega)
          · rw [hv]; exact inInt64_of_bounds (by omega) (by omega)
          · rw [hv]; exact inInt64_of_bounds (by omega) (by omega)
          · rw [hv, hq]; exact inInt64_of_bounds (by omega) (by omega)
          · exact i2 v hv
        · intro row h
          rw [mulRow, if_neg hstop] at h
          simp only [hw0, hw1, hw2, List.tail_cons, bind, Except.bind] at h
          split at h
          · cases h
          · rename_i rest hrest
            simp only [pure, Except.pure] at h
            cases h
            rw [limbsOk_cons, hm, BASE_eq]
            exact ⟨⟨by omega, by omega⟩, i3 rest hrest⟩

/-- The loops of `operator*` on limbs below `BASE`: the run over exact integers is the
run with wrap-around, and its values stay in the 64-bit range. -/
theorem mulOuter_exact (o : List Int) (hlo : limbsOk o) (ds : List Int) :
    ∀ acc : List Int, limbsOk ds → limbsOk acc →
    mulOuterExact ds o acc = mulOuter ds o acc ∧ (∀ v ∈ mulVals ds o acc, inInt64 v) := by
  induction ds with
  | nil =>
    intro acc _ _
    exact ⟨by rw [mulOuterExact, mulOuter], (by intro v hv; rw [mulVals] at hv; cases hv)⟩
  | cons d ds ih =>
    intro acc hld hla
    rw [limbsOk_cons] at hld
    obtain ⟨⟨hd0, hd1⟩, hld⟩ := hld
    obtain ⟨r1, r2, r3⟩ := mulRow_exact d hd0 hd1 acc o 0 hla hlo (le_refl 0) BASE_pos
    rw [mulOuterExact, mulOuter, mulVals, r1]
    rcases hrow : mulRow d acc o 0 with e | row
    · refine ⟨rfl, ?_⟩
      intro v hv
      simp only [List.append_nil] at hv
      exact r2 v hv
    · have hlrow := r3 row hrow
      cases row with
      | nil =>
        obtain ⟨i1, _⟩ := ih [] hld limbsOk_nil
        refine ⟨?_, ?_⟩
        · simp only [bind, Except.bind, i1]
        · intro v hv
          simp only [List.append_nil] at hv
          exact r2 v hv
      | cons r0 rest =>
        rw [limbsOk_cons] at hlrow
        obtain ⟨i1, i2⟩ := ih rest hld hlrow.2
        refine ⟨?_, ?_⟩
        · simp only [bind, Except.bind, i1]
        · intro v hv
          simp only [List.mem_append] at hv
          rcases hv with hv | hv
          · exact r2 v hv
          · exact i2 v hv

/-- The fast path of `operator/` on a dividend of two limbs: `divdVal` and the quotient
stay in the 64-bit range, and the result is the one computed over exact integers. -/
theorem div_fast_exact {a b : BigInteger} (ha : canonical a) (hb : canonical b)
    {d0 d1 divVal : Int} (had : a.digits = [d0, d1]) (hbd : b.digits = [divVal])
    (hb0 : value b ≠ 0) {fuel : Nat} (hf : 2 ≤ fuel) :
    inInt64 (d1 * BASE) ∧ inInt64 (d0 + d1 * BASE) ∧
    inInt64 ((d0 + d1 * BASE).tdiv divVal) ∧
    div fuel a b = .ok ⟨(ofLongLong ((d0 + d1 * BASE).tdiv divVal)).digits,
      (a.negative != b.negative) && !(ofLongLong ((d0 + d1 * BASE).tdiv divVal)).isZero⟩ := by
  have hma := canonical_digits ha
  have hmb := canonical_digits hb
  have hbne := digits_ne_zero_of_value hb0
  have hD := canonMag_magVal_pos hmb hbne
  have hla : limbsOk a.digits := ha.2.1
  have hlb : limbsOk b.digits := hb.2.1
  have hlow := canonMag_lower_bound hma (by rw [had]; simp)
  rw [had] at hla hlow
  rw [hbd] at hlb hD
  rw [limbsOk_cons, limbsOk_cons] at hla
  rw [limbsOk_cons] at hlb
  obtain ⟨⟨h00, h01⟩, ⟨h10, h11⟩, _⟩ := hla
  obtain ⟨⟨hv0, hv1⟩, _⟩ := hlb
  simp only [magVal_cons, magVal_nil, mul_zero, add_zero, BASE_eq, List.length_cons,
    List.length_nil, Nat.reduceAdd, Nat.add_one_sub_one, pow_one] at hD hlow h01 h11 hv1
  have hw1 : wrap64 (d1 * 1000000000) = d1 * 1000000000 :=
    wrap64_of_range (by omega) (by omega)
  have hw2 : wrap64 (d0 + d1 * 1000000000) = d0 + d1 * 1000000000 :=
    wrap64_of_range (by omega) (by omega)
  have hq0 : 0 ≤ (d0 + d1 * 1000000000) / divVal := Int.ediv_nonneg (by omega) hD.le
  have hq1 : (d0 + d1 * 1000000000) / divVal ≤ d0 + d1 * 1000000000 :=
    Int.ediv_le_self _ (by omega)
  have htd : (d0 + d1 * 1000000000).tdiv divVal = (d0 + d1 * 1000000000) / divVal :=
    Int.tdiv_eq_ediv (by omega) hD.le
  have hw : wrap64 ((d0 + d1 * 1000000000) / divVal) = (d0 + d1 * 1000000000) / divVal :=
    wrap64_of_range (by omega) (by omega)
  refine ⟨?_, ?_, ?_, ?_⟩
  · rw [BASE_eq]; exact inInt64_of_bounds (by omega) (by omega)
  · rw [BASE_eq]; exact inInt64_of_bounds (by omega) (by omega)
  · rw [BASE_eq, htd]; exact inInt64_of_bounds (by omega) (by omega)
  · unfold div
    rw [(isZero_eq_false_iff b).mpr hbne]
    simp only [Bool.false_eq_true, ↓reduceIte]
    rw [lt_ok (canonical_abs ha) (canonical_abs hb) hf, value_mk_false, value_mk_false]
    have hnl : ¬magVal a.digits < magVal b.digits := by
      rw [had, hbd]
      simp only [magVal_cons, magVal_nil, mul_zero, add_zero, BASE_eq]
      omega
    simp only [bind, Except.bind, hnl, decide_False, Bool.false_eq_true, ↓reduceIte]
    rw [had, hbd]
    simp only [List.length_cons, List.length_nil, Nat.reduceAdd, zero_add, le_refl, and_self,
      ↓reduceIte, BASE_eq, hw1, hw2, htd, hw]
    rfl

/-- With enough fuel the result of `operator+` on canonical operands does not depend on
the fuel. -/
theorem add_fuel_irrelevant {a b : BigInteger} (ha : canonical a) (hb : canonical b) :
    ∃ r, canonical r ∧ value r = value a + value b ∧
      ∀ fuel, 4 ≤ fuel → add fuel a b = .ok r := by
  obtain ⟨r, _, r2, r3⟩ := add_ok ha hb (le_refl 4)
  refine ⟨r, r2, r3, ?_⟩
  intro fuel hf
  obtain ⟨s, s1, s2, s3⟩ := add_ok ha hb hf
  rw [s1, canonical_unique s2 r2 (by rw [s3, r3])]

/-- With enough fuel the result of binary `operator-` on canonical operands does not
depend on the fuel. -/
theorem sub_fuel_irrelevant {a b : BigInteger} (ha : canonical a) (hb : canonical b) :
    ∃ r, canonical r ∧ value r = value a - value b ∧
      ∀ fuel, 5 ≤ fuel → sub fuel a b = .ok r := by
  obtain ⟨r, _, r2, r3⟩ := sub_ok ha hb (le_refl 5)
  refine ⟨r, r2, r3, ?_⟩
  intro fuel hf
  obtain ⟨s, s1, s2, s3⟩ := sub_ok ha hb hf
  rw [s1, canonical_unique s2 r2 (by rw [s3, r3])]

/-! ## The loop of the constructor from text -/

theorem wrap32_length_le (n : Nat) : wrap32 (n : Int) ≤ n := by
  unfold wrap32; omega

theorem wrap32_length_lt (n : Nat) : wrap32 (n : Int) < 2147483648 := by
  unfold wrap32; omega

theorem wrap32_length_eq {n : Nat} (h : n < 2147483648) : wrap32 (n : Int) = n :=
  wrap32_of_range (by omega) (by omega)

theorem chunkLoop_nonpos (fuel : Nat) (s : List Char) {i : Int} (h : i ≤ 0) :
    chunkLoop fuel s i = .ok [] := by
  have hi : ¬i > 0 := by omega
  cases fuel <;> simp [chunkLoop, hi]

/-- One iteration of the loop at an index that fits an `int`: the chunk is the nine
characters before position `n`, or all `n` of them when there are fewer. -/
theorem chunkLoop_succ (fuel : Nat) (s : List Char) {n : Nat} (h0 : 0 < n)
    (h1 : n < 2147483648) :
    chunkLoop (fuel + 1) s (n : Int) =
      (stoll ((s.drop (n - 9)).take (n - (n - 9)))).bind (fun limb =>
        (chunkLoop fuel s ((n - 9 : Nat) : Int)).bind (fun rest => .ok (limb :: rest))) := by
  have hpos : (n : Int) > 0 := by omega
  have hw : wrap32 ((n : Int) - 9) = (n : Int) - 9 := wrap32_of_range (by omega) (by omega)
  have hstart : (max 0 ((n : Int) - 9)).toNat = n - 9 := by omega
  have hcount : (wrap32 ((n : Int) - max 0 ((n : Int) - 9))).toNat = n - (n - 9) := by
    rw [wrap32_of_range (by omega) (by omega)]; omega
  have hrest : chunkLoop fuel s ((n : Int) - 9) = chunkLoop fuel s ((n - 9 : Nat) : Int) := by
    by_cases h9 : 9 ≤ n
    · congr 1; omega
    · rw [chunkLoop_nonpos fuel s (by omega), chunkLoop_nonpos fuel s (by omega)]
  rw [chunkLoop]
  simp only [hpos, ↓reduceIte, hw, hstart, hcount, hrest]
  rfl

theorem chunk_length (s : List Char) {n : Nat} (hn : n ≤ s.length) :
    ((s.drop (n - 9)).take (n - (n - 9))).length = n - (n - 9) := by
  rw [List.length_take, List.length_drop]; omega

theorem chunkLoop_spec (s : List Char) (hall : ∀ c ∈ s, c.isDigit = true) (fuel : Nat) :
    ∀ i : Nat, i ≤ fuel → i ≤ s.length → i < 2147483648 →
    ∃ ds, chunkLoop fuel s (i : Int) = .ok ds ∧ limbsOk ds ∧
      magVal ds = decValue (s.take i) ∧ (0 < i → ds ≠ []) := by
  induction fuel with
  | zero =>
    intro i hi _ _
    have : i = 0 := by omega
    subst this
    exact ⟨[], chunkLoop_nonpos 0 s (le_refl _), limbsOk_nil,
      by simp [magVal, decValue_nil], by simp⟩
  | succ fuel ih =>
    intro i hi hlen hint
    by_cases hpos : 0 < i
    · obtain ⟨rest, r1, r2, r3, _⟩ := ih (i - 9) (by omega) (by omega) (by omega)
      have hchunklen := chunk_length s hlen
      have hchunk : allDigits ((s.drop (i - 9)).take (i - (i - 9))) = true := by
        rw [allDigits_iff]
        refine ⟨?_, fun c hc => hall c (mem_of_mem_chunk hc)⟩
        intro h0
        have := congrArg List.length h0
        rw [hchunklen] at this
        simp only [List.length_nil] at this
        omega
      have hst := stoll_digits hchunk (by rw [hchunklen]; omega)
      obtain ⟨b1, b2⟩ := decValue_bounds (fun c hc => hall c (mem_of_mem_chunk hc))
        (s := (s.drop (i - 9)).take (i - (i - 9)))
      have hpow : (10 : Int) ^ ((s.drop (i - 9)).take (i - (i - 9))).length ≤ 10 ^ 9 :=
        pow_le_pow_right₀ (by decide) (by rw [hchunklen]; omega)
      refine ⟨decValue ((s.drop (i - 9)).take (i - (i - 9))) :: rest, ?_, ?_, ?_, by simp⟩
      · rw [chunkLoop_succ fuel s hpos hint, hst, r1]
        rfl
      · rw [limbsOk_cons]
        refine ⟨⟨b1, ?_⟩, r2⟩
        have h9 : (10 : Int) ^ 9 = 1000000000 := by norm_num
        rw [h9] at hpow
        rw [BASE_eq]; omega
      · have hsplit : s.take i = s.take (i - 9) ++ (s.drop (i - 9)).take (i - (i - 9)) := by
          rw [← List.take_add]; congr 1; omega
        rw [hsplit, decValue_append, magVal_cons, r3, hchunklen]
        by_cases h9 : 9 ≤ i
        · have : i - (i - 9) = 9 := by omega
          rw [this, BASE_eq]; norm_num; ring
        · have : i - 9 = 0 := by omega
          rw [this]; simp [decValue_nil]
    · have : i = 0 := by omega
      subst this
      exact ⟨[], chunkLoop_nonpos _ s (le_refl _), limbsOk_nil,
        by simp [magVal, decValue_nil], by simp⟩

theorem ofString_minus (t : List Char) :
    ofString ('-' :: t) =
      if t = [] ∨ t = ['0'] then .ok ⟨[0], false⟩
      else (chunkLoop t.length t (wrap32 t.length)).bind
        (fun ds => .ok (removeLeadingZeros ⟨ds, true⟩)) := by
  unfold ofString
  simp only []
  rfl

theorem ofString_plain {c : Char} (hc : c ≠ '-') (t : List Char) :
    ofString (c :: t) =
      if c :: t = [] ∨ c :: t = ['0'] then .ok ⟨[0], false⟩
      else (chunkLoop (c :: t).length (c :: t) (wrap32 (c :: t).length)).bind
        (fun ds => .ok (removeLeadingZeros ⟨ds, false⟩)) := by
  unfold ofString
  split
  · rename_i h; simp only [List.cons.injEq] at h; exact absurd h.1 hc
  · rfl

theorem digitPart_minus (t : List Char) : digitPart ('-' :: t) = t := rfl

theorem digitPart_plain {c : Char} (hc : c ≠ '-') (t : List Char) :
    digitPart (c :: t) = c :: t := by
  unfold digitPart
  split
  · rename_i h; simp only [List.cons.injEq] at h; exact absurd h.1 hc
  · rfl

/-- The constructor from text in terms of the part after the optional sign. -/
theorem digitPart_length_le (str : List Char) : (digitPart str).length ≤ str.length := by
  unfold digitPart
  split
  · simp
  · exact le_refl _

theorem ofString_digitPart (str : List Char) :
    ofString str =
      if digitPart str = [] ∨ digitPart str = ['0'] then .ok ⟨[0], false⟩
      else (chunkLoop (digitPart str).length (digitPart str)
          (wrap32 (digitPart str).length)).bind
        (fun ds => .ok (removeLeadingZeros ⟨ds, decide (str.head? = some '-')⟩)) := by
  cases str with
  | nil => rfl
  | cons c t =>
    by_cases hc : c = '-'
    · subst hc
      rw [ofString_minus, digitPart_minus]
      simp
    · rw [ofString_plain hc, digitPart_plain hc]
      simp [hc]

/-- The digits of a numeral of fewer than `2^31` characters, parsed with a given sign. -/
theorem ofDigits_spec (sign : Bool) {s : List Char} (h : allDigits s = true)
    (hlen : s.length < 2147483648) :
    ∃ x, (if s = [] ∨ s = ['0'] then Except.ok (⟨[0], false⟩ : BigInteger)
        else (chunkLoop s.length s (wrap32 s.length)).bind
          (fun ds => .ok (removeLeadingZeros ⟨ds, sign⟩))) = .ok x ∧
      canonical x ∧ value x = if sign then -decValue s else decValue s := by
  obtain ⟨hne, hall⟩ := (allDigits_iff _).mp h
  by_cases hz : s = [] ∨ s = ['0']
  · rw [if_pos hz]
    refine ⟨_, rfl, by decide, ?_⟩
    rcases hz with hz | hz
    · exact absurd hz hne
    · subst hz
      have : decValue ['0'] = 0 := by decide
      rw [this]; simp [value, magVal]
  · rw [if_neg hz, wrap32_length_eq hlen]
    obtain ⟨ds, d1, d2, d3, d4⟩ := chunkLoop_spec s hall s.length s.length (le_refl _)
      (le_refl _) hlen
    rw [List.take_length] at d3
    have hds : ds ≠ [] := d4 (List.length_pos.mpr hne)
    refine ⟨removeLeadingZeros ⟨ds, sign⟩, by rw [d1]; rfl,
      removeLeadingZeros_canonical hds d2, ?_⟩
    rw [removeLeadingZeros_value]
    unfold value
    simp only [d3]

/-- The digits of a numeral of any length: the loop returns, whatever the index wraps
around to. -/
theorem ofDigits_ok (sign : Bool) {s : List Char} (h : allDigits s = true) :
    ∃ x, (if s = [] ∨ s = ['0'] then Except.ok (⟨[0], false⟩ : BigInteger)
        else (chunkLoop s.length s (wrap32 s.length)).bind
          (fun ds => .ok (removeLeadingZeros ⟨ds, sign⟩))) = .ok x := by
  obtain ⟨_, hall⟩ := (allDigits_iff _).mp h
  by_cases hz : s = [] ∨ s = ['0']
  · rw [if_pos hz]; exact ⟨_, rfl⟩
  · rw [if_neg hz]
    by_cases hw : wrap32 (s.length : Int) ≤ 0
    · rw [chunkLoop_nonpos _ s hw]; exact ⟨_, rfl⟩
    · have h1 := wrap32_length_le s.length
      have h2 := wrap32_length_lt s.length
      obtain ⟨ds, d1, _⟩ := chunkLoop_spec s hall s.length (wrap32 (s.length : Int)).toNat
        (by omega) (by omega) (by omega)
      have hcast : ((wrap32 (s.length : Int)).toNat : Int) = wrap32 (s.length : Int) := by
        omega
      rw [hcast] at d1
      rw [d1]; exact ⟨_, rfl⟩

/-- The constructor from text on a text whose length wraps around to an `int` that is not
positive: the loop is skipped and `digits` stays empty. -/
theorem ofString_skipped {str : List Char} (hne : digitPart str ≠ [])
    (h0 : digitPart str ≠ ['0']) (hw : wrap32 ((digitPart str).length : Int) ≤ 0) :
    ofString str = .ok ⟨[], decide (str.head? = some '-')⟩ := by
  rw [ofString_digitPart, if_neg (by simp [hne, h0]), chunkLoop_nonpos _ _ hw]
  rfl

theorem ofString_spec {s : List Char} (h : matchesInt s = true)
    (hlen : s.length < 2147483648) :
    ∃ x, ofString s = .ok x ∧ canonical x ∧ value x = intOfText s := by
  cases s with
  | nil => simp [matchesInt, allDigits] at h
  | cons c t =>
    by_cases hc : c = '-'
    · subst hc
      rw [matchesInt_minus] at h
      rw [ofString_minus, intOfText_minus]
      rw [List.length_cons] at hlen
      simpa using ofDigits_spec true h (by omega)
    · rw [matchesInt_plain hc] at h
      rw [ofString_plain hc, intOfText_plain hc]
      simpa using ofDigits_spec false h hlen

theorem ofString_ok {s : List Char} (h : matchesInt s = true) : ∃ x, ofString s = .ok x := by
  cases s with
  | nil => simp [matchesInt, allDigits] at h
  | cons c t =>
    by_cases hc : c = '-'
    · subst hc
      rw [matchesInt_minus] at h
      rw [ofString_minus]
      exact ofDigits_ok true h
    · rw [matchesInt_plain hc] at h
      rw [ofString_plain hc]
      exact ofDigits_ok false h

/-! ## Failure of the construction from text -/

theorem stoll_of_not_startsWithNumber {chunk : List Char}
    (h : startsWithNumber chunk = false) : stoll chunk = .error .invalidArgument := by
  unfold startsWithNumber at h
  unfold stoll
  rcases hr : (readSign (List.dropWhile isspace chunk)).2 with _ | ⟨c, t⟩
  · simp [hr]
  · rw [hr] at h
    simp only at h
    simp [hr, List.takeWhile_cons, h]

theorem stoll_of_startsWithNumber {chunk : List Char} (hlen : chunk.length ≤ 9)
    (h : startsWithNumber chunk = true) : ∃ v, stoll chunk = .ok v := by
  rcases hst : stoll chunk with e | v
  · exfalso
    have he := stoll_error hlen hst
    subst he
    unfold startsWithNumber at h
    unfold stoll at hst
    rcases hr : (readSign (List.dropWhile isspace chunk)).2 with _ | ⟨c, t⟩
    · rw [hr] at h; simp at h
    · rw [hr] at h
      simp only at h
      simp only [hr, List.takeWhile_cons, h, ↓reduceIte] at hst
      rw [if_neg (by simp)] at hst
      split_ifs at hst <;> cases hst
  · exact ⟨v, rfl⟩

theorem chunkLoop_error (s : List Char) {e : Error} (fuel : Nat) : ∀ n : Nat, n ≤ fuel →
    n < 2147483648 → chunkLoop fuel s (n : Int) = .error e → e = .invalidArgument := by
  induction fuel with
  | zero =>
    intro n hn _ h
    have : n = 0 := by omega
    subst this
    rw [Nat.cast_zero, chunkLoop_nonpos 0 s (le_refl _)] at h
    cases h
  | succ fuel ih =>
    intro n hn hint h
    by_cases hpos : 0 < n
    · rw [chunkLoop_succ fuel s hpos hint] at h
      have hlen : ((s.drop (n - 9)).take (n - (n - 9))).length ≤ 9 := by
        rw [List.length_take]; omega
      rcases hst : stoll ((s.drop (n - 9)).take (n - (n - 9))) with e1 | v
      · rw [hst] at h
        simp only [Except.bind] at h
        cases h
        exact stoll_error hlen hst
      · rw [hst] at h
        simp only [Except.bind] at h
        rcases hrest : chunkLoop fuel s ((n - 9 : Nat) : Int) with e2 | w
        · rw [hrest] at h
          simp only at h
          cases h
          exact ih (n - 9) (by omega) (by omega) hrest
        · rw [hrest] at h
          cases h
    · have : n = 0 := by omega
      subst this
      rw [Nat.cast_zero, chunkLoop_nonpos _ s (le_refl _)] at h
      cases h

/-- The loop fails exactly when one of the chunks it cuts does not begin with a number. -/
theorem chunkLoop_fails_iff (s : List Char) (fuel : Nat) : ∀ n : Nat, n ≤ fuel →
    n ≤ s.length → n < 2147483648 →
    (chunkLoop fuel s (n : Int) = .error .invalidArgument ↔
      (chunksFromRight fuel (s.take n)).any (fun chunk => !startsWithNumber chunk) = true) := by
  induction fuel with
  | zero =>
    intro n hn _ _
    have : n = 0 := by omega
    subst this
    rw [Nat.cast_zero, chunkLoop_nonpos 0 s (le_refl _)]
    simp [chunksFromRight]
  | succ fuel ih =>
    intro n hn hlen hint
    by_cases hpos : 0 < n
    · have hne : s.take n ≠ [] := by
        intro h0
        have := congrArg List.length h0
        rw [List.length_take] at this
        simp only [List.length_nil] at this
        omega
      have htl : (s.take n).length = n := by rw [List.length_take]; omega
      have hchunk : (s.take n).drop (n - 9) = (s.drop (n - 9)).take (n - (n - 9)) :=
        List.drop_take n (n - 9) s
      have hrest : (s.take n).take (n - 9) = s.take (n - 9) := by
        rw [List.take_take]; congr 1; omega
      rw [chunksFromRight, if_neg hne, htl, hchunk, hrest, List.any_cons,
        chunkLoop_succ fuel s hpos hint]
      have hclen : ((s.drop (n - 9)).take (n - (n - 9))).length ≤ 9 := by
        rw [List.length_take]; omega
      have ih' := ih (n - 9) (by omega) (by omega) (by omega)
      by_cases hsw : startsWithNumber ((s.drop (n - 9)).take (n - (n - 9))) = true
      · obtain ⟨v, hv⟩ := stoll_of_startsWithNumber hclen hsw
        rw [hv, hsw]
        simp only [Except.bind, Bool.not_true, Bool.false_or]
        rw [← ih']
        rcases hr : chunkLoop fuel s ((n - 9 : Nat) : Int) with e2 | w
        · simp
        · simp
      · rw [Bool.not_eq_true] at hsw
        rw [stoll_of_not_startsWithNumber hsw, hsw]
        simp [Except.bind]
    · have : n = 0 := by omega
      subst this
      rw [Nat.cast_zero, chunkLoop_nonpos _ s (le_refl _)]
      simp [chunksFromRight]

/-- The constructor from text rejects exactly the texts (of fewer than `2^31` characters)
with a chunk that does not begin with a number. -/
theorem ofString_rejects_iff (str : List Char)
    (hlen : (digitPart str).length < 2147483648) :
    ofString str = .error .invalidArgument ↔ rejectedText str = true := by
  rw [ofString_digitPart]
  unfold rejectedText
  by_cases hz : digitPart str = [] ∨ digitPart str = ['0']
  · rw [if_pos hz]
    rcases hz with hz | hz <;> simp [hz]
  · rw [if_neg hz, wrap32_length_eq hlen]
    have hiff := chunkLoop_fails_iff (digitPart str) (digitPart str).length
      (digitPart str).length (le_refl _) (le_refl _) hlen
    rw [List.take_length] at hiff
    rw [not_or] at hz
    have h1 : (digitPart str != []) = true := by simpa using hz.1
    have h2 : (digitPart str != ['0']) = true := by simpa using hz.2
    rw [h1, h2, Bool.true_and, Bool.true_and, ← hiff]
    rcases hr : chunkLoop (digitPart str).length (digitPart str)
        ((digitPart str).length : Int) with e | ds
    · simp [Except.bind]
    · simp [Except.bind]

/-- The construction from text fails only with `std::invalid_argument`, and only on a
string that does not match `-?[0-9]+`. -/
theorem ofString_error {s : List Char} {e : Error} (h : ofString s = .error e) :
    e = .invalidArgument ∧ matchesInt s = false := by
  constructor
  · rw [ofString_digitPart] at h
    split at h
    · cases h
    · by_cases hw : wrap32 ((digitPart s).length : Int) ≤ 0
      · rw [chunkLoop_nonpos _ _ hw] at h
        cases h
      · have h1 := wrap32_length_le (digitPart s).length
        have h2 := wrap32_length_lt (digitPart s).length
        have hcast : ((wrap32 ((digitPart s).length : Int)).toNat : Int)
            = wrap32 ((digitPart s).length : Int) := by omega
        rcases hc : chunkLoop (digitPart s).length (digitPart s)
            (wrap32 ((digitPart s).length : Int)) with e1 | ds
        · rw [hc] at h
          simp only [Except.bind] at h
          cases h
          rw [← hcast] at hc
          exact chunkLoop_error (digitPart s) (digitPart s).length _ (by omega) (by omega) hc
        · rw [hc] at h
          cases h
  · by_contra hm
    rw [Bool.not_eq_false] at hm
    obtain ⟨x, hx⟩ := ofString_ok hm
    rw [hx] at h
    cases h

theorem readSign_mem {s : List Char} {c : Char} (h : c ∈ (readSign s).2) : c ∈ s := by
  unfold readSign at h
  split at h
  · exact List.mem_cons_of_mem _ h
  · exact List.mem_cons_of_mem _ h
  · exact h

theorem startsWithNumber_of_no_digit {chunk : List Char}
    (h : ∀ c ∈ chunk, c.isDigit = false) : startsWithNumber chunk = false := by
  unfold startsWithNumber
  rcases hr : (readSign (List.dropWhile isspace chunk)).2 with _ | ⟨c, t⟩
  · rfl
  · have hc : c ∈ (readSign (List.dropWhile isspace chunk)).2 := by rw [hr]; simp
    exact h c ((List.dropWhile_sublist _).subset (readSign_mem hc))

/-- A text (of fewer than `2^31` characters) that after the optional leading `-` is not
empty and has no decimal digit at all is rejected. -/
theorem ofString_rejects_no_digit (str : List Char) (hne : digitPart str ≠ [])
    (hno : ∀ c ∈ digitPart str, c.isDigit = false)
    (hlen : (digitPart str).length < 2147483648) :
    ofString str = .error .invalidArgument := by
  rw [ofString_rejects_iff str hlen]
  unfold rejectedText
  have h0 : digitPart str ≠ ['0'] := by
    intro h
    have := hno '0' (by rw [h]; simp)
    revert this; decide
  have h1 : (digitPart str != []) = true := by simpa using hne
  have h2 : (digitPart str != ['0']) = true := by simpa using h0
  rw [h1, h2, Bool.true_and, Bool.true_and]
  obtain ⟨k, hk⟩ : ∃ k, (digitPart str).length = k + 1 :=
    ⟨(digitPart str).length - 1, by have := List.length_pos.mpr hne; omega⟩
  rw [hk, chunksFromRight, if_neg hne, List.any_cons]
  rw [startsWithNumber_of_no_digit (fun c hc => hno c (List.mem_of_mem_drop hc))]
  rfl

/-! ## Round trips between text and value -/

theorem toString_ofString {x : BigInteger} (hx : canonical x) :
    ∃ str, toString x = .ok str ∧ (str.length < 2147483648 → ofString str = .ok x) := by
  by_cases h0 : x.digits = [0]
  · have hx0 : x = ⟨[0], false⟩ := by
      have hn := hx.2.2.2 h0
      cases x
      simp only at h0 hn
      rw [h0, hn]
    refine ⟨['0'], toString_zero h0, fun _ => ?_⟩
    rw [hx0]; decide
  · obtain ⟨str, t1, t2, t3, t4⟩ := toString_spec (canonical_digits hx) h0
    refine ⟨_, t1, fun hlen => ?_⟩
    obtain ⟨hne, hall⟩ := (allDigits_iff _).mp t2
    rcases hs : str with _ | ⟨c, t⟩
    · exact absurd hs hne
    · have hcd : c.isDigit = true := hall c (by rw [hs]; simp)
      have hcm : c ≠ '-' := (isDigit_not_special hcd).2.1
      rw [hs] at t2 t4 hlen
      have hmatch : matchesInt ((if x.negative then ['-'] else []) ++ c :: t) = true := by
        rcases x.negative with _ | _
        · simpa [matchesInt_plain hcm] using t2
        · simpa [matchesInt_minus] using t2
      obtain ⟨y, y1, y2, y3⟩ := ofString_spec hmatch hlen
      rw [y1]
      congr 1
      apply canonical_unique y2 hx
      rw [y3]
      unfold value
      rcases x.negative with _ | _
      · simp only [Bool.false_eq_true, ↓reduceIte, List.nil_append]
        rw [intOfText_plain hcm, t4]
      · simp only [↓reduceIte, List.singleton_append]
        rw [intOfText_minus, t4]

theorem ofString_toString {s : List Char} (h : noLeadingZeros s = true)
    (hlen : s.length < 2147483648) :
    ∃ x, ofString s = .ok x ∧ toString x = .ok s := by
  unfold noLeadingZeros at h
  rw [Bool.or_eq_true] at h
  rcases h with h | h
  · have : s = ['0'] := by simpa using h
    subst this
    exact ⟨⟨[0], false⟩, by decide, by decide⟩
  · split at h
    · rename_i d t
      rw [Bool.and_eq_true] at h
      have hd : d ≠ '0' := by simpa using h.1
      obtain ⟨x, x1, x2, x3⟩ := ofString_spec (s := '-' :: d :: t)
        (by rw [matchesInt_minus]; exact h.2) hlen
      rw [intOfText_minus] at x3
      refine ⟨x, x1, ?_⟩
      have := ofString_toString_digits true hd h.2 x2 (by simpa using x3)
      simpa using this
    · rename_i d t hnot
      rw [Bool.and_eq_true] at h
      have hd : d ≠ '0' := by simpa using h.1
      have hdd : d.isDigit = true := (allDigits_cons.mp h.2).1
      have hcm : d ≠ '-' := (isDigit_not_special hdd).2.1
      obtain ⟨x, x1, x2, x3⟩ := ofString_spec (s := d :: t)
        (by rw [matchesInt_plain hcm]; exact h.2) hlen
      rw [intOfText_plain hcm] at x3
      refine ⟨x, x1, ?_⟩
      have := ofString_toString_digits false hd h.2 x2 (by simpa using x3)
      simpa using this
    · cases h

/-! ## Texts of `2^31` characters

The index `int i = s.length()` of the loop of the constructor from text is `-2^31` for a
digit string of `2^31` characters: the loop does not run and `digits` stays empty. -/

theorem wrap32_two_pow_31 : wrap32 ((2147483648 : Nat) : Int) = -2147483648 := by
  unfold wrap32; norm_num

/-- The constructor from text on a text whose digit part has `2^31` characters: no limb
is read. -/
theorem ofString_long (str : List Char) (h : (digitPart str).length = 2147483648) :
    ofString str = .ok ⟨[], decide (str.head? = some '-')⟩ := by
  apply ofString_skipped
  · intro h0
    rw [h0] at h
    cases h
  · intro h0
    rw [h0] at h
    cases h
  · rw [h, wrap32_two_pow_31]
    omega

theorem allDigits_cons_replicate {c d : Char} (hc : c.isDigit = true)
    (hd : d.isDigit = true) (n : Nat) : allDigits (c :: List.replicate n d) = true := by
  rw [allDigits_cons]
  refine ⟨hc, fun e he => ?_⟩
  rw [List.eq_of_mem_replicate he]
  exact hd

/-- The text of `m` ones matches `-?[0-9]+` and denotes a positive number, and the
constructor reads nothing of it when `m = 2^31`. -/
theorem ofString_ones (m : Nat) (hlen : m = 2147483648) :
    matchesInt (List.replicate m '1') = true ∧
    ofString (List.replicate m '1') = .ok ⟨[], false⟩ ∧
    0 < intOfText (List.replicate m '1') := by
  obtain ⟨n, rfl⟩ : ∃ n, m = n + 1 := ⟨m - 1, by omega⟩
  have hn : n + 1 = 2147483648 := hlen
  have hm : '1' ≠ '-' := by decide
  have hall : allDigits ('1' :: List.replicate n '1') = true :=
    allDigits_cons_replicate (by decide) (by decide) n
  rw [List.replicate_succ]
  refine ⟨?_, ?_, ?_⟩
  · rw [matchesInt_plain hm]
    exact hall
  · have := ofString_long ('1' :: List.replicate n '1')
      (by rw [digitPart_plain hm, List.length_cons, List.length_replicate]; exact hn)
    rw [this]
    rfl
  · rw [intOfText_plain hm]
    have h1 := decValue_pos_of_head hall (by decide)
    have h2 : (0 : Int) < 10 ^ (List.replicate n '1').length := pow_pos (by decide) _
    omega

/-- The text `1` followed by `n` zeros has no superfluous leading zero, and the constructor
reads nothing of it when `n + 1 = 2^31`. -/
theorem ofString_one_zeros (n : Nat) (hn : n + 1 = 2147483648) :
    noLeadingZeros ('1' :: List.replicate n '0') = true ∧
    ofString ('1' :: List.replicate n '0') = .ok ⟨[], false⟩ := by
  have hm : '1' ≠ '-' := by decide
  have hall : allDigits ('1' :: List.replicate n '0') = true :=
    allDigits_cons_replicate (by decide) (by decide) n
  refine ⟨?_, ?_⟩
  · unfold noLeadingZeros
    rw [Bool.or_eq_true]
    right
    split
    · rename_i h; simp only [List.cons.injEq] at h; exact absurd h.1 hm
    · rename_i d t _ h
      simp only [List.cons.injEq] at h
      obtain ⟨rfl, rfl⟩ := h
      rw [hall]; rfl
    · rename_i h; cases h
  · have := ofString_long ('1' :: List.replicate n '0')
      (by rw [digitPart_plain hm, List.length_cons, List.length_replicate]; exact hn)
    rw [this]
    rfl

theorem zeroPadAll_zeros_length (n : Nat) :
    (zeroPadAll (List.replicate n 0)).length = 9 * n := by
  induction n with
  | zero => rfl
  | succ n ih =>
    rw [List.replicate_succ, zeroPadAll, List.length_append, ih]
    have : (zeroPad9 0).length = 9 := by decide
    omega

theorem limbsOk_zeros_ten (n : Nat) : limbsOk (List.replicate n 0 ++ [10]) := by
  intro d hd
  rw [List.mem_append] at hd
  rcases hd with hd | hd
  · rw [List.eq_of_mem_replicate hd]; decide
  · rw [List.mem_singleton] at hd
    rw [hd]; decide

/-- The value `10 * BASE^n`, of limbs `n` zeros and a most significant `10`, is canonical;
its text is `10` followed by `9 * n` zeros, and the constructor reads nothing of that text
when `9 * n + 2 = 2^31`. -/
theorem ofString_toString_long (n : Nat) (hn : 9 * n + 2 = 2147483648) :
    canonical ⟨List.replicate n 0 ++ [10], false⟩ ∧
    toString ⟨List.replicate n 0 ++ [10], false⟩
      = .ok ('1' :: '0' :: zeroPadAll (List.replicate n 0)) ∧
    ('1' :: '0' :: zeroPadAll (List.replicate n 0)).length = 2147483648 ∧
    ofString ('1' :: '0' :: zeroPadAll (List.replicate n 0)) = .ok ⟨[], false⟩ ∧
    (⟨[], false⟩ : BigInteger) ≠ ⟨List.replicate n 0 ++ [10], false⟩ := by
  have hm : '1' ≠ '-' := by decide
  have hne : List.replicate n (0 : Int) ++ [10] ≠ [] := by simp
  have hn0 : List.replicate n (0 : Int) ++ [10] ≠ [0] := by
    intro h
    have h1 := congrArg List.getLast? h
    rw [List.getLast?_append] at h1
    cases h1
  have hlast : (List.replicate n (0 : Int) ++ [10]).getLast? = some 10 := by
    rw [List.getLast?_append]; rfl
  have hcm : canonMag (List.replicate n (0 : Int) ++ [10]) :=
    ⟨hne, limbsOk_zeros_ten n, fun _ => by rw [hlast]; decide⟩
  have hlen : ('1' :: '0' :: zeroPadAll (List.replicate n 0)).length = 2147483648 := by
    rw [List.length_cons, List.length_cons, zeroPadAll_zeros_length]; omega
  refine ⟨(canonical_iff _).mpr ⟨hcm, fun h => absurd h hn0⟩, ?_, hlen, ?_, ?_⟩
  · have hr : (⟨List.replicate n 0 ++ [10], false⟩ : BigInteger).digits.reverse
        = 10 :: List.replicate n 0 := by
      show (List.replicate n (0 : Int) ++ [10]).reverse = _
      rw [List.reverse_append, List.reverse_replicate]; rfl
    have := (toString_format (x := ⟨List.replicate n 0 ++ [10], false⟩) hcm hn0 hr).1
    rw [this]
    rfl
  · have := ofString_long ('1' :: '0' :: zeroPadAll (List.replicate n 0))
      (by rw [digitPart_plain hm]; exact hlen)
    rw [this]
    rfl
  · intro h
    have h1 := congrArg BigInteger.digits h
    exact hne h1.symm

theorem decValue_nines (m : Nat) : decValue (List.replicate m '9') = 10 ^ m - 1 := by
  induction m with
  | zero => rfl
  | succ m ih =>
    rw [List.replicate_succ, decValue_cons, ih, List.length_replicate]
    have : digitVal '9' = 9 := by decide
    rw [this, pow_succ]
    ring

/-- The value `10 * BASE^n` is reached by the operations: it is the value of the text of
`9 * n + 1` nines, plus one. -/
theorem nines_succ (n m : Nat) (hn : 9 * n + 2 = 2147483648) (hnines : m = 9 * n + 1) :
    ∃ y, ofString (List.replicate m '9') = .ok y ∧
      add 4 y ⟨[1], false⟩ = .ok ⟨List.replicate n 0 ++ [10], false⟩ := by
  subst hnines
  have hm : '9' ≠ '-' := by decide
  have hmatch : matchesInt (List.replicate (9 * n + 1) '9') = true := by
    rw [List.replicate_succ, matchesInt_plain hm]
    exact allDigits_cons_replicate (by decide) (by decide) _
  obtain ⟨y, y1, y2, y3⟩ := ofString_spec hmatch
    (by rw [List.length_replicate]; omega)
  refine ⟨y, y1, ?_⟩
  obtain ⟨r, r1, r2, r3⟩ := add_ok y2 (show canonical ⟨[1], false⟩ by decide) (le_refl 4)
  rw [r1]
  refine congrArg Except.ok (canonical_unique r2 (ofString_toString_long n hn).1 ?_)
  rw [r3, y3]
  have h9 : intOfText (List.replicate (9 * n + 1) '9') = 10 ^ (9 * n + 1) - 1 := by
    rw [← decValue_nines, List.replicate_succ, intOfText_plain hm]
  have h1 : value ⟨[1], false⟩ = 1 := by decide
  have hx : value ⟨List.replicate n 0 ++ [10], false⟩ = 10 * BASE ^ n := by
    show magVal (List.replicate n 0 ++ [10]) = _
    rw [magVal_append, magVal_replicate_zero, List.length_replicate]
    have : magVal [10] = 10 := by decide
    rw [this]; ring
  rw [h9, h1, hx]
  have hB : BASE = 10 ^ 9 := by decide
  rw [hB, ← pow_mul, pow_succ]
  ring

/-! ## The claims of the specification -/

/-- C1: for canonical `a` and `b` with `b` nonzero, `a / b` returns (with fuel for ten
rounds of the subtraction loop) without error the canonical value that denotes the
quotient of `value a` by `value b` truncated toward zero; its sign is the XOR of the
operand signs unless the quotient is zero. The statement covers the single-limb fast path
and the decimal long division alike. -/
theorem C1_div_truncates (a b : BigInteger) (ha : canonical a) (hb : canonical b)
    (hb0 : value b ≠ 0) (fuel : Nat) (hf : 10 ≤ fuel) :
    ∃ q, div fuel a b = .ok q ∧ canonical q ∧ value q = (value a).tdiv (value b) ∧
      q.negative = ((a.negative != b.negative) && !q.isZero) :=
  div_spec ha hb (digits_ne_zero_of_value hb0) hf

/-- C1 at `10^18 / 10^9` (long division) and at `-7 / 2` (fast path). -/
theorem C1_div_truncates_witness :
    (∃ q, div 10 ⟨[0, 0, 1], false⟩ ⟨[0, 1], false⟩ = .ok q ∧ canonical q ∧
      value q = (value ⟨[0, 0, 1], false⟩).tdiv (value ⟨[0, 1], false⟩) ∧
      q.negative = (((⟨[0, 0, 1], false⟩ : BigInteger).negative !=
        (⟨[0, 1], false⟩ : BigInteger).negative) && !q.isZero)) ∧
    (∃ q, div 10 ⟨[7], true⟩ ⟨[2], false⟩ = .ok q ∧ canonical q ∧
      value q = (value ⟨[7], true⟩).tdiv (value ⟨[2], false⟩) ∧
      q.negative = (((⟨[7], true⟩ : BigInteger).negative !=
        (⟨[2], false⟩ : BigInteger).negative) && !q.isZero)) ∧
    ofString "1000000000000000000".toList = .ok ⟨[0, 0, 1], false⟩ ∧
    ofString "1000000000".toList = .ok ⟨[0, 1], false⟩ ∧
    div 10 ⟨[0, 0, 1], false⟩ ⟨[0, 1], false⟩ = .ok ⟨[0, 1], false⟩ ∧
    div 10 ⟨[7], true⟩ ⟨[2], false⟩ = .ok ⟨[3], true⟩ :=
  ⟨C1_div_truncates ⟨[0, 0, 1], false⟩ ⟨[0, 1], false⟩ (by decide) (by decide) (by decide) 10
      (by decide),
    C1_div_truncates ⟨[7], true⟩ ⟨[2], false⟩ (by decide) (by decide) (by decide) 10
      (by decide),
    by decide, by decide, by decide!, by decide⟩

/-- C2: for canonical `a` and `b` of any signs, `a + b` returns the canonical value that
denotes `value a + value b`, where `value` is the sign times the sum of
`limb_i * BASE^i`. -/
theorem C2_add_value (a b : BigInteger) (ha : canonical a) (hb : canonical b)
    (fuel : Nat) (hf : 4 ≤ fuel) :
    ∃ r, add fuel a b = .ok r ∧ canonical r ∧ value r = value a + value b :=
  add_ok ha hb hf

/-- C2 at `999999999 + 1` (a carry across a limb boundary) and at `-5 + 3`. -/
theorem C2_add_value_witness :
    (∃ r, add 4 ⟨[999999999], false⟩ ⟨[1], false⟩ = .ok r ∧ canonical r ∧
      value r = value ⟨[999999999], false⟩ + value ⟨[1], false⟩) ∧
    (∃ r, add 4 ⟨[5], true⟩ ⟨[3], false⟩ = .ok r ∧ canonical r ∧
      value r = value ⟨[5], true⟩ + value ⟨[3], false⟩) ∧
    add 4 ⟨[999999999], false⟩ ⟨[1], false⟩ = ofString "1000000000".toList ∧
    add 4 ⟨[5], true⟩ ⟨[3], false⟩ = ofString "-2".toList ∧
    ofString "999999999".toList = .ok ⟨[999999999], false⟩ ∧
    ofString "-5".toList = .ok ⟨[5], true⟩ :=
  ⟨C2_add_value ⟨[999999999], false⟩ ⟨[1], false⟩ (by decide) (by decide) 4 (by decide),
    C2_add_value ⟨[5], true⟩ ⟨[3], false⟩ (by decide) (by decide) 4 (by decide),
    by decide, by decide, by decide, by decide⟩

/-- C3: for canonical `a` and `b` of any signs, `a - b` returns the canonical value that
denotes `value a - value b`; and when both are non-negative and `a >= b`, the borrow loop
over the limbs ends with borrow 0. -/
theorem C3_sub_value (a b : BigInteger) (ha : canonical a) (hb : canonical b)
    (fuel : Nat) (hf : 5 ≤ fuel) :
    (∃ r, sub fuel a b = .ok r ∧ canonical r ∧ value r = value a - value b) ∧
    (a.negative = false → b.negative = false → value b ≤ value a →
      sub fuel a b = .ok (removeLeadingZeros ⟨(subLoop a.digits b.digits 0).1, false⟩) ∧
      (subLoop a.digits b.digits 0).2 = 0) := by
  refine ⟨sub_ok ha hb hf, ?_⟩
  intro hna hnb hle
  rw [value_of_nonneg hna, value_of_nonneg hnb] at hle
  obtain ⟨k, rfl⟩ := Nat.exists_eq_add_of_le (show 2 ≤ fuel by omega)
  rw [Nat.add_comm]
  obtain ⟨s1, _, _, s4⟩ := sub_nonneg_ge k ha hb hna hnb hle
  exact ⟨s1, s4⟩

/-- C3 at `1000000000 - 1` (a borrow across a limb boundary). -/
theorem C3_sub_value_witness :
    ((∃ r, sub 5 ⟨[0, 1], false⟩ ⟨[1], false⟩ = .ok r ∧ canonical r ∧
        value r = value ⟨[0, 1], false⟩ - value ⟨[1], false⟩) ∧
      ((⟨[0, 1], false⟩ : BigInteger).negative = false →
        (⟨[1], false⟩ : BigInteger).negative = false →
        value ⟨[1], false⟩ ≤ value ⟨[0, 1], false⟩ →
        sub 5 ⟨[0, 1], false⟩ ⟨[1], false⟩ = .ok (removeLeadingZeros
          ⟨(subLoop (⟨[0, 1], false⟩ : BigInteger).digits
            (⟨[1], false⟩ : BigInteger).digits 0).1, false⟩) ∧
        (subLoop (⟨[0, 1], false⟩ : BigInteger).digits
          (⟨[1], false⟩ : BigInteger).digits 0).2 = 0)) ∧
    sub 5 ⟨[0, 1], false⟩ ⟨[1], false⟩ = ofString "999999999".toList ∧
    ofString "1000000000".toList = .ok ⟨[0, 1], false⟩ ∧
    ofString "1".toList = .ok ⟨[1], false⟩ :=
  ⟨C3_sub_value ⟨[0, 1], false⟩ ⟨[1], false⟩ (by decide) (by decide) 5 (by decide),
    by decide, by decide, by decide⟩

/-- C4: for canonical `a` and `b`, `a * b` returns the canonical value that denotes
`value a * value b`; its sign is the XOR of the operand signs unless the product is
zero. -/
theorem C4_mul_value (a b : BigInteger) (ha : canonical a) (hb : canonical b) :
    ∃ r, mul a b = .ok r ∧ canonical r ∧ value r = value a * value b ∧
      r.negative = ((a.negative != b.negative) && !r.isZero) :=
  mul_full ha hb

/-- C4 at `123456789 * 987654321`. -/
theorem C4_mul_value_witness :
    (∃ r, mul ⟨[123456789], false⟩ ⟨[987654321], false⟩ = .ok r ∧ canonical r ∧
      value r = value ⟨[123456789], false⟩ * value ⟨[987654321], false⟩ ∧
      r.negative = (((⟨[123456789], false⟩ : BigInteger).negative !=
        (⟨[987654321], false⟩ : BigInteger).negative) && !r.isZero)) ∧
    mul ⟨[123456789], false⟩ ⟨[987654321], false⟩ = ofString "121932631112635269".toList ∧
    ofString "123456789".toList = .ok ⟨[123456789], false⟩ ∧
    ofString "987654321".toList = .ok ⟨[987654321], false⟩ :=
  ⟨C4_mul_value ⟨[123456789], false⟩ ⟨[987654321], false⟩ (by decide) (by decide),
    by decide, by decide, by decide⟩

/-- C5, as stated, fails: the four malformed strings that the specification lists do not
match `-?[0-9]+`, and the construction returns a value for each of them. -/
theorem C5_malformed_text_returns :
    matchesInt "".toList = false ∧ ofString "".toList = .ok ⟨[0], false⟩ ∧
    matchesInt "-".toList = false ∧ ofString "-".toList = .ok ⟨[0], false⟩ ∧
    matchesInt "12a3".toList = false ∧ ofString "12a3".toList = .ok ⟨[12], false⟩ ∧
    matchesInt "--5".toList = false ∧ ofString "--5".toList = .ok ⟨[-5], true⟩ := by
  decide

/-- C5, amended: the construction from a text of fewer than `2^31` characters fails, with
the `std::invalid_argument` of `stoll` and without a value, exactly when the text after
its optional leading `-` is neither empty nor `0` and one of the chunks of nine characters
cut from its right end does not begin with a number; it does so for every such text that
after the optional `-` is not empty and holds no decimal digit. The construction fails in
no other way, and never on a text that matches `-?[0-9]+`. The empty text and a bare `-`
are not rejected: they give the canonical zero. -/
theorem C5_text_failure :
    (∀ s : List Char, s.length < 2147483648 →
      (ofString s = .error .invalidArgument ↔ rejectedText s = true)) ∧
    (∀ s : List Char, s.length < 2147483648 → digitPart s ≠ [] →
      (∀ c ∈ digitPart s, c.isDigit = false) → ofString s = .error .invalidArgument) ∧
    (∀ (s : List Char) (e : Error), ofString s = .error e →
      e = .invalidArgument ∧ matchesInt s = false) ∧
    ofString "".toList = .ok ⟨[0], false⟩ ∧ ofString "-".toList = .ok ⟨[0], false⟩ :=
  ⟨fun s hlen => ofString_rejects_iff s (lt_of_le_of_lt (digitPart_length_le s) hlen),
    fun s hlen hne hno =>
      ofString_rejects_no_digit s hne hno (lt_of_le_of_lt (digitPart_length_le s) hlen),
    fun _ _ h => ofString_error h, by decide, by decide⟩

/-- C5, amended, at `abc` and `-x`, which hold no digit, at `1a23456789`, whose lowest
chunk `a23456789` does not begin with a number, and at `12a3`, whose only chunk does. -/
theorem C5_text_failure_witness :
    ofString "abc".toList = .error .invalidArgument ∧
    ofString "-x".toList = .error .invalidArgument ∧
    ofString "1a23456789".toList = .error .invalidArgument ∧
    (ofString "12a3".toList = .error .invalidArgument ↔ rejectedText "12a3".toList = true) ∧
    rejectedText "12a3".toList = false ∧
    (Error.invalidArgument = Error.invalidArgument ∧ matchesInt "abc".toList = false) :=
  ⟨C5_text_failure.2.1 "abc".toList (by decide) (by decide) (by decide),
    C5_text_failure.2.1 "-x".toList (by decide) (by decide) (by decide),
    (C5_text_failure.1 "1a23456789".toList (by decide)).mpr (by decide),
    C5_text_failure.1 "12a3".toList (by decide),
    by decide,
    C5_text_failure.2.2.1 "abc".toList .invalidArgument (by decide)⟩

/-- C6: a division by a divisor whose magnitude is zero fails with the division-by-zero
error, whatever the dividend and the fuel; and for canonical operands (with fuel for ten
rounds of the subtraction loop) a division fails only in that way, and only when the
magnitude of the divisor is zero. -/
theorem C6_div_by_zero (a b : BigInteger) (fuel : Nat) (hb : canonMag b.digits) :
    (magVal b.digits = 0 → div fuel a b = .error .divisionByZero) ∧
    (canonical a → canonical b → 10 ≤ fuel →
      ∀ e, div fuel a b = .error e → e = .divisionByZero ∧ magVal b.digits = 0) := by
  have hzero : magVal b.digits = 0 → div fuel a b = .error .divisionByZero := by
    intro h0
    have hd := (magVal_eq_zero_iff hb).mp h0
    unfold div
    rw [(isZero_iff b).mpr hd]
    rfl
  refine ⟨hzero, ?_⟩
  intro ha hcb hf e he
  by_cases h0 : magVal b.digits = 0
  · rw [hzero h0] at he
    cases he
    exact ⟨rfl, h0⟩
  · have hd : b.digits ≠ [0] := fun h => h0 ((magVal_eq_zero_iff hb).mpr h)
    obtain ⟨q, hq, _⟩ := div_spec ha hcb hd hf
    rw [hq] at he
    cases he

/-- C6 at the dividends `-5` and `0` over the divisor `0`. -/
theorem C6_div_by_zero_witness :
    div 0 ⟨[5], true⟩ ⟨[0], false⟩ = .error .divisionByZero ∧
    div 10 ⟨[0], false⟩ ⟨[0], false⟩ = .error .divisionByZero ∧
    (Error.divisionByZero = Error.divisionByZero ∧
      magVal (⟨[0], false⟩ : BigInteger).digits = 0) :=
  ⟨(C6_div_by_zero ⟨[5], true⟩ ⟨[0], false⟩ 0 (by decide)).1 (by decide),
    (C6_div_by_zero ⟨[0], false⟩ ⟨[0], false⟩ 10 (by decide)).1 (by decide),
    (C6_div_by_zero ⟨[5], true⟩ ⟨[0], false⟩ 10 (by decide)).2 (by decide) (by decide)
      (by decide) .divisionByZero (by decide)⟩

/-- C7 holds for the texts of fewer than `2^31` characters: for such a string `s` that
matches `-?[0-9]+` without superfluous leading zeros (exactly `0`, or an optional `-` and
digits of which the first is not `0`), parsing `s` and serialising the result gives back
`s`. It fails at the text `1` followed by `2^31 - 1` zeros: the index
`int i = s.length()` of the loop of the constructor is `-2^31`, no limb is read, and
`toString` of the empty magnitude calls `digits.back()` on an empty vector. -/
theorem C7_parse_toString :
    (∀ s : List Char, noLeadingZeros s = true → s.length < 2147483648 →
      ∃ x, ofString s = .ok x ∧ toString x = .ok s) ∧
    noLeadingZeros ('1' :: List.replicate 2147483647 '0') = true ∧
    ofString ('1' :: List.replicate 2147483647 '0') = .ok ⟨[], false⟩ ∧
    toString ⟨[], false⟩ = .error .undefinedBehaviour ∧
    ¬∃ x, ofString ('1' :: List.replicate 2147483647 '0') = .ok x ∧
      toString x = .ok ('1' :: List.replicate 2147483647 '0') := by
  have hlong := ofString_one_zeros 2147483647 (by norm_num)
  have hts : toString ⟨[], false⟩ = .error .undefinedBehaviour := by decide
  refine ⟨fun s h hlen => ofString_toString h hlen, hlong.1, hlong.2, hts, ?_⟩
  rintro ⟨x, x1, x2⟩
  rw [hlong.2] at x1
  have hx := Except.ok.inj x1
  rw [← hx, hts] at x2
  cases x2

/-- C7 at `-123456789012` and at `0`. -/
theorem C7_parse_toString_witness :
    (∃ x, ofString "-123456789012".toList = .ok x ∧ toString x = .ok "-123456789012".toList) ∧
    (∃ x, ofString "0".toList = .ok x ∧ toString x = .ok "0".toList) ∧
    ofString "-123456789012".toList = .ok ⟨[456789012, 123], true⟩ ∧
    toString ⟨[456789012, 123], true⟩ = .ok "-123456789012".toList :=
  ⟨C7_parse_toString.1 "-123456789012".toList (by decide) (by decide),
    C7_parse_toString.1 "0".toList (by decide) (by decide), by decide, by decide⟩

/-- C8 holds for the canonical values whose text has fewer than `2^31` characters: for a
canonical `x`, `toString` returns a text, parsing a text of fewer than `2^31` characters
gives back `x`, sign and limbs, and the text of a nonzero `x` is an optional `-`, the most
significant limb as it is, and every lower limb zero-padded to exactly nine digits. It
fails at `x = 10^(2^31 - 1)`, the value of the text of `2^31 - 1` nines plus one, of limbs
238609294 zeros below a most significant `10`: its text has `2^31` characters, the index
`int i = s.length()` of the loop of the constructor is `-2^31`, and the constructor
returns the empty magnitude, not `x`. -/
theorem C8_toString_parse :
    (∀ x : BigInteger, canonical x →
      ∃ str, toString x = .ok str ∧ (str.length < 2147483648 → ofString str = .ok x) ∧
        (∀ top lower, x.isZero = false → x.digits.reverse = top :: lower →
          str = (if x.negative then ['-'] else []) ++ to_string top ++ zeroPadAll lower ∧
          ∀ d ∈ lower, (zeroPad9 d).length = 9)) ∧
    (canonical ⟨List.replicate 238609294 0 ++ [10], false⟩ ∧
      toString ⟨List.replicate 238609294 0 ++ [10], false⟩
        = .ok ('1' :: '0' :: zeroPadAll (List.replicate 238609294 0)) ∧
      ('1' :: '0' :: zeroPadAll (List.replicate 238609294 0)).length = 2147483648 ∧
      ofString ('1' :: '0' :: zeroPadAll (List.replicate 238609294 0)) = .ok ⟨[], false⟩ ∧
      (⟨[], false⟩ : BigInteger) ≠ ⟨List.replicate 238609294 0 ++ [10], false⟩) ∧
    (∃ y, ofString (List.replicate 2147483647 '9') = .ok y ∧
      add 4 y ⟨[1], false⟩ = .ok ⟨List.replicate 238609294 0 ++ [10], false⟩) := by
  refine ⟨fun x hx => ?_, ofString_toString_long 238609294 (by norm_num),
    nines_succ 238609294 2147483647 (by norm_num) (by norm_num)⟩
  obtain ⟨str, s1, s2⟩ := toString_ofString hx
  refine ⟨str, s1, s2, ?_⟩
  intro top lower hz hr
  obtain ⟨f1, f2⟩ := toString_format (canonical_digits hx) ((isZero_eq_false_iff x).mp hz) hr
  rw [s1] at f1
  exact ⟨Except.ok.inj f1, f2⟩

/-- C8 at `-12000000000000000005`, of three limbs. -/
theorem C8_toString_parse_witness :
    (∃ str, toString ⟨[5, 0, 12], true⟩ = .ok str ∧
      (str.length < 2147483648 → ofString str = .ok ⟨[5, 0, 12], true⟩) ∧
      (∀ top lower, (⟨[5, 0, 12], true⟩ : BigInteger).isZero = false →
        (⟨[5, 0, 12], true⟩ : BigInteger).digits.reverse = top :: lower →
        str = (if (⟨[5, 0, 12], true⟩ : BigInteger).negative then ['-'] else []) ++
          to_string top ++ zeroPadAll lower ∧
        ∀ d ∈ lower, (zeroPad9 d).length = 9)) ∧
    toString ⟨[5, 0, 12], true⟩ = .ok "-12000000000000000005".toList ∧
    ofString "-12000000000000000005".toList = .ok ⟨[5, 0, 12], true⟩ :=
  ⟨C8_toString_parse.1 ⟨[5, 0, 12], true⟩ (by decide), by decide, by decide⟩

/-- C9 holds for the texts of fewer than `2^31` characters: for such a string `s` that
matches `-?[0-9]+`, redundant leading zeros and `-0` included, the construction from text
succeeds and returns the canonical value that denotes the integer that `s` denotes in
base 10. On a longer matching text the construction still returns, but at the text of
`2^31` ones the index `int i = s.length()` of its loop is `-2^31`, no limb is read, and
the result has an empty magnitude: it is not canonical and denotes 0, not the positive
number written. -/
theorem C9_parse_value :
    (∀ s : List Char, matchesInt s = true → s.length < 2147483648 →
      ∃ x, ofString s = .ok x ∧ canonical x ∧ value x = intOfText s) ∧
    (∀ s : List Char, matchesInt s = true → ∃ x, ofString s = .ok x) ∧
    matchesInt (List.replicate 2147483648 '1') = true ∧
    ofString (List.replicate 2147483648 '1') = .ok ⟨[], false⟩ ∧
    ¬canonical ⟨[], false⟩ ∧ value ⟨[], false⟩ = 0 ∧
    0 < intOfText (List.replicate 2147483648 '1') :=
  ⟨fun _ h hlen => ofString_spec h hlen, fun _ h => ofString_ok h,
    (ofString_ones 2147483648 rfl).1, (ofString_ones 2147483648 rfl).2.1,
    by decide, by decide, (ofString_ones 2147483648 rfl).2.2⟩

/-- C9 at `007`, `-0000000000`, `-0` and a negative number of three limbs. -/
theorem C9_parse_value_witness :
    (∃ x, ofString "007".toList = .ok x ∧ canonical x ∧ value x = intOfText "007".toList) ∧
    (∃ x, ofString "-0000000000".toList = .ok x ∧ canonical x ∧
      value x = intOfText "-0000000000".toList) ∧
    (∃ x, ofString "-0".toList = .ok x ∧ canonical x ∧ value x = intOfText "-0".toList) ∧
    ofString "007".toList = .ok ⟨[7], false⟩ ∧
    ofString "-0000000000".toList = .ok ⟨[0], false⟩ ∧
    ofString "-0".toList = .ok ⟨[0], false⟩ ∧
    ofString "-0012000000000000000005".toList = .ok ⟨[5, 0, 12], true⟩ ∧
    intOfText "-0012000000000000000005".toList = -12000000000000000005 :=
  ⟨C9_parse_value.1 "007".toList (by decide) (by decide),
    C9_parse_value.1 "-0000000000".toList (by decide) (by decide),
    C9_parse_value.1 "-0".toList (by decide) (by decide),
    by decide, by decide, by decide, by decide, by decide⟩

/-- C10: for canonical `a` and `b`, `a < b` returns true exactly when
`value a < value b`. -/
theorem C10_lt_value (a b : BigInteger) (ha : canonical a) (hb : canonical b)
    (fuel : Nat) (hf : 2 ≤ fuel) :
    lt fuel a b = .ok (decide (value a < value b)) :=
  lt_ok ha hb hf

/-- C10 at `-1000000000 < 1`, and at two negative values. -/
theorem C10_lt_value_witness :
    lt 2 ⟨[0, 1], true⟩ ⟨[1], false⟩
      = .ok (decide (value ⟨[0, 1], true⟩ < value ⟨[1], false⟩)) ∧
    lt 2 ⟨[0, 1], true⟩ ⟨[1], false⟩ = .ok true ∧
    lt 2 ⟨[7], true⟩ ⟨[0, 1], true⟩
      = .ok (decide (value ⟨[7], true⟩ < value ⟨[0, 1], true⟩)) ∧
    lt 2 ⟨[7], true⟩ ⟨[0, 1], true⟩ = .ok false ∧
    ofString "-1000000000".toList = .ok ⟨[0, 1], true⟩ :=
  ⟨C10_lt_value ⟨[0, 1], true⟩ ⟨[1], false⟩ (by decide) (by decide) 2 (by decide),
    by decide,
    C10_lt_value ⟨[7], true⟩ ⟨[0, 1], true⟩ (by decide) (by decide) 2 (by decide),
    by decide, by decide⟩

set_option maxRecDepth 8192

/-- C11 holds for the operations, and for the construction from a text of fewer than `2^31`
characters: for canonical operands (and enough fuel for the calls to return) the results
of `+`, binary `-`, `*`, `/` by a nonzero divisor and unary `-` are canonical, and so is
the value constructed from such a text that matches `-?[0-9]+`. It fails for the
construction from the text of `2^31` ones: the index `int i = s.length()` of the loop of
the constructor is `-2^31`, no limb is read, and the magnitude of the result is empty. -/
theorem C11_canonical_invariant (a b : BigInteger) (ha : canonical a) (hb : canonical b)
    (fuel : Nat) (hf : 10 ≤ fuel) :
    (∃ r, add fuel a b = .ok r ∧ canonical r) ∧
    (∃ r, sub fuel a b = .ok r ∧ canonical r) ∧
    (∃ r, mul a b = .ok r ∧ canonical r) ∧
    (value b ≠ 0 → ∃ r, div fuel a b = .ok r ∧ canonical r) ∧
    canonical (neg a) ∧
    (∀ s : List Char, matchesInt s = true → s.length < 2147483648 →
      ∃ x, ofString s = .ok x ∧ canonical x) ∧
    (matchesInt (List.replicate 2147483648 '1') = true ∧
      ∃ x, ofString (List.replicate 2147483648 '1') = .ok x ∧ x.digits = [] ∧
        ¬canonical x) := by
  refine ⟨?_, ?_, ?_, ?_, neg_canonical ha, ?_, (ofString_ones 2147483648 rfl).1,
    ⟨[], false⟩, (ofString_ones 2147483648 rfl).2.1, rfl, by decide⟩
  · obtain ⟨r, r1, r2, _⟩ := add_ok ha hb (show 4 ≤ fuel by omega)
    exact ⟨r, r1, r2⟩
  · obtain ⟨r, r1, r2, _⟩ := sub_ok ha hb (show 5 ≤ fuel by omega)
    exact ⟨r, r1, r2⟩
  · obtain ⟨r, r1, r2, _⟩ := mul_full ha hb
    exact ⟨r, r1, r2⟩
  · intro hb0
    obtain ⟨r, r1, r2, _⟩ := div_spec ha hb (digits_ne_zero_of_value hb0) hf
    exact ⟨r, r1, r2⟩
  · intro s hs hlen
    obtain ⟨x, x1, x2, _⟩ := ofString_spec hs hlen
    exact ⟨x, x1, x2⟩

/-- C11 at `a = -999999999999999999`, `b = 1` and the text `-0012`. -/
theorem C11_canonical_invariant_witness :
    (∃ r, add 10 ⟨[999999999, 999999999], true⟩ ⟨[1], false⟩ = .ok r ∧ canonical r) ∧
    (∃ r, sub 10 ⟨[999999999, 999999999], true⟩ ⟨[1], false⟩ = .ok r ∧ canonical r) ∧
    (∃ r, mul ⟨[999999999, 999999999], true⟩ ⟨[1], false⟩ = .ok r ∧ canonical r) ∧
    (∃ r, div 10 ⟨[999999999, 999999999], true⟩ ⟨[1], false⟩ = .ok r ∧ canonical r) ∧
    canonical (neg ⟨[999999999, 999999999], true⟩) ∧
    (∃ x, ofString "-0012".toList = .ok x ∧ canonical x) ∧
    sub 10 ⟨[999999999, 999999999], true⟩ ⟨[1], false⟩ = .ok ⟨[0, 0, 1], true⟩ :=
  ⟨(C11_canonical_invariant ⟨[999999999, 999999999], true⟩ ⟨[1], false⟩ (by decide)
      (by decide) 10 (by decide)).1,
    (C11_canonical_invariant ⟨[999999999, 999999999], true⟩ ⟨[1], false⟩ (by decide)
      (by decide) 10 (by decide)).2.1,
    (C11_canonical_invariant ⟨[999999999, 999999999], true⟩ ⟨[1], false⟩ (by decide)
      (by decide) 10 (by decide)).2.2.1,
    (C11_canonical_invariant ⟨[999999999, 999999999], true⟩ ⟨[1], false⟩ (by decide)
      (by decide) 10 (by decide)).2.2.2.1 (by decide),
    (C11_canonical_invariant ⟨[999999999, 999999999], true⟩ ⟨[1], false⟩ (by decide)
      (by decide) 10 (by decide)).2.2.2.2.1,
    (C11_canonical_invariant ⟨[999999999, 999999999], true⟩ ⟨[1], false⟩ (by decide)
      (by decide) 10 (by decide)).2.2.2.2.2.1 "-0012".toList (by decide) (by decide),
    by decide⟩

/-- C12: on canonical operands the calls among `operator+`, binary `operator-`, unary
`operator-` and `operator<` end after a bounded number of re-dispatches: four nested
calls are enough for `+`, five for `-`, two for `<`, for every combination of signs and
magnitudes, and more fuel does not change the result. Unary `operator-` calls nothing
back: `neg` is a total function. -/
theorem C12_redispatch_bounded (a b : BigInteger) (ha : canonical a) (hb : canonical b) :
    (∃ r, ∀ fuel, 4 ≤ fuel → add fuel a b = .ok r) ∧
    (∃ r, ∀ fuel, 5 ≤ fuel → sub fuel a b = .ok r) ∧
    (∃ r, ∀ fuel, 2 ≤ fuel → lt fuel a b = .ok r) := by
  refine ⟨?_, ?_, ?_⟩
  · obtain ⟨r, _, _, r3⟩ := add_fuel_irrelevant ha hb
    exact ⟨r, r3⟩
  · obtain ⟨r, _, _, r3⟩ := sub_fuel_irrelevant ha hb
    exact ⟨r, r3⟩
  · exact ⟨decide (value a < value b), fun fuel hf => lt_ok ha hb hf⟩

/-- C12 at `a = -5`, `b = 0`, the deepest chain of calls: `-` needs all five levels. -/
theorem C12_redispatch_bounded_witness :
    ((∃ r, ∀ fuel, 4 ≤ fuel → add fuel ⟨[5], true⟩ ⟨[0], false⟩ = .ok r) ∧
      (∃ r, ∀ fuel, 5 ≤ fuel → sub fuel ⟨[5], true⟩ ⟨[0], false⟩ = .ok r) ∧
      (∃ r, ∀ fuel, 2 ≤ fuel → lt fuel ⟨[5], true⟩ ⟨[0], false⟩ = .ok r)) ∧
    sub 5 ⟨[5], true⟩ ⟨[0], false⟩ = .ok ⟨[5], true⟩ ∧
    sub 4 ⟨[5], true⟩ ⟨[0], false⟩ = .error .outOfFuel ∧
    add 4 ⟨[5], true⟩ ⟨[0], false⟩ = .ok ⟨[5], true⟩ ∧
    add 3 ⟨[5], true⟩ ⟨[0], false⟩ = .error .outOfFuel ∧
    lt 2 ⟨[5], true⟩ ⟨[7], true⟩ = .ok false ∧
    lt 1 ⟨[5], true⟩ ⟨[7], true⟩ = .error .outOfFuel :=
  ⟨C12_redispatch_bounded ⟨[5], true⟩ ⟨[0], false⟩ (by decide) (by decide),
    by decide, by decide, by decide, by decide, by decide, by decide⟩

/-- C13 fails at the most negative `long long`: with the negation taken modulo `2^64`,
`-num` is still negative, the loop `while (num > 0)` does not run, and the constructor
leaves `digits` empty: the result is not canonical and does not denote `-2^63`. -/
theorem C13_ofLongLong_min :
    wrap64 (-(-9223372036854775808)) = -9223372036854775808 ∧
    ofLongLong (-9223372036854775808) = ⟨[], true⟩ ∧
    ¬canonical (ofLongLong (-9223372036854775808)) ∧
    value (ofLongLong (-9223372036854775808)) = 0 ∧
    toString (ofLongLong (-9223372036854775808)) = .error .undefinedBehaviour := by
  decide

/-- C14: on canonical values `==` is numeric equality. -/
theorem C14_eq_value (a b : BigInteger) (ha : canonical a) (hb : canonical b) :
    eq a b = true ↔ value a = value b := by
  constructor
  · intro h; rw [(eq_iff a b).mp h]
  · intro h; exact eq_of_value ha hb h

/-- C14 at two equal and two different values; without canonical form the two zeros
`⟨[0], true⟩` and `⟨[0], false⟩` denote the same number and are not `==`. -/
theorem C14_eq_value_witness :
    (eq ⟨[5, 7], true⟩ ⟨[5, 7], true⟩ = true ↔ value ⟨[5, 7], true⟩ = value ⟨[5, 7], true⟩) ∧
    (eq ⟨[5, 7], true⟩ ⟨[5, 7], false⟩ = true ↔
      value ⟨[5, 7], true⟩ = value ⟨[5, 7], false⟩) ∧
    eq ⟨[5, 7], true⟩ ⟨[5, 7], true⟩ = true ∧
    eq ⟨[5, 7], true⟩ ⟨[5, 7], false⟩ = false ∧
    value ⟨[0], true⟩ = value ⟨[0], false⟩ ∧ eq ⟨[0], true⟩ ⟨[0], false⟩ = false :=
  ⟨C14_eq_value ⟨[5, 7], true⟩ ⟨[5, 7], true⟩ (by decide) (by decide),
    C14_eq_value ⟨[5, 7], true⟩ ⟨[5, 7], false⟩ (by decide) (by decide),
    by decide, by decide, by decide, by decide⟩

/-- C15: for canonical `a` and nonzero canonical `b` with `value a` a multiple of
`value b`, dividing and multiplying back gives `a`: `(a / b) * b == a`. -/
theorem C15_div_mul_exact (a b : BigInteger) (ha : canonical a) (hb : canonical b)
    (hb0 : value b ≠ 0) (hdvd : value b ∣ value a) (fuel : Nat) (hf : 10 ≤ fuel) :
    ∃ q r, div fuel a b = .ok q ∧ mul q b = .ok r ∧ eq r a = true := by
  obtain ⟨q, q1, q2, q3, _⟩ := div_spec ha hb (digits_ne_zero_of_value hb0) hf
  obtain ⟨r, r1, r2, r3⟩ := mul_spec q2 hb
  refine ⟨q, r, q1, r1, eq_of_value r2 ha ?_⟩
  rw [r3, q3, Int.tdiv_mul_cancel hdvd]

/-- C15 at `-12000000000000000036 / 12`, by long division, and at `-36 / 12`. -/
theorem C15_div_mul_exact_witness :
    (∃ q r, div 10 ⟨[36, 0, 12], true⟩ ⟨[12], false⟩ = .ok q ∧ mul q ⟨[12], false⟩ = .ok r ∧
      eq r ⟨[36, 0, 12], true⟩ = true) ∧
    (∃ q r, div 10 ⟨[36], true⟩ ⟨[12], false⟩ = .ok q ∧ mul q ⟨[12], false⟩ = .ok r ∧
      eq r ⟨[36], true⟩ = true) ∧
    div 10 ⟨[36, 0, 12], true⟩ ⟨[12], false⟩ = .ok ⟨[3, 0, 1], true⟩ ∧
    mul ⟨[3, 0, 1], true⟩ ⟨[12], false⟩ = .ok ⟨[36, 0, 12], true⟩ :=
  ⟨C15_div_mul_exact ⟨[36, 0, 12], true⟩ ⟨[12], false⟩ (by decide) (by decide) (by decide)
      ⟨-1000000000000000003, by decide⟩ 10 (by decide),
    C15_div_mul_exact ⟨[36], true⟩ ⟨[12], false⟩ (by decide) (by decide) (by decide)
      ⟨-3, by decide⟩ 10 (by decide),
    by decide!, by decide⟩

/-- C16: for a canonical `a`, `a + 0 == a`, `a * 1 == a`, `a - a == 0` and
`a + (-a) == 0`; unary `-` flips the sign of a nonzero value and leaves zero as it is. -/
theorem C16_identities (a : BigInteger) (ha : canonical a) (fuel : Nat) (hf : 5 ≤ fuel) :
    (∃ r, add fuel a (ofLongLong 0) = .ok r ∧ eq r a = true) ∧
    (∃ r, mul a (ofLongLong 1) = .ok r ∧ eq r a = true) ∧
    (∃ r, sub fuel a a = .ok r ∧ eq r (ofLongLong 0) = true) ∧
    (∃ r, add fuel a (neg a) = .ok r ∧ eq r (ofLongLong 0) = true) ∧
    (value a ≠ 0 → neg a = ⟨a.digits, !a.negative⟩) ∧ (value a = 0 → neg a = a) := by
  have hz := ofLongLong_zero_spec
  have h1 := ofLongLong_one
  refine ⟨?_, ?_, ?_, ?_, (neg_flip ha).1, (neg_flip ha).2⟩
  · obtain ⟨r, r1, r2, r3⟩ := add_ok ha hz.1 (show 4 ≤ fuel by omega)
    exact ⟨r, r1, eq_of_value r2 ha (by rw [r3, hz.2]; ring)⟩
  · obtain ⟨r, r1, r2, r3⟩ := mul_spec ha h1.1
    exact ⟨r, r1, eq_of_value r2 ha (by rw [r3, h1.2]; ring)⟩
  · obtain ⟨r, r1, r2, r3⟩ := sub_ok ha ha hf
    exact ⟨r, r1, eq_of_value r2 hz.1 (by rw [r3, hz.2]; ring)⟩
  · obtain ⟨r, r1, r2, r3⟩ := add_ok ha (neg_canonical ha) (show 4 ≤ fuel by omega)
    exact ⟨r, r1, eq_of_value r2 hz.1 (by rw [r3, hz.2, neg_value]; ring)⟩

/-- C16 at `a = -12000000000000000005` and at `a = 0`. -/
theorem C16_identities_witness :
    ((∃ r, add 5 ⟨[5, 0, 12], true⟩ (ofLongLong 0) = .ok r ∧ eq r ⟨[5, 0, 12], true⟩ = true) ∧
      (∃ r, mul ⟨[5, 0, 12], true⟩ (ofLongLong 1) = .ok r ∧ eq r ⟨[5, 0, 12], true⟩ = true) ∧
      (∃ r, sub 5 ⟨[5, 0, 12], true⟩ ⟨[5, 0, 12], true⟩ = .ok r ∧
        eq r (ofLongLong 0) = true) ∧
      (∃ r, add 5 ⟨[5, 0, 12], true⟩ (neg ⟨[5, 0, 12], true⟩) = .ok r ∧
        eq r (ofLongLong 0) = true) ∧
      (value ⟨[5, 0, 12], true⟩ ≠ 0 →
        neg ⟨[5, 0, 12], true⟩ = ⟨(⟨[5, 0, 12], true⟩ : BigInteger).digits,
          !(⟨[5, 0, 12], true⟩ : BigInteger).negative⟩) ∧
      (value ⟨[5, 0, 12], true⟩ = 0 → neg ⟨[5, 0, 12], true⟩ = ⟨[5, 0, 12], true⟩)) ∧
    neg ⟨[0], false⟩ = ⟨[0], false⟩ ∧
    neg ⟨[5, 0, 12], true⟩ = ⟨[5, 0, 12], false⟩ ∧
    add 5 ⟨[5, 0, 12], true⟩ ⟨[5, 0, 12], false⟩ = .ok ⟨[0], false⟩ :=
  ⟨C16_identities ⟨[5, 0, 12], true⟩ (by decide) 5 (by decide),
    ((C16_identities ⟨[0], false⟩ (by decide) 5 (by decide)).2.2.2.2.2) (by decide),
    by decide, by decide⟩

/-- C17: for canonical `a`, `b`, `c` of any signs, `a * (b + c) == a*b + a*c`. -/
theorem C17_distributive (a b c : BigInteger) (ha : canonical a) (hb : canonical b)
    (hc : canonical c) (fuel : Nat) (hf : 4 ≤ fuel) :
    ∃ bc x ab ac y, add fuel b c = .ok bc ∧ mul a bc = .ok x ∧ mul a b = .ok ab ∧
      mul a c = .ok ac ∧ add fuel ab ac = .ok y ∧ eq x y = true := by
  obtain ⟨bc, s1, s2, s3⟩ := add_ok hb hc hf
  obtain ⟨x, x1, x2, x3⟩ := mul_spec ha s2
  obtain ⟨ab, p1, p2, p3⟩ := mul_spec ha hb
  obtain ⟨ac, q1, q2, q3⟩ := mul_spec ha hc
  obtain ⟨y, y1, y2, y3⟩ := add_ok p2 q2 hf
  exact ⟨bc, x, ab, ac, y, s1, x1, p1, q1, y1,
    eq_of_value x2 y2 (by rw [x3, s3, y3, p3, q3]; ring)⟩

/-- C17 at `a = -1000000007`, `b = 999999999999999999`, `c = -1000000000000000000`. -/
theorem C17_distributive_witness :
    (∃ bc x ab ac y,
      add 4 ⟨[999999999, 999999999], false⟩ ⟨[0, 0, 1], true⟩ = .ok bc ∧
      mul ⟨[7, 1], true⟩ bc = .ok x ∧
      mul ⟨[7, 1], true⟩ ⟨[999999999, 999999999], false⟩ = .ok ab ∧
      mul ⟨[7, 1], true⟩ ⟨[0, 0, 1], true⟩ = .ok ac ∧
      add 4 ab ac = .ok y ∧ eq x y = true) ∧
    add 4 ⟨[999999999, 999999999], false⟩ ⟨[0, 0, 1], true⟩ = .ok ⟨[1], true⟩ ∧
    mul ⟨[7, 1], true⟩ ⟨[1], true⟩ = .ok ⟨[7, 1], false⟩ :=
  ⟨C17_distributive ⟨[7, 1], true⟩ ⟨[999999999, 999999999], false⟩ ⟨[0, 0, 1], true⟩
      (by decide) (by decide) (by decide) 4 (by decide),
    by decide, by decide⟩

/-- C18: for canonical `a`, `b`, `c` of any signs, `+` and `*` are commutative and
associative up to `==`. -/
theorem C18_comm_assoc (a b c : BigInteger) (ha : canonical a) (hb : canonical b)
    (hc : canonical c) (fuel : Nat) (hf : 4 ≤ fuel) :
    (∃ x y, add fuel a b = .ok x ∧ add fuel b a = .ok y ∧ eq x y = true) ∧
    (∃ x y, mul a b = .ok x ∧ mul b a = .ok y ∧ eq x y = true) ∧
    (∃ ab x bc y, add fuel a b = .ok ab ∧ add fuel ab c = .ok x ∧
      add fuel b c = .ok bc ∧ add fuel a bc = .ok y ∧ eq x y = true) ∧
    (∃ ab x bc y, mul a b = .ok ab ∧ mul ab c = .ok x ∧
      mul b c = .ok bc ∧ mul a bc = .ok y ∧ eq x y = true) := by
  obtain ⟨sab, s1, s2, s3⟩ := add_ok ha hb hf
  obtain ⟨sba, t1, t2, t3⟩ := add_ok hb ha hf
  obtain ⟨pab, p1, p2, p3⟩ := mul_spec ha hb
  obtain ⟨pba, q1, q2, q3⟩ := mul_spec hb ha
  obtain ⟨sbc, u1, u2, u3⟩ := add_ok hb hc hf
  obtain ⟨pbc, v1, v2, v3⟩ := mul_spec hb hc
  obtain ⟨sl, l1, l2, l3⟩ := add_ok s2 hc hf
  obtain ⟨sr, m1, m2, m3⟩ := add_ok ha u2 hf
  obtain ⟨pl, n1, n2, n3⟩ := mul_spec p2 hc
  obtain ⟨pr, o1, o2, o3⟩ := mul_spec ha v2
  refine ⟨⟨sab, sba, s1, t1, eq_of_value s2 t2 (by rw [s3, t3]; ring)⟩,
    ⟨pab, pba, p1, q1, eq_of_value p2 q2 (by rw [p3, q3]; ring)⟩,
    ⟨sab, sl, sbc, sr, s1, l1, u1, m1, eq_of_value l2 m2 (by rw [l3, m3, s3, u3]; ring)⟩,
    ⟨pab, pl, pbc, pr, p1, n1, v1, o1, eq_of_value n2 o2 (by rw [n3, o3, p3, v3]; ring)⟩⟩

/-- C18 at `a = -1000000007`, `b = 999999999999999999`, `c = -1000000000000000000`. -/
theorem C18_comm_assoc_witness :
    ((∃ x y, add 4 ⟨[7, 1], true⟩ ⟨[999999999, 999999999], false⟩ = .ok x ∧
        add 4 ⟨[999999999, 999999999], false⟩ ⟨[7, 1], true⟩ = .ok y ∧ eq x y = true) ∧
      (∃ x y, mul ⟨[7, 1], true⟩ ⟨[999999999, 999999999], false⟩ = .ok x ∧
        mul ⟨[999999999, 999999999], false⟩ ⟨[7, 1], true⟩ = .ok y ∧ eq x y = true) ∧
      (∃ ab x bc y, add 4 ⟨[7, 1], true⟩ ⟨[999999999, 999999999], false⟩ = .ok ab ∧
        add 4 ab ⟨[0, 0, 1], true⟩ = .ok x ∧
        add 4 ⟨[999999999, 999999999], false⟩ ⟨[0, 0, 1], true⟩ = .ok bc ∧
        add 4 ⟨[7, 1], true⟩ bc = .ok y ∧ eq x y = true) ∧
      (∃ ab x bc y, mul ⟨[7, 1], true⟩ ⟨[999999999, 999999999], false⟩ = .ok ab ∧
        mul ab ⟨[0, 0, 1], true⟩ = .ok x ∧
        mul ⟨[999999999, 999999999], false⟩ ⟨[0, 0, 1], true⟩ = .ok bc ∧
        mul ⟨[7, 1], true⟩ bc = .ok y ∧ eq x y = true)) ∧
    add 4 ⟨[7, 1], true⟩ ⟨[999999999, 999999999], false⟩ = .ok ⟨[999999992, 999999998], false⟩ :=
  ⟨C18_comm_assoc ⟨[7, 1], true⟩ ⟨[999999999, 999999999], false⟩ ⟨[0, 0, 1], true⟩
      (by decide) (by decide) (by decide) 4 (by decide),
    by decide⟩

/-- C19: in the multiplication of canonical operands of `n` and `m` limbs, every index
`i + j` at which the inner loop accesses `result.digits` is below `n + m`, the loops
return a vector of `n + m` limbs, and `operator*` does not reach an access outside it. -/
theorem C19_mul_in_bounds (a b : BigInteger) (ha : canonical a) (hb : canonical b) :
    (∀ k ∈ mulAccesses 0 a.digits b.digits
        (List.replicate (a.digits.length + b.digits.length) 0),
      k < a.digits.length + b.digits.length) ∧
    (∃ r, mulOuter a.digits b.digits
        (List.replicate (a.digits.length + b.digits.length) 0) = .ok r ∧
      r.length = a.digits.length + b.digits.length) ∧
    mul a b ≠ .error .undefinedBehaviour := by
  obtain ⟨r, r1, r2, _, _⟩ := mulOuter_ok (a := a.digits) (b := b.digits) ha.2.1 hb.2.1
  refine ⟨?_, ⟨r, r1, r2⟩, ?_⟩
  · intro k hk
    have := mulAccesses_lt b.digits a.digits 0 _ r r1 k hk
    simpa using this
  · obtain ⟨p, p1, _⟩ := mul_spec ha hb
    rw [p1]
    intro h
    cases h

/-- C19 at `999999999999999999 * 999999999`, where the carry runs on past `j = m` in
both rows. -/
theorem C19_mul_in_bounds_witness :
    ((∀ k ∈ mulAccesses 0 (⟨[999999999, 999999999], false⟩ : BigInteger).digits
          (⟨[999999999], false⟩ : BigInteger).digits
          (List.replicate ((⟨[999999999, 999999999], false⟩ : BigInteger).digits.length +
            (⟨[999999999], false⟩ : BigInteger).digits.length) 0),
        k < (⟨[999999999, 999999999], false⟩ : BigInteger).digits.length +
          (⟨[999999999], false⟩ : BigInteger).digits.length) ∧
      (∃ r, mulOuter (⟨[999999999, 999999999], false⟩ : BigInteger).digits
          (⟨[999999999], false⟩ : BigInteger).digits
          (List.replicate ((⟨[999999999, 999999999], false⟩ : BigInteger).digits.length +
            (⟨[999999999], false⟩ : BigInteger).digits.length) 0) = .ok r ∧
        r.length = (⟨[999999999, 999999999], false⟩ : BigInteger).digits.length +
          (⟨[999999999], false⟩ : BigInteger).digits.length) ∧
      mul ⟨[999999999, 999999999], false⟩ ⟨[999999999], false⟩
        ≠ .error .undefinedBehaviour) ∧
    mulAccesses 0 [999999999, 999999999] [999999999] [0, 0, 0] = [0, 1, 1, 2] ∧
    mulOuter [999999999, 999999999] [999999999] [0, 0, 0]
      = .ok [1, 999999999, 999999998] :=
  ⟨C19_mul_in_bounds ⟨[999999999, 999999999], false⟩ ⟨[999999999], false⟩ (by decide)
      (by decide),
    by decide, by decide⟩

/-- C20: for canonical operands the native values of the arithmetic stay in the signed
64-bit range, and the evaluation with wrap-around is the evaluation over exact integers:
the sums of `operator+`; in `operator*` the values `result.digits[i + j] + carry`, the
products of two limbs, `prod` and the carries; in the fast path of `operator/` the value
`divdVal = limb0 + limb1 * BASE` and the quotient. -/
theorem C20_no_overflow (a b : BigInteger) (ha : canonical a) (hb : canonical b) :
    ((∀ s ∈ addSums a.digits b.digits 0, inInt64 s) ∧
      addLoop a.digits b.digits 0
        = (addSums a.digits b.digits 0).map (fun s => s.tmod BASE)) ∧
    ((∀ v ∈ mulVals a.digits b.digits
          (List.replicate (a.digits.length + b.digits.length) 0), inInt64 v) ∧
      mulOuter a.digits b.digits (List.replicate (a.digits.length + b.digits.length) 0)
        = mulOuterExact a.digits b.digits
            (List.replicate (a.digits.length + b.digits.length) 0)) ∧
    (∀ d0 d1 divVal fuel, a.digits = [d0, d1] → b.digits = [divVal] → value b ≠ 0 →
      2 ≤ fuel →
      inInt64 (d1 * BASE) ∧ inInt64 (d0 + d1 * BASE) ∧
      inInt64 ((d0 + d1 * BASE).tdiv divVal) ∧
      div fuel a b = .ok ⟨(ofLongLong ((d0 + d1 * BASE).tdiv divVal)).digits,
        (a.negative != b.negative) &&
          !(ofLongLong ((d0 + d1 * BASE).tdiv divVal)).isZero⟩) := by
  refine ⟨addSums_spec a.digits b.digits 0 ha.2.1 hb.2.1 (le_refl 0) (by decide), ?_, ?_⟩
  · obtain ⟨e1, e2⟩ := mulOuter_exact b.digits hb.2.1 a.digits
      (List.replicate (a.digits.length + b.digits.length) 0) ha.2.1
      (limbsOk_replicate_zero _)
    exact ⟨e2, e1.symm⟩
  · intro d0 d1 divVal fuel had hbd hb0 hf
    exact div_fast_exact ha hb had hbd hb0 hf

/-- C20 at `a = 999999999999999999`, `b = 999999999`, the largest limbs. -/
theorem C20_no_overflow_witness :
    (inInt64 (999999999 * BASE) ∧ inInt64 (999999999 + 999999999 * BASE) ∧
      inInt64 ((999999999 + 999999999 * BASE).tdiv 999999999) ∧
      div 2 ⟨[999999999, 999999999], false⟩ ⟨[999999999], false⟩
        = .ok ⟨(ofLongLong ((999999999 + 999999999 * BASE).tdiv 999999999)).digits,
          ((⟨[999999999, 999999999], false⟩ : BigInteger).negative !=
            (⟨[999999999], false⟩ : BigInteger).negative) &&
            !(ofLongLong ((999999999 + 999999999 * BASE).tdiv 999999999)).isZero⟩) ∧
    addSums [999999999, 999999999] [999999999] 0 = [1999999998, 1000000000, 1] ∧
    mulVals [999999999, 999999999] [999999999] [0, 0, 0]
      = [0, 999999998000000001, 999999998000000001, 999999998, 999999998, 0,
         999999998, 999999998000000001, 999999998999999999, 999999998, 999999998, 0] ∧
    div 2 ⟨[999999999, 999999999], false⟩ ⟨[999999999], false⟩ = .ok ⟨[1, 1], false⟩ :=
  ⟨(C20_no_overflow ⟨[999999999, 999999999], false⟩ ⟨[999999999], false⟩ (by decide)
      (by decide)).2.2 999999999 999999999 999999999 2 rfl rfl (by decide) (by decide),
    by decide, by decide, by decide⟩

end BigInteger

end Shamir
